import Mathlib

/-!
# Sudoku solver: embedding of `sudoku.go`

A shallow embedding of the constraint-propagation / backtracking solver.

Conventions.
* A Go `*Entry` is modelled by the index of the entry in its grid: grids are
  built only by `NewGrid` and `Grid.Clone`, so every pointer occurs once and
  pointer equality is index equality.
* `[]int` candidate slices are `List Nat` (every value stored comes from a
  literal `1..9` or from `strconv.Atoi` on one character, never negative).
* Strings index by byte in Go; the puzzle alphabet is ASCII, so a byte is a
  `Char` here.
* `sort.Sort` is a library routine that is not stable; it is a parameter
  (`SortImpl`) constrained to its documented contract.
* A run-time fault (index out of range) is `none`; the search loop carries an
  explicit bound on the number of pops.
* Grids are values here, so sharing between a grid and its clone cannot be
  expressed; for `Clone` alone the entries and their slices are placed in an
  explicit memory (`Heap`), at the end of the definitions.
-/

namespace Sudoku

/-! ## Entry -/

structure Entry where
  Value : List Nat
  Row : Nat
  Column : Nat
deriving DecidableEq

/-- Value of `strconv.Atoi` on a one-character string with the error dropped:
the digit for `'0'..'9'`, and `0` for anything else. -/
def atoi (s : Char) : Nat :=
  if s.isDigit then s.toNat - 48 else 0

def NewEntry (s : Char) (r c : Nat) : Entry :=
  if s = '.' then
    { Value := [1, 2, 3, 4, 5, 6, 7, 8, 9], Row := r, Column := c }
  else
    { Value := [atoi s], Row := r, Column := c }

def Entry.Clone (e : Entry) : Entry :=
  { Value := [] ++ e.Value, Row := e.Row, Column := e.Column }

def Entry.Block (e : Entry) : Nat :=
  (e.Row / 3) * 3 + (e.Column / 3)

def Entry.IsValid (e : Entry) : Bool :=
  decide (e.Value.length > 0)

def Entry.IsSolved (e : Entry) : Bool :=
  decide (e.Value.length = 1)

/-- Scan of `Entry.index` from position `i` on. -/
def indexFrom (target : Nat) : List Nat → Int → Int
  | [], _ => -1
  | v :: vs, i => if target = v then i else indexFrom target vs (i + 1)

def Entry.index (e : Entry) (target : Nat) : Int :=
  indexFrom target e.Value 0

/-- The entry after `Remove`, and the returned flag. -/
def Entry.Remove (e : Entry) (target : Nat) : Entry × Bool :=
  let i := e.index target
  if i = -1 then (e, false)
  else
    ({ e with Value := e.Value.take i.toNat ++ e.Value.drop (i.toNat + 1) }, true)

/-! ## Grid -/

abbrev Grid := List Entry

/-- Inner loop of `NewGrid`: columns `c, c+1, ..` of row `r`, `n` of them. -/
def newGridCols (puzzle : List Char) (r : Nat) : Nat → Nat → Grid → Option Grid
  | 0, _, grid => some grid
  | n + 1, c, grid =>
    match puzzle[9 * r + c]? with
    | none => none
    | some s => newGridCols puzzle r n (c + 1) (grid ++ [NewEntry s r c])

/-- Outer loop of `NewGrid`: rows `r, r+1, ..`, `n` of them. -/
def newGridRows (puzzle : List Char) : Nat → Nat → Grid → Option Grid
  | 0, _, grid => some grid
  | n + 1, r, grid =>
    match newGridCols puzzle r 9 0 grid with
    | none => none
    | some grid1 => newGridRows puzzle n (r + 1) grid1

/-- Builds the grid; `none` is the index-out-of-range fault on a short string. -/
def NewGrid (puzzle : String) : Option Grid :=
  newGridRows puzzle.toList 9 0 []

/-- The piece written for one entry by `GridToString`. -/
def entryChars (e : Entry) : List Char :=
  match e.Value with
  | [v] => (Nat.repr v).toList
  | _ => ['.']

def GridToString (grid : Grid) : String :=
  grid.foldl (fun buf e => buf ++ String.mk (entryChars e)) ""

def Grid.Clone (g : Grid) : Grid :=
  g.foldl (fun grid e => grid ++ [e.Clone]) []

/-- Overwrites the candidates at `9 * r + c`; `none` is the out-of-range fault. -/
def Grid.SetValue (g : Grid) (v : List Nat) (r c : Nat) : Option Grid :=
  let pos := 9 * r + c
  match g[pos]? with
  | none => none
  | some e => some (g.set pos { e with Value := v })

def Grid.IsSolved (g : Grid) : Bool :=
  g.all fun entry => entry.IsSolved

def Grid.IsValid (g : Grid) : Bool :=
  g.all fun entry => entry.IsValid

/-- The scan `for _, entry := range grid` of `sameNeighbourhood`, from index
`j` on: `a` is `attr(e)` and `i` is the index of `e`. -/
def sameNeighbourhoodFrom (attr : Entry → Nat) (a i : Nat) : Nat → List Entry → List Nat
  | _, [] => []
  | j, entry :: rest =>
    if a = attr entry ∧ i ≠ j then j :: sameNeighbourhoodFrom attr a i (j + 1) rest
    else sameNeighbourhoodFrom attr a i (j + 1) rest

/-- Indices sent on the channel by `sameNeighbourhood` for the entry at `i`,
in sending order. -/
def Grid.sameNeighbourhood (g : Grid) (i : Nat) (attr : Entry → Nat) : List Nat :=
  match g[i]? with
  | none => []
  | some e => sameNeighbourhoodFrom attr (attr e) i 0 g

def Grid.SameRow (g : Grid) (i : Nat) : List Nat :=
  g.sameNeighbourhood i fun e => e.Row

def Grid.SameColumn (g : Grid) (i : Nat) : List Nat :=
  g.sameNeighbourhood i fun e => e.Column

def Grid.SameBlock (g : Grid) (i : Nat) : List Nat :=
  g.sameNeighbourhood i fun e => e.Block

/-- The loop `for q := range ch { q.Remove(target) }` over received indices. -/
def removeEach (target : Nat) : List Nat → Grid → Grid
  | [], g => g
  | q :: qs, g =>
    match g[q]? with
    | none => removeEach target qs g
    | some e => removeEach target qs (g.set q (e.Remove target).1)

/-! ## Stack -/

/-- The stack; the top is the last element, as in the slice. -/
abbrev Stack := List Grid

def Stack.Empty (s : Stack) : Bool := decide (s.length = 0)

def Stack.Size (s : Stack) : Nat := s.length

/-- Popped grid (`none` for Go's `nil`), the flag, and the stack left. -/
def Stack.Pop (s : Stack) : Option Grid × Bool × Stack :=
  let n := s.length
  if n = 0 then (none, false, s)
  else (s[n - 1]?, true, s.take (n - 1))

def Stack.Push (s : Stack) (grid : Grid) : Stack := s ++ [grid]

def Stack.Peek (s : Stack) : Option Grid := s[s.length - 1]?

/-! ## Solver -/

structure Solver where
  Puzzle : String
  Solution : String
  curr : Grid
  grids : Stack

/-- The three receive loops run by `Eliminate` for the solved entry at `i`:
`target` is removed from the row, then the column, then the block of `i`. -/
def elimStep (target i : Nat) (grid : Grid) : Grid :=
  let g1 := removeEach target (grid.SameRow i) grid
  let g2 := removeEach target (g1.SameColumn i) g1
  removeEach target (g2.SameBlock i) g2

/-- Body of the `for _, e := range grid` loop of `Eliminate` over the
indices still to visit; returns the flag and the grid left behind. -/
def eliminateLoop : List Nat → Grid → Bool × Grid
  | [], grid => (true, grid)
  | i :: rest, grid =>
    match grid[i]? with
    | none => eliminateLoop rest grid
    | some e =>
      if e.IsSolved then
        let target := e.Value.headD 0
        let g3 := elimStep target i grid
        if !g3.IsValid then (false, g3) else eliminateLoop rest g3
      else eliminateLoop rest grid

def Grid.Eliminate (grid : Grid) : Bool × Grid :=
  eliminateLoop (List.range grid.length) grid

def Solver.Eliminate (s : Solver) : Bool × Solver :=
  let r := s.curr.Eliminate
  (r.1, { s with curr := r.2 })

def ByValueLength.Less (a b : Entry) : Bool :=
  decide (a.Value.length < b.Value.length)

/-- An implementation of `sort.Sort` on `ByValueLength`: the result is a
rearrangement of the input in which no element is `Less` than an earlier one.
Nothing is assumed about the order of elements of equal length. -/
structure SortImpl where
  sort : List Entry → List Entry
  perm : ∀ l, (sort l).Perm l
  sorted : ∀ l, (sort l).Pairwise fun a b => ByValueLength.Less b a = false

/-- The loop `for _, v := range p.Value` of `Guess`. -/
def guessPush (grid : Grid) (r c : Nat) : List Nat → Stack → Option Stack
  | [], grids => some grids
  | v :: vs, grids =>
    match (Grid.Clone grid).SetValue [v] r c with
    | none => none
    | some clone => guessPush grid r c vs (grids.Push clone)

def Grid.Guess (S : SortImpl) (grid : Grid) (grids : Stack) : Option Stack :=
  let entries := grid.filter fun e => !e.IsSolved
  match S.sort entries with
  | [] => none
  | p :: _ => guessPush grid p.Row p.Column p.Value grids

def Solver.Guess (S : SortImpl) (s : Solver) : Option Solver :=
  match s.curr.Guess S s.grids with
  | none => none
  | some grids => some { s with grids := grids }

/-- Rendering at the label `Done`. -/
def Solver.done (s : Solver) : Solver × String × Bool :=
  let soln := GridToString s.curr
  ({ s with Solution := soln }, soln, true)

/-- The `for (!s.grids.Empty())` loop of `Solve`, at most `fuel` pops.
Outer `none`: the bound was reached; inner `none`: a run-time fault. -/
def solveLoop (S : SortImpl) : Nat → Solver → Option (Option (Solver × String × Bool))
  | 0, s => if s.grids.Empty then some (some (s, "No solution found", false)) else none
  | fuel + 1, s =>
    if s.grids.Empty then some (some (s, "No solution found", false))
    else
      match s.grids.Pop with
      | (none, _, _) => some none
      | (some grid, _, rest) =>
        let s1 : Solver := { s with grids := rest, curr := grid }
        let r := s1.Eliminate
        if !r.1 then solveLoop S fuel r.2
        else if r.2.curr.IsSolved then some (some r.2.done)
        else
          match r.2.Guess S with
          | none => some none
          | some s2 => solveLoop S fuel s2

def Solver.Solve (S : SortImpl) (fuel : Nat) (s : Solver) (puzzle : String) :
    Option (Option (Solver × String × Bool)) :=
  let s : Solver := { s with Puzzle := puzzle }
  let s : Solver := { s with Solution := "" }
  match NewGrid puzzle with
  | none => some none
  | some grid =>
    let s : Solver := { s with curr := grid }
    let s : Solver := { s with grids := [] }
    let r := s.Eliminate
    if !r.1 then some (some (r.2, "Invalid puzzle", false))
    else if r.2.curr.IsSolved then some (some r.2.done)
    else
      match r.2.Guess S with
      | none => some none
      | some s2 => solveLoop S fuel s2

/-- Comparison used by the reference sort: not longer than. -/
def lenLe (a b : Entry) : Prop := a.Value.length ≤ b.Value.length

instance : DecidableRel lenLe := fun a b => Nat.decLe a.Value.length b.Value.length

instance : IsTotal Entry lenLe := ⟨fun a b => Nat.le_total a.Value.length b.Value.length⟩

instance : IsTrans Entry lenLe := ⟨fun _ _ _ h1 h2 => Nat.le_trans h1 h2⟩

/-- A stable insertion sort: one admissible `sort.Sort` (the routine Go runs on
short slices). -/
def insertionSortImpl : SortImpl where
  sort l := l.insertionSort lenLe
  perm l := List.perm_insertionSort lenLe l
  sorted l := by
    have h := List.sorted_insertionSort lenLe l
    refine List.Pairwise.imp ?_ h
    intro a b hab
    simp only [ByValueLength.Less, decide_eq_false_iff_not, not_lt]
    exact hab

/-- An unused solver value, as `Solver{}` in `main`. -/
def Solver.zero : Solver := { Puzzle := "", Solution := "", curr := [], grids := [] }


/-! ## Vocabulary of the statements -/

/-- The entry `e` after `n` calls of `Remove(t)`. -/
def dropN (t n : Nat) (e : Entry) : Entry :=
  { e with Value := (fun l : List Nat => l.erase t)^[n] e.Value }

/-- Entries at `i` and `j` are distinct and share a row, a column or a block
(as recorded in their own `Row` and `Column` fields). -/
def Peer (g : Grid) (i j : Nat) : Prop :=
  i ≠ j ∧ ∃ e entry, g[i]? = some e ∧ g[j]? = some entry ∧
    (e.Row = entry.Row ∨ e.Column = entry.Column ∨ e.Block = entry.Block)

/-- Same position fields, candidates a sub-list. -/
def Entry.Below (e1 e : Entry) : Prop :=
  e1.Row = e.Row ∧ e1.Column = e.Column ∧ e1.Value.Sublist e.Value

/-- Grid `g1` is `g` with candidates struck out. -/
def Refines (g1 g : Grid) : Prop :=
  g1.length = g.length ∧ ∀ (i : Nat) (e1 e : Entry), g1[i]? = some e1 → g[i]? = some e → e1.Below e

/-- Every candidate list of the grid is free of repetitions. -/
def NodupGrid (g : Grid) : Prop :=
  ∀ (i : Nat) (e : Entry), g[i]? = some e → e.Value.Nodup

/-- The assignment `T` (cell index to digit) is still possible in `g`. -/
def Compat (T : Nat → Nat) (g : Grid) : Prop :=
  ∀ (i : Nat) (e : Entry), g[i]? = some e → T i ∈ e.Value

/-- The assignment `T` gives different digits to any two peers of `g`. -/
def ConflictFree (T : Nat → Nat) (g : Grid) : Prop :=
  ∀ i j : Nat, Peer g i j → T i ≠ T j

/-- Each of the 81 entries records its own position: row `i / 9`, column `i % 9`. -/
def Positioned (g : Grid) : Prop :=
  g.length = 81 ∧ ∀ (i : Nat) (e : Entry), g[i]? = some e → e.Row = i / 9 ∧ e.Column = i % 9

/-- The characters of a puzzle string: the blank marker and the digits. -/
def alphabet : List Char := ['.', '1', '2', '3', '4', '5', '6', '7', '8', '9']

/-- An 81-character puzzle string over the blank marker and `'1'..'9'`. -/
def WellFormed (puzzle : String) : Prop :=
  puzzle.length = 81 ∧ ∀ c ∈ puzzle.toList, c ∈ alphabet

instance (puzzle : String) : Decidable (WellFormed puzzle) :=
  inferInstanceAs (Decidable (_ ∧ _))

/-- The entry `Guess` branches on: the head of the sorted unsolved entries. -/
def Grid.chosen (S : SortImpl) (grid : Grid) : Option Entry :=
  (S.sort (grid.filter fun e => !e.IsSolved)).head?

/-- The grids `Guess` pushes for `grid`, in pushing order. -/
def Grid.children (S : SortImpl) (grid : Grid) : List Grid :=
  match grid.chosen S with
  | none => []
  | some p => p.Value.map fun v => grid.set (9 * p.Row + p.Column) { p with Value := [v] }

/-- Total number of candidates of a grid. -/
def weight (g : Grid) : Nat := (g.map fun e => e.Value.length).sum

/-- Bound on the number of pops the search can still make from a stack. -/
def stackMeasure (st : Stack) : Nat := (st.map fun g => 3 ^ weight g).sum

/-- Candidate lists without repetition whose members are digits `1..9`. -/
def DigitGrid (g : Grid) : Prop :=
  ∀ (i : Nat) (e : Entry), g[i]? = some e → e.Value.Nodup ∧ ∀ v ∈ e.Value, 1 ≤ v ∧ v ≤ 9

/-- The digit written at cell `i` of a grid string (`0` when there is none). -/
def cellDigit (s : String) (i : Nat) : Nat :=
  match s.toList[i]? with
  | some c => atoi c
  | none => 0

/-- Number of cells of row `u` holding `d`. -/
def rowCount (T : Nat → Nat) (u d : Nat) : Nat :=
  ((List.range 81).filter fun i => decide (i / 9 = u) && decide (T i = d)).length

/-- Number of cells of column `u` holding `d`. -/
def colCount (T : Nat → Nat) (u d : Nat) : Nat :=
  ((List.range 81).filter fun i => decide (i % 9 = u) && decide (T i = d)).length

/-- Number of cells of block `u` holding `d`. -/
def blockCount (T : Nat → Nat) (u d : Nat) : Nat :=
  ((List.range 81).filter fun i => decide ((i / 9 / 3) * 3 + i % 9 / 3 = u) && decide (T i = d)).length

/-- Every row, column and 3x3 block holds each digit `1..9` exactly once. -/
def EachOnce (T : Nat → Nat) : Prop :=
  ∀ u < 9, ∀ d < 10, 1 ≤ d → rowCount T u d = 1 ∧ colCount T u d = 1 ∧ blockCount T u d = 1

instance (T : Nat → Nat) : Decidable (EachOnce T) :=
  inferInstanceAs (Decidable (∀ u < 9, ∀ d < 10, 1 ≤ d → _))

/-- `T` assigns a digit `1..9` to each of the 81 cells, agrees with every clue
of `puzzle`, and has each digit once in every row, column and block. -/
def IsCompletion (puzzle : String) (T : Nat → Nat) : Prop :=
  (∀ i < 81, 1 ≤ T i ∧ T i ≤ 9) ∧
  (∀ (i : Nat) (c : Char), puzzle.toList[i]? = some c → c ≠ '.' → T i = atoi c) ∧
  EachOnce T

/-- The digit characters. -/
def digitChars : List Char := ['1', '2', '3', '4', '5', '6', '7', '8', '9']

/-- A solver holding `grid` as its current grid and nothing else. -/
def Solver.onGrid (grid : Grid) : Solver :=
  { Puzzle := "", Solution := "", curr := grid, grids := [] }

/-- The grid `NewGrid` builds, empty when `NewGrid` faults. -/
def gridOf (puzzle : String) : Grid := (NewGrid puzzle).getD []

/-- A correctly filled grid (the solution of the first puzzle of `main`). -/
def filledPuzzle : String :=
  "417369825632158947958724316825437169791586432346912758289643571573291684164875293"

/-- The first puzzle of `main`. -/
def firstPuzzle : String :=
  "4.....8.5.3..........7......2.....6.....8.4......1.......6.3.7.5..2.....1.4......"

/-- Two equal clues side by side in the first row. -/
def clashPuzzle : String :=
  "55..............................................................................."

/-- One clue, in the first cell. -/
def oneCluePuzzle : String :=
  "1................................................................................"

/-- The first row lacks only its first digit. -/
def lateSinglePuzzle : String :=
  ".23456789........................................................................"

/-! ## Strict evaluation

The functions below compute the same values as `elimStep` and `eliminateLoop`
(theorems `fastStep_eq` and `fastLoop_eq`) but normalise the grid after every
step, so that a pass over 81 entries can be evaluated on a concrete grid. -/

/-- Evaluates `n` before continuing. -/
def forceNat {α : Type} (n : Nat) (k : Nat → α) : α :=
  match n with
  | 0 => k 0
  | m + 1 => k (m + 1)

/-- Evaluates every member of the list before continuing. -/
def forceList {α : Type} : List Nat → (List Nat → α) → α
  | [], k => k []
  | x :: xs, k => forceNat x fun x1 => forceList xs fun xs1 => k (x1 :: xs1)

/-- Evaluates the three fields of the entry before continuing. -/
def forceEntry {α : Type} (e : Entry) (k : Entry → α) : α :=
  forceList e.Value fun v => forceNat e.Row fun r => forceNat e.Column fun c =>
    k { Value := v, Row := r, Column := c }

/-- Evaluates every entry of the grid before continuing. -/
def forceGrid {α : Type} : Grid → (Grid → α) → α
  | [], k => k []
  | e :: es, k => forceEntry e fun e1 => forceGrid es fun es1 => k (e1 :: es1)

/-- How many of the three receive loops for `ei` reach the other entry `e`. -/
def hits (ei e : Entry) : Nat :=
  (if ei.Row = e.Row then 1 else 0) + (if ei.Column = e.Column then 1 else 0) +
    (if ei.Block = e.Block then 1 else 0)

/-- One traversal doing the work of `elimStep` for the entry `ei` at index `i`. -/
def fastStepFrom (t i : Nat) (ei : Entry) : Nat → Grid → Grid
  | _, [] => []
  | j, e :: es =>
    (if i = j then e else dropN t (hits ei e) e) ::
      forceNat (j + 1) fun j1 => fastStepFrom t i ei j1 es

/-- The loop of `Eliminate` with `fastStepFrom` for the step and a normalised
grid after each step. -/
def fastLoop : List Nat → Grid → Bool × Grid
  | [], grid => (true, grid)
  | i :: rest, grid =>
    match grid[i]? with
    | none => fastLoop rest grid
    | some e =>
      if e.IsSolved then
        forceGrid (fastStepFrom (e.Value.headD 0) i e 0 grid) fun g3 =>
          if !g3.IsValid then (false, g3) else fastLoop rest g3
      else fastLoop rest grid

/-- A puzzle whose clues cannot be completed, yet no two clues clash. -/
def lateConflictPuzzle : String :=
  "698371.24412689.733.74..986176532849523948761984167235845796312231854697769213458"

/-- The grid returned for `lateConflictPuzzle`: two 5s in column 6 and in row 2. -/
def lateConflictResult : String :=
  "698371524412689573357425986176532849523948761984167235845796312231854697769213458"

/-- The grid `g` with the candidate lists at the listed indices replaced. -/
def withCands (g : Grid) : List (Nat × List Nat) → Grid
  | [] => g
  | (i, v) :: rest =>
    withCands (match g[i]? with
      | some e => g.set i { e with Value := v }
      | none => g) rest

/-- A puzzle with exactly one completion on which the search goes wrong. -/
def guessPuzzle : String :=
  ".956317424..85..63..3.279859.41.....15.76.294.3.94.51854.3186273.1276459.6.594.31"

/-- The one completion of `guessPuzzle`. -/
def guessSolution : String :=
  "895631742472859163613427985924185376158763294736942518549318627381276459267594831"

/-- The grid `Solve` returns for `guessPuzzle`: two 2s in column 1, two 7s in column 0. -/
def guessResult : String :=
  "895631742427859163613427985924185376158763294736942518549318627381276459762594831"

/-- The grid left by the first pass on `guessPuzzle`: eight entries are unsolved,
and only the one at index 11 has two candidates. -/
def guessAfterPass : Grid :=
  withCands (gridOf guessSolution)
    [(10, [1, 2, 7]), (11, [2, 7]), (28, [2, 7, 8]), (32, [2, 3, 5]), (45, [2, 6, 7]),
     (47, [2, 6, 7]), (72, [2, 7, 8]), (74, [2, 7, 8])]

/-- The entry `Guess` branches on in `guessAfterPass`. -/
def guessEntry : Entry := { Value := [2, 7], Row := 1, Column := 2 }

/-- The branch of `guessAfterPass` with candidate `v` at index 11. -/
def guessBranch (v : Nat) : Grid :=
  guessAfterPass.set 11 { guessEntry with Value := [v] }


/-! ## Sorts that keep or break the order of equal keys -/

/-- The pass `for i := a + 6; i < b; i++ { if Less(i, i-6) { Swap(i, i-6) } }`
on a slice of at most 12 elements, split into its first six elements and the
rest: element `i` is compared with element `i - 6`, and no position is
touched twice. -/
def gapSwap : List Entry → List Entry → List Entry × List Entry
  | a :: front, b :: back =>
    let r := gapSwap front back
    if ByValueLength.Less b a then (b :: r.1, a :: r.2) else (a :: r.1, b :: r.2)
  | front, [] => (front, [])
  | [], back => ([], back)

def shellPass (l : List Entry) : List Entry :=
  let r := gapSwap (l.take 6) (l.drop 6)
  r.1 ++ r.2

/-- An admissible `sort.Sort` that is not stable. On slices of at most 12
elements it is the routine of Go 1.6 to 1.18 (one pass with gap 6, then
insertion sort); on longer slices it is merely one sort meeting the contract. -/
def shellSortImpl : SortImpl where
  sort l := (shellPass l).insertionSort lenLe
  perm l := by
    have key : ∀ front back : List Entry,
        ((gapSwap front back).1 ++ (gapSwap front back).2).Perm (front ++ back) := by
      intro front
      induction front with
      | nil =>
        intro back
        cases back <;> simp [gapSwap]
      | cons a front ih =>
        intro back
        cases back with
        | nil => simp [gapSwap]
        | cons b back =>
          have h := ih back
          simp only [gapSwap]
          split
          · simp only [List.cons_append]
            exact ((List.perm_middle.trans (List.Perm.cons a h)).cons b).trans
              ((List.Perm.swap a b _).trans (List.perm_middle.symm.cons a))
          · simp only [List.cons_append]
            refine List.Perm.cons a ?_
            exact List.Perm.trans List.perm_middle
              (List.Perm.trans (List.Perm.cons b h) List.perm_middle.symm)
    refine (List.perm_insertionSort lenLe (shellPass l)).trans ?_
    have h := key (l.take 6) (l.drop 6)
    rw [List.take_append_drop] at h
    exact h
  sorted l := by
    have h := List.sorted_insertionSort lenLe (shellPass l)
    refine List.Pairwise.imp ?_ h
    intro a b hab
    simp only [ByValueLength.Less, decide_eq_false_iff_not, not_lt]
    exact hab

/-- On the slice `l` the sort keeps entries with equally many candidates in
their original order. -/
def StableOn (S : SortImpl) (l : List Entry) : Prop :=
  ∀ (k : Nat),
    (S.sort l).filter (fun e => decide (e.Value.length = k)) =
      l.filter (fun e => decide (e.Value.length = k))

/-- The sort keeps entries with equally many candidates in their original order. -/
def StableSort (S : SortImpl) : Prop :=
  ∀ (l : List Entry), StableOn S l

/-- A puzzle whose first pass leaves seven unsolved entries, six of them with
two candidates. -/
def tiePuzzle : String :=
  "41..69..563..58..795..24.16825437169791586432346912758289643571573291684164875293"

/-- The grid left by the first pass on `tiePuzzle`. -/
def tieAfterPass : Grid :=
  withCands (gridOf filledPuzzle)
    [(2, [2, 7, 8]), (3, [3, 7]), (6, [3, 8]), (16, [2, 4]), (20, [7, 8]), (21, [3, 7]),
     (24, [3, 8])]

/-! ## The sort of newer Go releases on short slices -/

/-- The call `Less(i, j)` on the slice `l`. -/
def lessAt (l : List Entry) (i j : Nat) : Bool :=
  match l[i]?, l[j]? with
  | some a, some b => ByValueLength.Less a b
  | _, _ => false

/-- The call `Swap(i, j)` on the slice `l`. -/
def swapAt (l : List Entry) (i j : Nat) : List Entry :=
  match l[i]?, l[j]? with
  | some a, some b => (l.set i b).set j a
  | _, _ => l

/-- The places `a`, `b` in the order of their elements, as `order2` of the
library does. -/
def order2 (l : List Entry) (a b : Nat) : Nat × Nat :=
  if lessAt l b a then (b, a) else (a, b)

/-- The place of the median of the elements at `a`, `b`, `c`. -/
def median (l : List Entry) (a b c : Nat) : Nat :=
  let p := order2 l a b
  let q := order2 l p.2 c
  (order2 l p.1 q.1).2

/-- The loop `for i <= j && Less(i, a) { i++ }` of `partition`, with `a = 0`. -/
def scanUp (l : List Entry) (j : Nat) : Nat → Nat → Nat
  | 0, i => i
  | fuel + 1, i => if i ≤ j ∧ lessAt l i 0 = true then scanUp l j fuel (i + 1) else i

/-- The loop `for i <= j && !Less(j, a) { j-- }` of `partition`, with `a = 0`. -/
def scanDown (l : List Entry) (i : Nat) : Nat → Nat → Nat
  | 0, j => j
  | fuel + 1, j => if i ≤ j ∧ lessAt l j 0 = false then scanDown l i fuel (j - 1) else j

/-- The rounds of `partition` after the pivot was swapped to place 0: both
scans, then `Swap(i, j)` and another round, or `Swap(j, a)` when they met. -/
def partitionLoop : Nat → List Entry → Nat → Nat → List Entry
  | 0, l, _, j => swapAt l j 0
  | fuel + 1, l, i, j =>
    let i1 := scanUp l j l.length i
    let j1 := scanDown l i1 l.length j
    if i1 > j1 then swapAt l j1 0
    else partitionLoop fuel (swapAt l i1 j1) (i1 + 1) (j1 - 1)

/-- The slice after `partition(data, 0, n, pivot)`. -/
def partition (l : List Entry) (pivot : Nat) : List Entry :=
  partitionLoop l.length (swapAt l 0 pivot) 1 (l.length - 1)

/-- No element is `Less` than the one before it: the case in which
`partialInsertionSort` reports a sorted slice. -/
def noDescent (l : List Entry) : Bool :=
  (List.range l.length).all fun i => i = 0 || !lessAt l i (i - 1)

/-- What pdqsort does to a slice of 13 elements before both sides are
insertion-sorted: nothing if the slice is in order, else one `partition`
around the median of the elements at places `n/4`, `2*(n/4)`, `3*(n/4)`. -/
def pdqPass (l : List Entry) : List Entry :=
  if l.length ≤ 12 then l
  else if noDescent l then l
  else partition l (median l (l.length / 4) (l.length / 4 * 2) (l.length / 4 * 3))

/-- An admissible `sort.Sort` that is not stable. On slices of at most 13
elements it is the routine of Go 1.19 and later (pdqsort): insertion sort up
to 12 elements; on 13 elements one partition, after which the part before the
pivot and the part after it are insertion-sorted, which comes to
insertion-sorting the partitioned slice. On longer slices it is merely one
sort meeting the contract. -/
def pdqSortImpl : SortImpl where
  sort l := (pdqPass l).insertionSort lenLe
  perm l := by
    have hswap : ∀ (l : List Entry) (i j : Nat), (swapAt l i j).Perm l := by
      intro l i j
      unfold swapAt
      cases hi : l[i]? with
      | none => exact List.Perm.refl l
      | some a =>
        cases hj : l[j]? with
        | none => exact List.Perm.refl l
        | some b =>
          simp only
          obtain ⟨hil, hia⟩ := List.getElem?_eq_some.1 hi
          obtain ⟨hjl, hjb⟩ := List.getElem?_eq_some.1 hj
          rw [List.perm_iff_count]
          intro x
          have hjl2 : j < (l.set i b).length := by rw [List.length_set]; exact hjl
          rw [List.count_set a x (l.set i b) j hjl2, List.count_set b x l i hil, hia]
          have hget : (l.set i b)[j] = b := by
            rw [List.getElem_set]
            split
            · rfl
            · exact hjb
          rw [hget]
          have hpos : (a == x) = true → 0 < l.count x := by
            intro hax
            have : a = x := by simpa using hax
            subst this
            exact List.count_pos_iff.2 (List.getElem?_mem hi)
          by_cases hax : (a == x) = true <;> by_cases hbx : (b == x) = true
          · have := hpos hax
            simp only [hax, hbx, if_true]
            omega
          · have := hpos hax
            simp only [hax, hbx, if_true, if_false, Bool.false_eq_true]
            omega
          · simp only [hax, hbx, if_true, if_false, Bool.false_eq_true]
            omega
          · simp only [hax, hbx, if_false, Bool.false_eq_true]
            omega
    have hloop : ∀ (fuel : Nat) (l : List Entry) (i j : Nat),
        (partitionLoop fuel l i j).Perm l := by
      intro fuel
      induction fuel with
      | zero => intro l i j; exact hswap l j 0
      | succ n ih =>
        intro l i j
        simp only [partitionLoop]
        split
        · exact hswap l _ 0
        · exact (ih _ _ _).trans (hswap l _ _)
    have hpass : (pdqPass l).Perm l := by
      unfold pdqPass
      split
      · exact List.Perm.refl l
      · split
        · exact List.Perm.refl l
        · exact (hloop _ _ _ _).trans (hswap l 0 _)
    exact (List.perm_insertionSort lenLe (pdqPass l)).trans hpass
  sorted l := by
    have h := List.sorted_insertionSort lenLe (pdqPass l)
    refine List.Pairwise.imp ?_ h
    intro a b hab
    simp only [ByValueLength.Less, decide_eq_false_iff_not, not_lt]
    exact hab

/-- A puzzle whose first pass leaves thirteen unsolved entries, nine of them
with two candidates. -/
def pdqPuzzle : String :=
  "417369825632158947958724316825437169791586432346912758.8.6..57..7.2..68..6487.29."

/-- The grid left by the first pass on `pdqPuzzle`. -/
def pdqAfterPass : Grid :=
  withCands (gridOf filledPuzzle)
    [(54, [1, 2]), (56, [3, 9]), (58, [4, 9]), (59, [1, 3]), (62, [1, 3, 4]), (63, [1, 5]),
     (65, [3, 9]), (67, [4, 9]), (68, [1, 3, 5]), (71, [1, 3, 4]), (72, [1, 5]),
     (77, [1, 3, 5]), (80, [1, 3])]

/-! ## The search with a record of the grids `Guess` runs on -/

/-- The loop of `Solve` as in `solveLoop`, returning beside the result the
grids held in `curr` at each call of `Guess`, in calling order. -/
def solveLoopT (S : SortImpl) :
    Nat → Solver → Option (Option (Solver × String × Bool)) × List Grid
  | 0, s => (if s.grids.Empty then some (some (s, "No solution found", false)) else none, [])
  | fuel + 1, s =>
    if s.grids.Empty then (some (some (s, "No solution found", false)), [])
    else
      match s.grids.Pop with
      | (none, _, _) => (some none, [])
      | (some grid, _, rest) =>
        let s1 : Solver := { s with grids := rest, curr := grid }
        let r := s1.Eliminate
        if !r.1 then solveLoopT S fuel r.2
        else if r.2.curr.IsSolved then (some (some r.2.done), [])
        else
          match r.2.Guess S with
          | none => (some none, [r.2.curr])
          | some s2 =>
            let t := solveLoopT S fuel s2
            (t.1, r.2.curr :: t.2)

/-- The method `Solve` as in `Solver.Solve`, with the same record. -/
def Solver.SolveT (S : SortImpl) (fuel : Nat) (s : Solver) (puzzle : String) :
    Option (Option (Solver × String × Bool)) × List Grid :=
  let s : Solver := { s with Puzzle := puzzle }
  let s : Solver := { s with Solution := "" }
  match NewGrid puzzle with
  | none => (some none, [])
  | some grid =>
    let s : Solver := { s with curr := grid }
    let s : Solver := { s with grids := [] }
    let r := s.Eliminate
    if !r.1 then (some (some (r.2, "Invalid puzzle", false)), [])
    else if r.2.curr.IsSolved then (some (some r.2.done), [])
    else
      match r.2.Guess S with
      | none => (some none, [r.2.curr])
      | some s2 =>
        let t := solveLoopT S fuel s2
        (t.1, r.2.curr :: t.2)

/-! ## Memory model for `Clone`

The definitions above treat a grid as a value. To say that a clone shares
nothing with its source, entries and candidate slices are placed in a memory
of backing arrays and `Entry` objects, and `Clone`, `SetValue` and `Remove`
are translated again with their writes made explicit. -/

/-- A slice header `[]int`: backing array and length. Every slice of the
program begins at the first element of its array. -/
structure SliceH where
  arr : Nat
  len : Nat
deriving DecidableEq

/-- An `Entry` object in memory. -/
structure EntryH where
  Value : SliceH
  Row : Nat
  Column : Nat

/-- The memory: backing arrays and `Entry` objects, each found by address. -/
structure Heap where
  arrays : List (List Nat)
  objs : List EntryH

/-- A `Grid` value `[]*Entry`: the addresses of its entries. -/
abbrev GridH := List Nat

/-- The entry read through the pointer `p`. -/
def Heap.entry (h : Heap) (p : Nat) : Option Entry :=
  match h.objs[p]? with
  | none => none
  | some o =>
    match h.arrays[o.Value.arr]? with
    | none => none
    | some a => some { Value := a.take o.Value.len, Row := o.Row, Column := o.Column }

/-- The entries of a grid as read from memory, in order. -/
def Heap.view (h : Heap) (g : GridH) : List (Option Entry) := g.map h.entry

/-- The statements `clone := e.Clone()` and `&clone`: `append([]int(nil), ...)`
fills a new array, and the copy is a new object. Returns its address. -/
def Heap.CloneEntry (h : Heap) (p : Nat) : Option (Heap × Nat) :=
  match h.objs[p]? with
  | none => none
  | some o =>
    match h.arrays[o.Value.arr]? with
    | none => none
    | some a =>
      some ({ arrays := h.arrays ++ [a.take o.Value.len],
              objs := h.objs ++ [{ Value := { arr := h.arrays.length, len := o.Value.len },
                                   Row := o.Row, Column := o.Column }] },
            h.objs.length)

/-- The loop of `Grid.Clone` over the addresses still to copy. -/
def Heap.cloneLoop : List Nat → Heap → GridH → Option (Heap × GridH)
  | [], h, grid => some (h, grid)
  | p :: rest, h, grid =>
    match h.CloneEntry p with
    | none => none
    | some (h1, q) => Heap.cloneLoop rest h1 (grid ++ [q])

def Heap.CloneGrid (h : Heap) (g : GridH) : Option (Heap × GridH) :=
  Heap.cloneLoop g h []

/-- A slice literal `[]int{...}`: a new array holding `vals`. -/
def Heap.literal (h : Heap) (vals : List Nat) : Heap × SliceH :=
  ({ h with arrays := h.arrays ++ [vals] }, { arr := h.arrays.length, len := vals.length })

/-- The assignment `(*g)[pos].Value = v`. -/
def Heap.SetValue (h : Heap) (g : GridH) (v : SliceH) (r c : Nat) : Option Heap :=
  match g[9 * r + c]? with
  | none => none
  | some p =>
    match h.objs[p]? with
    | none => none
    | some o => some { h with objs := h.objs.set p { o with Value := v } }

/-- The method `Remove` on the object at `p`: `append(e.Value[:i], e.Value[i+1:]...)`
moves the elements after position `i` one place down inside the same array and
shortens the slice by one. -/
def Heap.Remove (h : Heap) (p : Nat) (target : Nat) : Option (Heap × Bool) :=
  match h.objs[p]? with
  | none => none
  | some o =>
    match h.arrays[o.Value.arr]? with
    | none => none
    | some a =>
      let i := indexFrom target (a.take o.Value.len) 0
      if i = -1 then some (h, false)
      else
        let k := i.toNat
        let a1 := a.take k ++ (a.take o.Value.len).drop (k + 1) ++ a.drop (o.Value.len - 1)
        some ({ arrays := h.arrays.set o.Value.arr a1,
                objs := h.objs.set p
                  { o with Value := { arr := o.Value.arr, len := o.Value.len - 1 } } },
              true)

/-- An operation on a cloned grid: `SetValue` with a slice the caller already
holds, `SetValue` with a slice literal (as `Guess` calls it), or `Remove` on
the entry at place `k` of the grid. -/
inductive CloneOp where
  | setSlice (v : SliceH) (r c : Nat)
  | setValue (vals : List Nat) (r c : Nat)
  | remove (k : Nat) (target : Nat)

def Heap.step (h : Heap) (g : GridH) : CloneOp → Option Heap
  | CloneOp.setSlice v r c => h.SetValue g v r c
  | CloneOp.setValue vals r c => (h.literal vals).1.SetValue g (h.literal vals).2 r c
  | CloneOp.remove k target =>
    match g[k]? with
    | none => none
    | some p =>
      match h.Remove p target with
      | none => none
      | some r => some r.1

/-- Runs the operations in order on the grid `g`; a fault stops the run. -/
def Heap.run (g : GridH) : List CloneOp → Heap → Heap
  | [], h => h
  | op :: rest, h =>
    match h.step g op with
    | none => h
    | some h1 => Heap.run g rest h1

/-- Memory `h1` holds everything `h0` holds, at the same addresses. -/
def Heap.Agree (h0 h1 : Heap) : Prop :=
  (∀ (i : Nat), i < h0.objs.length → h1.objs[i]? = h0.objs[i]?) ∧
  (∀ (i : Nat), i < h0.arrays.length → h1.arrays[i]? = h0.arrays[i]?)

/-- The objects of `g`, and the arrays of their slices, were created after `h0`. -/
def Heap.Fresh (h0 h1 : Heap) (g : GridH) : Prop :=
  ∀ q ∈ g, h0.objs.length ≤ q ∧
    ∃ (o : EntryH) (a : List Nat), h1.objs[q]? = some o ∧ h0.arrays.length ≤ o.Value.arr ∧
      h1.arrays[o.Value.arr]? = some a

/-- The array at address `k` is the backing array of an entry of `g`. -/
def Heap.Backs (h : Heap) (g : GridH) (k : Nat) : Prop :=
  ∃ p ∈ g, ∃ o, h.objs[p]? = some o ∧ o.Value.arr = k

/-- The operation hands over no slice whose backing array is that of an entry
of `g` in `h`. -/
def CloneOp.Apart (h : Heap) (g : GridH) : CloneOp → Prop
  | CloneOp.setSlice v _ _ => ¬ h.Backs g v.arr
  | CloneOp.setValue _ _ _ => True
  | CloneOp.remove _ _ => True

/-- Memory `h1` holds the objects of `g` and their arrays as `h0` does. -/
def Heap.Keeps (h0 h1 : Heap) (g : GridH) : Prop :=
  (∀ p ∈ g, h1.objs[p]? = h0.objs[p]?) ∧
  (∀ (k : Nat), h0.Backs g k → h1.arrays[k]? = h0.arrays[k]?) ∧
  h0.arrays.length ≤ h1.arrays.length

/-- No object of `g1` is an object of `g`, and no slice of an entry of `g1`
uses the backing array of an entry of `g`. -/
def Heap.Separate (h0 h1 : Heap) (g g1 : GridH) : Prop :=
  ∀ q ∈ g1, q ∉ g ∧ ∀ (o : EntryH), h1.objs[q]? = some o → ¬ h0.Backs g o.Value.arr

/-- A memory holding a grid of two entries with candidates `[4]` and `[1, 2, 3]`. -/
def smallHeap : Heap :=
  { arrays := [[4], [1, 2, 3]],
    objs := [{ Value := { arr := 0, len := 1 }, Row := 0, Column := 0 },
             { Value := { arr := 1, len := 3 }, Row := 0, Column := 1 }] }

/-- The grid held in `smallHeap`. -/
def smallGrid : GridH := [0, 1]

/-! ## Entry.Remove -/

theorem indexFrom_of_not_mem (t : Nat) (vs : List Nat) (i : Int) (hi : 0 ≤ i)
    (h : t ∉ vs) : indexFrom t vs i = -1 := by
  induction vs generalizing i with
  | nil => rfl
  | cons v vs ih =>
    have hv : t ≠ v := fun hv => h (hv ▸ List.mem_cons_self _ _)
    have hvs : t ∉ vs := fun hm => h (List.mem_cons_of_mem _ hm)
    simp only [indexFrom, if_neg hv]
    exact ih (i + 1) (by omega) hvs

theorem indexFrom_of_mem (t : Nat) (vs : List Nat) (i : Int) (hi : 0 ≤ i)
    (h : t ∈ vs) :
    ∃ k : Nat, indexFrom t vs i = i + k ∧ vs.take k ++ vs.drop (k + 1) = vs.erase t := by
  induction vs generalizing i with
  | nil => cases h
  | cons v vs ih =>
    by_cases hv : t = v
    · refine ⟨0, ?_, ?_⟩
      · simp [indexFrom, hv]
      · subst hv
        simp
    · have hvs : t ∈ vs := by
        rcases List.mem_cons.1 h with h1 | h1
        · exact absurd h1 hv
        · exact h1
      obtain ⟨k, hk1, hk2⟩ := ih (i + 1) (by omega) hvs
      refine ⟨k + 1, ?_, ?_⟩
      · simp only [indexFrom, if_neg hv, hk1]
        push_cast
        ring
      · have hne : v ≠ t := fun h' => hv h'.symm
        simp only [List.take_succ_cons, List.drop_succ_cons, List.cons_append, hk2]
        rw [List.erase_cons_tail]
        simpa using hne

theorem Remove_value (e : Entry) (t : Nat) : (e.Remove t).1.Value = e.Value.erase t := by
  unfold Entry.Remove Entry.index
  by_cases h : t ∈ e.Value
  · obtain ⟨k, hk1, hk2⟩ := indexFrom_of_mem t e.Value 0 (le_refl _) h
    have hne : ¬ ((0 : Int) + (k : Int) = -1) := by omega
    simp only [hk1, hne, if_false]
    simpa using hk2
  · have h1 := indexFrom_of_not_mem t e.Value 0 (le_refl _) h
    simp only [h1, if_true]
    exact (List.erase_of_not_mem h).symm

theorem Remove_row (e : Entry) (t : Nat) : (e.Remove t).1.Row = e.Row := by
  simp only [Entry.Remove]
  split <;> rfl

theorem Remove_column (e : Entry) (t : Nat) : (e.Remove t).1.Column = e.Column := by
  simp only [Entry.Remove]
  split <;> rfl

theorem Remove_of_not_mem (e : Entry) (t : Nat) (h : t ∉ e.Value) : (e.Remove t).1 = e := by
  unfold Entry.Remove Entry.index
  simp [indexFrom_of_not_mem t e.Value 0 (le_refl _) h]

/-! ## Removing a candidate repeatedly -/

theorem dropN_zero (t : Nat) (e : Entry) : dropN t 0 e = e := rfl

theorem dropN_row (t n : Nat) (e : Entry) : (dropN t n e).Row = e.Row := rfl

theorem dropN_column (t n : Nat) (e : Entry) : (dropN t n e).Column = e.Column := rfl

theorem dropN_block (t n : Nat) (e : Entry) : (dropN t n e).Block = e.Block := rfl

theorem dropN_dropN (t m n : Nat) (e : Entry) : dropN t m (dropN t n e) = dropN t (m + n) e := by
  simp only [dropN, Function.iterate_add_apply]

theorem dropN_one (t : Nat) (e : Entry) : dropN t 1 e = (e.Remove t).1 := by
  have h1 := Remove_value e t
  have h2 := Remove_row e t
  have h3 := Remove_column e t
  cases hr : (e.Remove t).1 with
  | mk v r c =>
    rw [hr] at h1 h2 h3
    simp only at h1 h2 h3
    simp [dropN, h1, h2, h3]

theorem iterate_erase_sublist (t n : Nat) (l : List Nat) :
    ((fun l : List Nat => l.erase t)^[n] l).Sublist l := by
  induction n generalizing l with
  | zero => exact List.Sublist.refl l
  | succ n ih =>
    rw [Function.iterate_succ_apply]
    exact (ih (l.erase t)).trans (List.erase_sublist t l)

theorem iterate_erase_of_not_mem (t n : Nat) (l : List Nat) (h : t ∉ l) :
    (fun l : List Nat => l.erase t)^[n] l = l := by
  induction n with
  | zero => rfl
  | succ n ih =>
    rw [Function.iterate_succ_apply, List.erase_of_not_mem h, ih]

theorem iterate_erase_mem (t n x : Nat) (l : List Nat) (hx : x ≠ t) (h : x ∈ l) :
    x ∈ (fun l : List Nat => l.erase t)^[n] l := by
  induction n generalizing l with
  | zero => exact h
  | succ n ih =>
    rw [Function.iterate_succ_apply]
    exact ih _ ((List.mem_erase_of_ne hx).2 h)

theorem iterate_erase_not_mem (t n : Nat) (l : List Nat) (hn : 0 < n) (hd : l.Nodup) :
    t ∉ (fun l : List Nat => l.erase t)^[n] l := by
  obtain ⟨m, rfl⟩ : ∃ m, n = m + 1 := ⟨n - 1, by omega⟩
  rw [Function.iterate_succ_apply]
  intro hmem
  exact hd.not_mem_erase ((iterate_erase_sublist t m _).subset hmem)

theorem dropN_below (t n : Nat) (e : Entry) : (dropN t n e).Below e :=
  ⟨rfl, rfl, iterate_erase_sublist t n e.Value⟩

theorem dropN_of_not_mem (t n : Nat) (e : Entry) (h : t ∉ e.Value) : dropN t n e = e := by
  simp [dropN, iterate_erase_of_not_mem t n e.Value h]

theorem dropN_mem (t n x : Nat) (e : Entry) (hx : x ≠ t) (h : x ∈ e.Value) :
    x ∈ (dropN t n e).Value :=
  iterate_erase_mem t n x e.Value hx h

theorem dropN_not_mem (t n : Nat) (e : Entry) (hn : 0 < n) (hd : e.Value.Nodup) :
    t ∉ (dropN t n e).Value :=
  iterate_erase_not_mem t n e.Value hn hd

/-! ## removeEach -/

theorem removeEach_length (t : Nat) (qs : List Nat) (g : Grid) :
    (removeEach t qs g).length = g.length := by
  induction qs generalizing g with
  | nil => rfl
  | cons q qs ih =>
    simp only [removeEach]
    split
    · exact ih g
    · rw [ih]; simp

theorem removeEach_get (t : Nat) (qs : List Nat) (g : Grid) (i : Nat) :
    (removeEach t qs g)[i]? = (g[i]?).map (dropN t (qs.count i)) := by
  induction qs generalizing g with
  | nil =>
    simp only [removeEach, List.count_nil]
    cases g[i]? <;> simp [dropN_zero]
  | cons q qs ih =>
    simp only [removeEach]
    split
    · rename_i hq
      rw [ih g]
      by_cases hiq : q = i
      · subst hiq
        simp [hq]
      · rw [List.count_cons_of_ne (Ne.symm hiq)]
    · rename_i e hq
      rw [ih]
      have hlt : q < g.length := by
        by_contra hge
        rw [List.getElem?_eq_none (by omega)] at hq
        cases hq
      by_cases hiq : q = i
      · subst hiq
        rw [List.getElem?_set, if_pos rfl, if_pos hlt, hq, List.count_cons_self]
        simp only [Option.map_some']
        rw [← dropN_one, dropN_dropN]
      · rw [List.getElem?_set_ne hiq, List.count_cons_of_ne (Ne.symm hiq)]

/-! ## Neighbourhoods -/

theorem mem_sameNeighbourhoodFrom (attr : Entry → Nat) (a i : Nat) (l : List Entry)
    (j q : Nat) :
    q ∈ sameNeighbourhoodFrom attr a i j l ↔
      ∃ k entry, l[k]? = some entry ∧ q = j + k ∧ a = attr entry ∧ i ≠ q := by
  induction l generalizing j with
  | nil => simp [sameNeighbourhoodFrom]
  | cons x rest ih =>
    have key : (q ∈ sameNeighbourhoodFrom attr a i j (x :: rest)) ↔
        ((a = attr x ∧ i ≠ j) ∧ q = j) ∨ q ∈ sameNeighbourhoodFrom attr a i (j + 1) rest := by
      simp only [sameNeighbourhoodFrom]
      split
      · rename_i hc
        simp [hc]
      · rename_i hc
        simp [hc]
    rw [key, ih]
    constructor
    · rintro (⟨⟨h1, h2⟩, rfl⟩ | ⟨k, entry, hk, rfl, h3, h4⟩)
      · exact ⟨0, x, by simp, by simp, h1, h2⟩
      · exact ⟨k + 1, entry, by simpa using hk, by omega, h3, h4⟩
    · rintro ⟨k, entry, hk, rfl, h3, h4⟩
      cases k with
      | zero =>
        simp only [List.getElem?_cons_zero, Option.some.injEq] at hk
        subst hk
        exact Or.inl ⟨⟨h3, by simpa using h4⟩, by simp⟩
      | succ k =>
        simp only [List.getElem?_cons_succ] at hk
        exact Or.inr ⟨k, entry, hk, by omega, h3, h4⟩

theorem mem_sameNeighbourhood (g : Grid) (i : Nat) (attr : Entry → Nat) (q : Nat) :
    q ∈ g.sameNeighbourhood i attr ↔
      ∃ e entry, g[i]? = some e ∧ g[q]? = some entry ∧ attr e = attr entry ∧ i ≠ q := by
  unfold Grid.sameNeighbourhood
  split
  · rename_i hi
    simp [hi]
  · rename_i e hi
    rw [mem_sameNeighbourhoodFrom]
    constructor
    · rintro ⟨k, entry, hk, rfl, h3, h4⟩
      exact ⟨e, entry, hi, by simpa using hk, h3, h4⟩
    · rintro ⟨e1, entry, h1, h2, h3, h4⟩
      rw [hi] at h1
      cases h1
      exact ⟨q, entry, h2, by simp, h3, h4⟩

theorem mem_sameNeighbourhood_congr (t : Nat) (g g1 : Grid) (i : Nat) (attr : Entry → Nat)
    (q : Nat) (hattr : ∀ n e, attr (dropN t n e) = attr e)
    (h : ∀ k : Nat, ∃ n, g1[k]? = (g[k]?).map (dropN t n)) :
    q ∈ g1.sameNeighbourhood i attr ↔ q ∈ g.sameNeighbourhood i attr := by
  rw [mem_sameNeighbourhood, mem_sameNeighbourhood]
  obtain ⟨ni, hi⟩ := h i
  obtain ⟨nq, hq⟩ := h q
  constructor
  · rintro ⟨e, entry, h1, h2, h3, h4⟩
    rw [hi] at h1
    rw [hq] at h2
    cases hgi : g[i]? with
    | none => rw [hgi] at h1; cases h1
    | some e0 =>
      cases hgq : g[q]? with
      | none => rw [hgq] at h2; cases h2
      | some entry0 =>
        rw [hgi] at h1
        rw [hgq] at h2
        simp only [Option.map_some', Option.some.injEq] at h1 h2
        subst h1 h2
        rw [hattr, hattr] at h3
        exact ⟨e0, entry0, rfl, rfl, h3, h4⟩
  · rintro ⟨e, entry, h1, h2, h3, h4⟩
    refine ⟨dropN t ni e, dropN t nq entry, ?_, ?_, ?_, h4⟩
    · rw [hi, h1]; rfl
    · rw [hq, h2]; rfl
    · rw [hattr, hattr]; exact h3

/-! ## One elimination step -/

theorem elimStep_get (t i : Nat) (g : Grid) (j : Nat) :
    ∃ n, (elimStep t i g)[j]? = (g[j]?).map (dropN t n) ∧ (0 < n ↔ Peer g i j) := by
  have h1 : ∀ k : Nat, ∃ n, (removeEach t (g.SameRow i) g)[k]? = (g[k]?).map (dropN t n) :=
    fun k => ⟨_, removeEach_get t _ g k⟩
  have h2 : ∀ k : Nat, ∃ n, (removeEach t ((removeEach t (g.SameRow i) g).SameColumn i)
      (removeEach t (g.SameRow i) g))[k]? = (g[k]?).map (dropN t n) := by
    intro k
    refine ⟨List.count k ((removeEach t (g.SameRow i) g).SameColumn i) + (g.SameRow i).count k, ?_⟩
    rw [removeEach_get, removeEach_get]
    cases g[k]? with
    | none => rfl
    | some e => simp [dropN_dropN]
  refine ⟨(List.count j (Grid.SameBlock (removeEach t ((removeEach t (g.SameRow i) g).SameColumn i)
      (removeEach t (g.SameRow i) g)) i)) +
      ((List.count j ((removeEach t (g.SameRow i) g).SameColumn i)) + (g.SameRow i).count j), ?_, ?_⟩
  · unfold elimStep
    simp only
    rw [removeEach_get, removeEach_get, removeEach_get]
    cases g[j]? with
    | none => rfl
    | some e => simp [dropN_dropN]
  · have e1 : 0 < (g.SameRow i).count j ↔ j ∈ g.SameRow i := List.count_pos_iff
    have e2 : 0 < List.count j ((removeEach t (g.SameRow i) g).SameColumn i) ↔
        j ∈ g.SameColumn i := by
      rw [List.count_pos_iff]
      exact mem_sameNeighbourhood_congr t g _ i _ j (fun _ _ => rfl) h1
    have e3 : 0 < List.count j (Grid.SameBlock (removeEach t
        ((removeEach t (g.SameRow i) g).SameColumn i) (removeEach t (g.SameRow i) g)) i) ↔
        j ∈ g.SameBlock i := by
      rw [List.count_pos_iff]
      exact mem_sameNeighbourhood_congr t g _ i _ j (fun _ _ => rfl) h2
    have hsplit : ∀ a b c : Nat, 0 < a + (b + c) ↔ (0 < c ∨ 0 < b ∨ 0 < a) := by
      intro a b c; omega
    rw [hsplit, e1, e2, e3]
    unfold Grid.SameRow Grid.SameColumn Grid.SameBlock
    rw [mem_sameNeighbourhood, mem_sameNeighbourhood, mem_sameNeighbourhood]
    unfold Peer
    constructor
    · rintro (⟨e, en, a, b, c, d⟩ | ⟨e, en, a, b, c, d⟩ | ⟨e, en, a, b, c, d⟩)
      · exact ⟨d, e, en, a, b, Or.inl c⟩
      · exact ⟨d, e, en, a, b, Or.inr (Or.inl c)⟩
      · exact ⟨d, e, en, a, b, Or.inr (Or.inr c)⟩
    · rintro ⟨d, e, en, a, b, c | c | c⟩
      · exact Or.inl ⟨e, en, a, b, c, d⟩
      · exact Or.inr (Or.inl ⟨e, en, a, b, c, d⟩)
      · exact Or.inr (Or.inr ⟨e, en, a, b, c, d⟩)

theorem elimStep_length (t i : Nat) (g : Grid) : (elimStep t i g).length = g.length := by
  unfold elimStep
  simp only [removeEach_length]

/-! ## Refinement of grids -/

theorem Entry.Below.self (e : Entry) : e.Below e := ⟨rfl, rfl, List.Sublist.refl _⟩

theorem Entry.Below.chain {a b c : Entry} (h1 : a.Below b) (h2 : b.Below c) : a.Below c :=
  ⟨h1.1.trans h2.1, h1.2.1.trans h2.2.1, h1.2.2.trans h2.2.2⟩

theorem Refines.refl (g : Grid) : Refines g g := by
  refine ⟨rfl, ?_⟩
  intro i e1 e h1 h2
  rw [h1] at h2
  cases h2
  exact Entry.Below.self e1

theorem getElem?_isSome_of_length_eq {g1 g : Grid} (h : g1.length = g.length) {i : Nat}
    {e : Entry} (he : g[i]? = some e) : ∃ e1, g1[i]? = some e1 := by
  have hlt : i < g.length := by
    by_contra hge
    rw [List.getElem?_eq_none (by omega)] at he
    cases he
  exact ⟨g1[i], List.getElem?_eq_getElem (by omega)⟩

theorem Refines.trans {a b c : Grid} (h1 : Refines a b) (h2 : Refines b c) : Refines a c := by
  refine ⟨h1.1.trans h2.1, ?_⟩
  intro i ea ec ha hc
  obtain ⟨eb, hb⟩ := getElem?_isSome_of_length_eq h2.1 hc
  exact (h1.2 i ea eb ha hb).chain (h2.2 i eb ec hb hc)

theorem Refines.get {g1 g : Grid} (h : Refines g1 g) {i : Nat} {e : Entry}
    (he : g[i]? = some e) : ∃ e1, g1[i]? = some e1 ∧ e1.Below e := by
  obtain ⟨e1, h1⟩ := getElem?_isSome_of_length_eq h.1 he
  exact ⟨e1, h1, h.2 i e1 e h1 he⟩

theorem Refines.get_inv {g1 g : Grid} (h : Refines g1 g) {i : Nat} {e1 : Entry}
    (he : g1[i]? = some e1) : ∃ e, g[i]? = some e ∧ e1.Below e := by
  obtain ⟨e, h0⟩ := getElem?_isSome_of_length_eq h.1.symm he
  exact ⟨e, h0, h.2 i e1 e he h0⟩

theorem Refines.peer {g1 g : Grid} (h : Refines g1 g) (i j : Nat) : Peer g1 i j ↔ Peer g i j := by
  unfold Peer
  constructor
  · rintro ⟨hne, e, en, h1, h2, h3⟩
    obtain ⟨e0, h10, hb1⟩ := h.get_inv h1
    obtain ⟨en0, h20, hb2⟩ := h.get_inv h2
    refine ⟨hne, e0, en0, h10, h20, ?_⟩
    unfold Entry.Block at *
    rw [← hb1.1, ← hb1.2.1, ← hb2.1, ← hb2.2.1]
    exact h3
  · rintro ⟨hne, e, en, h1, h2, h3⟩
    obtain ⟨e0, h10, hb1⟩ := h.get h1
    obtain ⟨en0, h20, hb2⟩ := h.get h2
    refine ⟨hne, e0, en0, h10, h20, ?_⟩
    unfold Entry.Block at *
    rw [hb1.1, hb1.2.1, hb2.1, hb2.2.1]
    exact h3

theorem Refines.nodup {g1 g : Grid} (h : Refines g1 g) (hd : NodupGrid g) : NodupGrid g1 := by
  intro i e1 h1
  obtain ⟨e, h0, hb⟩ := h.get_inv h1
  exact (hd i e h0).sublist hb.2.2

theorem elimStep_refines (t i : Nat) (g : Grid) : Refines (elimStep t i g) g := by
  refine ⟨elimStep_length t i g, ?_⟩
  intro j e1 e h1 h0
  obtain ⟨n, hn, _⟩ := elimStep_get t i g j
  rw [hn, h0] at h1
  simp only [Option.map_some', Option.some.injEq] at h1
  subst h1
  exact dropN_below t n e

theorem eliminateLoop_refines (l : List Nat) (g : Grid) : Refines (eliminateLoop l g).2 g := by
  induction l generalizing g with
  | nil => exact Refines.refl g
  | cons i rest ih =>
    simp only [eliminateLoop]
    split
    · exact ih g
    · split
      · split
        · exact elimStep_refines _ i g
        · exact (ih _).trans (elimStep_refines _ i g)
      · exact ih g

/-! ## Validity and the returned flag -/

theorem isValid_iff (g : Grid) :
    g.IsValid = true ↔ ∀ (i : Nat) (e : Entry), g[i]? = some e → e.Value ≠ [] := by
  unfold Grid.IsValid Entry.IsValid
  rw [List.all_eq_true]
  constructor
  · intro h i e he
    have hm : e ∈ g := List.getElem?_mem he
    have := h e hm
    simp only [gt_iff_lt, decide_eq_true_eq] at this
    exact List.ne_nil_of_length_pos this
  · intro h e hm
    obtain ⟨i, hi⟩ := List.getElem?_of_mem hm
    simp only [gt_iff_lt, decide_eq_true_eq]
    exact List.length_pos.2 (h i e hi)

theorem isSolved_iff (g : Grid) :
    g.IsSolved = true ↔ ∀ (i : Nat) (e : Entry), g[i]? = some e → e.Value.length = 1 := by
  unfold Grid.IsSolved Entry.IsSolved
  rw [List.all_eq_true]
  constructor
  · intro h i e he
    have := h e (List.getElem?_mem he)
    simpa using this
  · intro h e hm
    obtain ⟨i, hi⟩ := List.getElem?_of_mem hm
    simpa using h i e hi

theorem eliminateLoop_flag_iff (l : List Nat) (g : Grid) (hv : g.IsValid = true) :
    (eliminateLoop l g).1 = true ↔ (eliminateLoop l g).2.IsValid = true := by
  induction l generalizing g with
  | nil => simp [eliminateLoop, hv]
  | cons i rest ih =>
    simp only [eliminateLoop]
    split
    · exact ih g hv
    · split
      · split
        · rename_i hbad
          simp only [Bool.not_eq_true'] at hbad
          show (false = true) ↔ ((elimStep _ i g).IsValid = true)
          rw [hbad]
        · rename_i hgood
          simp only [Bool.not_eq_true', Bool.not_eq_false] at hgood
          exact ih _ hgood
      · exact ih g hv

theorem eliminateLoop_false_empty (l : List Nat) (g : Grid) (hv : g.IsValid = true)
    (hf : (eliminateLoop l g).1 = false) :
    ∃ e ∈ (eliminateLoop l g).2, e.Value = [] := by
  have h1 : ¬ (eliminateLoop l g).2.IsValid = true := by
    rw [← eliminateLoop_flag_iff l g hv, hf]
    simp
  rw [isValid_iff] at h1
  push_neg at h1
  obtain ⟨i, e, he, hnil⟩ := h1
  exact ⟨e, List.getElem?_mem he, hnil⟩

/-! ## Elimination keeps every possible completion -/

theorem solved_value (e : Entry) (h : e.IsSolved = true) :
    ∃ v, e.Value = [v] ∧ e.Value.headD 0 = v := by
  unfold Entry.IsSolved at h
  simp only [decide_eq_true_eq] at h
  obtain ⟨v, hv⟩ := List.length_eq_one.1 h
  exact ⟨v, hv, by rw [hv]; rfl⟩

theorem compat_valid (T : Nat → Nat) (g : Grid) (hc : Compat T g) : g.IsValid = true := by
  rw [isValid_iff]
  intro i e he hnil
  have := hc i e he
  rw [hnil] at this
  cases this

theorem ConflictFree.of_refines {T : Nat → Nat} {g1 g : Grid} (h : Refines g1 g)
    (hf : ConflictFree T g) : ConflictFree T g1 :=
  fun i j hp => hf i j ((h.peer i j).1 hp)

theorem elimStep_compat (T : Nat → Nat) (g : Grid) (i v : Nat) (e : Entry)
    (hc : Compat T g) (hf : ConflictFree T g) (he : g[i]? = some e) (hv : e.Value = [v]) :
    Compat T (elimStep v i g) := by
  intro j e1 h1
  obtain ⟨n, hn, hpeer⟩ := elimStep_get v i g j
  rw [hn] at h1
  cases h0 : g[j]? with
  | none => rw [h0] at h1; cases h1
  | some e0 =>
    rw [h0] at h1
    simp only [Option.map_some', Option.some.injEq] at h1
    subst h1
    have hTi : T i = v := by
      have := hc i e he
      rw [hv] at this
      simpa using this
    by_cases hp : Peer g i j
    · have hne : T j ≠ v := by
        rw [← hTi]
        exact fun h => hf i j hp h.symm
      exact dropN_mem v n (T j) e0 hne (hc j e0 h0)
    · have hn0 : n = 0 := by
        by_contra hpos
        exact hp (hpeer.1 (by omega))
      subst hn0
      exact hc j e0 h0

theorem eliminateLoop_compat (T : Nat → Nat) (l : List Nat) (g : Grid)
    (hc : Compat T g) (hf : ConflictFree T g) :
    (eliminateLoop l g).1 = true ∧ Compat T (eliminateLoop l g).2 := by
  induction l generalizing g with
  | nil => exact ⟨rfl, hc⟩
  | cons i rest ih =>
    simp only [eliminateLoop]
    split
    · exact ih g hc hf
    · rename_i e he
      split
      · rename_i hs
        obtain ⟨v, hv, hh⟩ := solved_value e hs
        rw [hh]
        have hc3 := elimStep_compat T g i v e hc hf he hv
        have hv3 := compat_valid T _ hc3
        rw [hv3]
        simp only [Bool.not_true, Bool.false_eq_true, if_false]
        exact ih _ hc3 (ConflictFree.of_refines (elimStep_refines v i g) hf)
      · exact ih g hc hf

/-! ## What a successful pass establishes for entries solved at its start -/

theorem sublist_singleton_ne_nil {l : List Nat} {v : Nat} (h : l.Sublist [v]) (hne : l ≠ []) :
    l = [v] := by
  rcases List.sublist_singleton.1 h with h1 | h1
  · exact absurd h1 hne
  · exact h1

theorem not_peer_self (g : Grid) (i : Nat) : ¬ Peer g i i := fun h => h.1 rfl

theorem elimStep_get_self (t i : Nat) (g : Grid) : (elimStep t i g)[i]? = g[i]? := by
  obtain ⟨n, hn, hpeer⟩ := elimStep_get t i g i
  have hn0 : n = 0 := by
    by_contra hpos
    exact not_peer_self g i (hpeer.1 (by omega))
  subst hn0
  rw [hn]
  cases g[i]? <;> rfl

theorem eliminateLoop_solved (l : List Nat) (g : Grid) (hd : NodupGrid g)
    (hflag : (eliminateLoop l g).1 = true) (i : Nat) (hi : i ∈ l) (e : Entry) (v : Nat)
    (hge : g[i]? = some e) (hv : e.Value = [v]) :
    (∃ e1, (eliminateLoop l g).2[i]? = some e1 ∧ e1.Value = [v]) ∧
      ∀ (j : Nat) (e1 : Entry), Peer g i j → (eliminateLoop l g).2[j]? = some e1 →
        v ∉ e1.Value := by
  induction l generalizing g e with
  | nil => cases hi
  | cons h rest ih =>
    simp only [eliminateLoop] at hflag ⊢
    split at hflag
    · rename_i hnone
      have hih : i ∈ rest := by
        rcases List.mem_cons.1 hi with h1 | h1
        · subst h1; rw [hge] at hnone; cases hnone
        · exact h1
      exact ih g hd hflag hih e hge hv
    · rename_i eh heh
      split at hflag
      · rename_i hs
        rw [if_pos hs]
        obtain ⟨t, ht, hh⟩ := solved_value eh hs
        rw [hh] at hflag ⊢
        split at hflag
        · cases hflag
        · rename_i hgood
          simp only [Bool.not_eq_true', Bool.not_eq_false] at hgood
          rw [hgood]
          simp only [Bool.not_true, Bool.false_eq_true, if_false]
          have href3 := elimStep_refines t h g
          have hrefR := eliminateLoop_refines rest (elimStep t h g)
          have hvalR : (eliminateLoop rest (elimStep t h g)).2.IsValid = true :=
            (eliminateLoop_flag_iff rest _ hgood).1 hflag
          by_cases hih : i = h
          · subst hih
            rw [hge] at heh
            cases heh
            rw [hv] at ht
            cases ht
            have hself : (elimStep v i g)[i]? = some e := by rw [elimStep_get_self, hge]
            constructor
            · obtain ⟨e1, h1, hb⟩ := hrefR.get hself
              refine ⟨e1, h1, ?_⟩
              have hsub : e1.Value.Sublist [v] := hv ▸ hb.2.2
              exact sublist_singleton_ne_nil hsub ((isValid_iff _).1 hvalR i e1 h1)
            · intro j e1 hp h1
              obtain ⟨e3, h3, hb⟩ := hrefR.get_inv h1
              obtain ⟨n, hn, hpeer⟩ := elimStep_get v i g j
              rw [hn] at h3
              cases h0 : g[j]? with
              | none => rw [h0] at h3; cases h3
              | some e0 =>
                rw [h0] at h3
                simp only [Option.map_some', Option.some.injEq] at h3
                subst h3
                intro hmem
                exact dropN_not_mem v n e0 (hpeer.2 hp) (hd j e0 h0) (hb.2.2.subset hmem)
          · have hirest : i ∈ rest := by
              rcases List.mem_cons.1 hi with h1 | h1
              · exact absurd h1 hih
              · exact h1
            obtain ⟨e3, h3, hb3⟩ := href3.get hge
            have hv3 : e3.Value = [v] :=
              sublist_singleton_ne_nil (hv ▸ hb3.2.2) ((isValid_iff _).1 hgood i e3 h3)
            have := ih (elimStep t h g) (href3.nodup hd) hflag hirest e3 h3 hv3
            refine ⟨this.1, ?_⟩
            intro j e1 hp h1
            exact this.2 j e1 ((href3.peer i j).2 hp) h1
      · rename_i hs
        rw [if_neg hs]
        have hih : i ∈ rest := by
          rcases List.mem_cons.1 hi with h1 | h1
          · subst h1
            rw [hge] at heh
            cases heh
            exfalso
            apply hs
            simp [Entry.IsSolved, hv]
          · exact h1
        exact ih g hd hflag hih e hge hv

/-! ## A pass over a grid with nothing left to strike changes nothing -/

theorem elimStep_eq_self (t i : Nat) (g : Grid)
    (h : ∀ (j : Nat) (ej : Entry), Peer g i j → g[j]? = some ej → t ∉ ej.Value) :
    elimStep t i g = g := by
  apply List.ext_getElem?
  intro j
  obtain ⟨n, hn, hpeer⟩ := elimStep_get t i g j
  rw [hn]
  cases h0 : g[j]? with
  | none => rfl
  | some e0 =>
    simp only [Option.map_some', Option.some.injEq]
    by_cases hp : Peer g i j
    · exact dropN_of_not_mem t n e0 (h j e0 hp h0)
    · have hn0 : n = 0 := by
        by_contra hpos
        exact hp (hpeer.1 (by omega))
      subst hn0
      rfl

theorem eliminateLoop_fixed (l : List Nat) (g : Grid)
    (hfix : ∀ (i : Nat) (e : Entry), g[i]? = some e → e.IsSolved = true →
      ∀ (j : Nat) (ej : Entry), Peer g i j → g[j]? = some ej → e.Value.headD 0 ∉ ej.Value)
    (hvalid : (∃ (i : Nat) (e : Entry), g[i]? = some e ∧ e.IsSolved = true) → g.IsValid = true) :
    eliminateLoop l g = (true, g) := by
  induction l with
  | nil => rfl
  | cons i rest ih =>
    simp only [eliminateLoop]
    split
    · exact ih
    · rename_i e he
      split
      · rename_i hs
        have hstep : elimStep (e.Value.headD 0) i g = g :=
          elimStep_eq_self _ i g (hfix i e he hs)
        rw [hstep, hvalid ⟨i, e, he, hs⟩]
        simpa using ih
      · exact ih

/-! ## NewGrid -/

theorem newGridCols_spec (puzzle : List Char) (r n c : Nat) (grid : Grid)
    (h : 9 * r + c + n ≤ puzzle.length) :
    ∃ g1, newGridCols puzzle r n c grid = some g1 ∧ g1.length = grid.length + n ∧
      (∀ i : Nat, i < grid.length → g1[i]? = grid[i]?) ∧
      (∀ k : Nat, k < n → ∃ s, puzzle[9 * r + c + k]? = some s ∧
        g1[grid.length + k]? = some (NewEntry s r (c + k))) := by
  induction n generalizing c grid with
  | zero => exact ⟨grid, rfl, rfl, fun _ _ => rfl, fun k hk => absurd hk (Nat.not_lt_zero k)⟩
  | succ n ih =>
    have hlt : 9 * r + c < puzzle.length := by omega
    have hs : puzzle[9 * r + c]? = some puzzle[9 * r + c] := List.getElem?_eq_getElem hlt
    obtain ⟨g1, h1, h2, h3, h4⟩ := ih (c + 1) (grid ++ [NewEntry puzzle[9 * r + c] r c])
      (by omega)
    refine ⟨g1, ?_, ?_, ?_, ?_⟩
    · simp only [newGridCols, hs]
      exact h1
    · rw [h2]; simp; omega
    · intro i hi
      rw [h3 i (by simp; omega)]
      exact List.getElem?_append_left hi
    · intro k hk
      cases k with
      | zero =>
        refine ⟨puzzle[9 * r + c], hs, ?_⟩
        rw [Nat.add_zero, h3 grid.length (by simp)]
        simp
      | succ k =>
        obtain ⟨s, hs1, hs2⟩ := h4 k (by omega)
        refine ⟨s, ?_, ?_⟩
        · rw [← hs1]; congr 1; omega
        · have e1 : c + (k + 1) = c + 1 + k := by omega
          have e2 : grid.length + (k + 1) =
              (grid ++ [NewEntry puzzle[9 * r + c] r c]).length + k := by
            simp only [List.length_append, List.length_singleton]
            omega
          rw [e1, e2]
          exact hs2

theorem newGridRows_spec (puzzle : List Char) (n r : Nat) (grid : Grid)
    (h : 9 * (r + n) ≤ puzzle.length) (hlen : grid.length = 9 * r) :
    ∃ g1, newGridRows puzzle n r grid = some g1 ∧ g1.length = 9 * (r + n) ∧
      (∀ i : Nat, i < grid.length → g1[i]? = grid[i]?) ∧
      (∀ i : Nat, 9 * r ≤ i → i < 9 * (r + n) → ∃ s, puzzle[i]? = some s ∧
        g1[i]? = some (NewEntry s (i / 9) (i % 9))) := by
  induction n generalizing r grid with
  | zero =>
    exact ⟨grid, rfl, by simpa using hlen, fun _ _ => rfl, fun i h1 h2 => by omega⟩
  | succ n ih =>
    obtain ⟨ga, ha1, ha2, ha3, ha4⟩ := newGridCols_spec puzzle r 9 0 grid (by omega)
    obtain ⟨gb, hb1, hb2, hb3, hb4⟩ := ih (r + 1) ga (by omega) (by omega)
    refine ⟨gb, ?_, ?_, ?_, ?_⟩
    · simp only [newGridRows, ha1]
      exact hb1
    · rw [hb2]; omega
    · intro i hi
      rw [hb3 i (by omega)]
      exact ha3 i hi
    · intro i h1 h2
      by_cases hi : i < 9 * (r + 1)
      · obtain ⟨s, hs1, hs2⟩ := ha4 (i - 9 * r) (by omega)
        have e1 : 9 * r + 0 + (i - 9 * r) = i := by omega
        have e2 : grid.length + (i - 9 * r) = i := by omega
        have e3 : i / 9 = r := by omega
        have e4 : 0 + (i - 9 * r) = i % 9 := by omega
        rw [e1] at hs1
        rw [e2, e4] at hs2
        refine ⟨s, hs1, ?_⟩
        rw [hb3 i (by omega), hs2, e3]
      · exact hb4 i (by omega) (by omega)

theorem NewGrid_spec (puzzle : String) (h : puzzle.length = 81) :
    ∃ g, NewGrid puzzle = some g ∧ g.length = 81 ∧
      ∀ i : Nat, i < 81 → ∃ s, puzzle.toList[i]? = some s ∧
        g[i]? = some (NewEntry s (i / 9) (i % 9)) := by
  have hl : puzzle.toList.length = 81 := h
  obtain ⟨g, h1, h2, _, h4⟩ := newGridRows_spec puzzle.toList 9 0 [] (by omega) rfl
  exact ⟨g, h1, by omega, fun i hi => h4 i (by omega) (by omega)⟩

theorem NewEntry_row (s : Char) (r c : Nat) : (NewEntry s r c).Row = r := by
  unfold NewEntry; split <;> rfl

theorem NewEntry_column (s : Char) (r c : Nat) : (NewEntry s r c).Column = c := by
  unfold NewEntry; split <;> rfl

theorem NewGrid_positioned (puzzle : String) (g : Grid) (h : puzzle.length = 81)
    (hg : NewGrid puzzle = some g) : Positioned g := by
  obtain ⟨g1, h1, h2, h3⟩ := NewGrid_spec puzzle h
  rw [hg] at h1
  cases h1
  refine ⟨h2, ?_⟩
  intro i e he
  have hi : i < 81 := by
    by_contra hge
    rw [List.getElem?_eq_none (by omega)] at he
    cases he
  obtain ⟨s, _, hs⟩ := h3 i hi
  rw [hs] at he
  cases he
  exact ⟨NewEntry_row _ _ _, NewEntry_column _ _ _⟩

theorem Refines.positioned {g1 g : Grid} (h : Refines g1 g) (hp : Positioned g) :
    Positioned g1 := by
  refine ⟨h.1.trans hp.1, ?_⟩
  intro i e1 h1
  obtain ⟨e, h0, hb⟩ := h.get_inv h1
  obtain ⟨hr, hc⟩ := hp.2 i e h0
  exact ⟨hb.1.trans hr, hb.2.1.trans hc⟩

/-! ## Clone -/

theorem Entry.Clone_self (e : Entry) : e.Clone = e := by
  cases e
  simp [Entry.Clone]

theorem foldl_clone (g init : Grid) :
    g.foldl (fun grid e => grid ++ [e.Clone]) init = init ++ g := by
  induction g generalizing init with
  | nil => simp
  | cons e rest ih =>
    simp only [List.foldl_cons]
    rw [ih, Entry.Clone_self]
    simp

theorem Grid.Clone_eq (g : Grid) : Grid.Clone g = g := by
  unfold Grid.Clone
  rw [foldl_clone]
  rfl

/-! ## Guess -/

theorem guessPush_spec (g : Grid) (r c : Nat) (p : Entry) (vs : List Nat) (grids : Stack)
    (hp : g[9 * r + c]? = some p) :
    guessPush g r c vs grids =
      some (grids ++ vs.map fun v => g.set (9 * r + c) { p with Value := [v] }) := by
  induction vs generalizing grids with
  | nil => simp [guessPush]
  | cons v vs ih =>
    simp only [guessPush, Grid.Clone_eq, Grid.SetValue, hp]
    rw [ih]
    simp [Stack.Push]

theorem chosen_spec (S : SortImpl) (g : Grid) (hns : g.IsSolved = false) :
    ∃ p, g.chosen S = some p ∧ p ∈ g ∧ p.IsSolved = false ∧
      ∀ e ∈ g, e.IsSolved = false → p.Value.length ≤ e.Value.length := by
  have hex : ∃ e ∈ g, e.IsSolved = false := by
    unfold Grid.IsSolved at hns
    have := (List.all_eq_false).1 hns
    obtain ⟨e, he, h⟩ := this
    exact ⟨e, he, by simpa using h⟩
  obtain ⟨e0, he0, hs0⟩ := hex
  have hmem0 : e0 ∈ g.filter (fun e => !e.IsSolved) := by
    rw [List.mem_filter]
    exact ⟨he0, by simp [hs0]⟩
  have hperm := S.perm (g.filter fun e => !e.IsSolved)
  have hsorted := S.sorted (g.filter fun e => !e.IsSolved)
  unfold Grid.chosen
  cases hsort : S.sort (g.filter fun e => !e.IsSolved) with
  | nil =>
    rw [hsort] at hperm
    have := hperm.symm.eq_nil
    rw [this] at hmem0
    cases hmem0
  | cons p tl =>
    rw [hsort] at hperm hsorted
    have hp : p ∈ g.filter (fun e => !e.IsSolved) := hperm.subset (List.mem_cons_self _ _)
    rw [List.mem_filter] at hp
    refine ⟨p, rfl, hp.1, by simpa using hp.2, ?_⟩
    intro e he hs
    have hme : e ∈ p :: tl := by
      apply hperm.symm.subset
      rw [List.mem_filter]
      exact ⟨he, by simp [hs]⟩
    rcases List.mem_cons.1 hme with h1 | h1
    · rw [h1]
    · have := (List.pairwise_cons.1 hsorted).1 e h1
      simp only [ByValueLength.Less, decide_eq_false_iff_not, not_lt] at this
      exact this

theorem chosen_index (g : Grid) (hpos : Positioned g) (p : Entry)
    (hp : p ∈ g) : g[9 * p.Row + p.Column]? = some p := by
  obtain ⟨i, hi⟩ := List.getElem?_of_mem hp
  obtain ⟨hr, hc⟩ := hpos.2 i p hi
  have : 9 * p.Row + p.Column = i := by rw [hr, hc]; omega
  rw [this]
  exact hi

theorem Guess_eq (S : SortImpl) (g : Grid) (grids : Stack) (hpos : Positioned g)
    (hns : g.IsSolved = false) :
    g.Guess S grids = some (grids ++ g.children S) := by
  obtain ⟨p, hch, hpg, _, _⟩ := chosen_spec S g hns
  have hidx := chosen_index g hpos p hpg
  unfold Grid.Guess Grid.children
  rw [hch]
  unfold Grid.chosen at hch
  cases hsort : S.sort (g.filter fun e => !e.IsSolved) with
  | nil => rw [hsort] at hch; cases hch
  | cons q tl =>
    rw [hsort] at hch
    simp only [List.head?_cons, Option.some.injEq] at hch
    subst hch
    simp only [hsort]
    exact guessPush_spec g q.Row q.Column q q.Value grids hidx

theorem children_spec (S : SortImpl) (g : Grid) (hpos : Positioned g)
    (hns : g.IsSolved = false) :
    ∃ (idx : Nat) (p : Entry), g[idx]? = some p ∧ p.IsSolved = false ∧
      (∀ e ∈ g, e.IsSolved = false → p.Value.length ≤ e.Value.length) ∧
      g.children S = p.Value.map fun v => g.set idx { p with Value := [v] } := by
  obtain ⟨p, hch, hpg, hps, hmin⟩ := chosen_spec S g hns
  refine ⟨9 * p.Row + p.Column, p, chosen_index g hpos p hpg, hps, hmin, ?_⟩
  unfold Grid.children
  rw [hch]

theorem set_refines (g : Grid) (idx : Nat) (p : Entry) (v : Nat) (hp : g[idx]? = some p)
    (hv : v ∈ p.Value) : Refines (g.set idx { p with Value := [v] }) g := by
  refine ⟨by simp, ?_⟩
  intro i e1 e h1 h0
  by_cases hi : idx = i
  · subst hi
    rw [hp] at h0
    cases h0
    have hlt : idx < g.length := by
      by_contra hge
      rw [List.getElem?_eq_none (by omega)] at hp
      cases hp
    rw [List.getElem?_set, if_pos rfl, if_pos hlt] at h1
    cases h1
    exact ⟨rfl, rfl, List.singleton_sublist.2 hv⟩
  · rw [List.getElem?_set_ne hi, h0] at h1
    cases h1
    exact Entry.Below.self e1

theorem children_refines (S : SortImpl) (g : Grid) (hpos : Positioned g)
    (hns : g.IsSolved = false) : ∀ c ∈ g.children S, Refines c g := by
  obtain ⟨idx, p, hp, _, _, hch⟩ := children_spec S g hpos hns
  intro c hc
  rw [hch, List.mem_map] at hc
  obtain ⟨v, hv, rfl⟩ := hc
  exact set_refines g idx p v hp hv

/-! ## The stack -/

theorem Pop_concat (rest : Stack) (top : Grid) :
    Stack.Pop (rest ++ [top]) = (some top, true, rest) := by
  unfold Stack.Pop
  simp

theorem Empty_iff (st : Stack) : st.Empty = true ↔ st = [] := by
  unfold Stack.Empty
  simp

/-! ## Unrolling the search loop -/

theorem solveLoop_zero (S : SortImpl) (s : Solver) (h : s.grids = []) (fuel : Nat) :
    solveLoop S fuel s = some (some (s, "No solution found", false)) := by
  cases fuel <;> simp [solveLoop, Stack.Empty, h]

theorem solveLoop_unroll (S : SortImpl) (fuel : Nat) (s : Solver) (rest : Stack) (top : Grid)
    (hs : s.grids = rest ++ [top]) (hpos : Positioned top) :
    solveLoop S (fuel + 1) s =
      if top.Eliminate.1 = false then
        solveLoop S fuel { s with grids := rest, curr := top.Eliminate.2 }
      else if top.Eliminate.2.IsSolved = true then
        some (some (Solver.done { s with grids := rest, curr := top.Eliminate.2 }))
      else
        solveLoop S fuel
          { s with grids := rest ++ top.Eliminate.2.children S, curr := top.Eliminate.2 } := by
  have hne : Stack.Empty (rest ++ [top]) = false := by
    simp [Stack.Empty]
  simp only [solveLoop, hne, hs, Pop_concat, Solver.Eliminate]
  cases hflag : top.Eliminate.1 with
  | false => simp
  | true =>
    simp only [Bool.not_true, Bool.false_eq_true, if_false]
    cases hsol : top.Eliminate.2.IsSolved with
    | true => simp
    | false =>
      have hpos2 : Positioned top.Eliminate.2 :=
        (eliminateLoop_refines _ top).positioned hpos
      simp only [Solver.Guess, Guess_eq S _ rest hpos2 hsol]
      simp

/-! ## Invariants of the search loop -/

theorem stack_cases (st : Stack) : st = [] ∨ ∃ (rest : Stack) (top : Grid), st = rest ++ [top] := by
  rcases List.eq_nil_or_concat st with h | ⟨L, b, h⟩
  · exact Or.inl h
  · exact Or.inr ⟨L, b, by rw [h, List.concat_eq_append]⟩

theorem Eliminate_refines (g : Grid) : Refines g.Eliminate.2 g :=
  eliminateLoop_refines _ g

theorem Eliminate_compat (T : Nat → Nat) (g : Grid) (hc : Compat T g)
    (hf : ConflictFree T g) : g.Eliminate.1 = true ∧ Compat T g.Eliminate.2 :=
  eliminateLoop_compat T _ g hc hf

/-- Shape of every result of the loop started on a stack of refinements of `G0`. -/
theorem solveLoop_result (S : SortImpl) (G0 : Grid) (hG0 : Positioned G0) (fuel : Nat)
    (s : Solver) (hst : ∀ g ∈ s.grids, Refines g G0)
    (out : Option (Solver × String × Bool)) (h : solveLoop S fuel s = some out) :
    ∃ s1 str ok, out = some (s1, str, ok) ∧ s1.Puzzle = s.Puzzle ∧
      ((ok = true ∧ Refines s1.curr G0 ∧ s1.curr.IsSolved = true ∧
          str = GridToString s1.curr ∧ s1.Solution = str) ∨
       (ok = false ∧ str = "No solution found" ∧ s1.grids = [] ∧
          s1.Solution = s.Solution)) := by
  induction fuel generalizing s with
  | zero =>
    rcases stack_cases s.grids with hnil | ⟨rest, top, hs⟩
    · rw [solveLoop_zero S s hnil] at h
      cases h
      exact ⟨s, _, false, rfl, rfl, Or.inr ⟨rfl, rfl, hnil, rfl⟩⟩
    · simp [solveLoop, Stack.Empty, hs] at h
  | succ n ih =>
    rcases stack_cases s.grids with hnil | ⟨rest, top, hs⟩
    · rw [solveLoop_zero S s hnil] at h
      cases h
      exact ⟨s, _, false, rfl, rfl, Or.inr ⟨rfl, rfl, hnil, rfl⟩⟩
    · have htop : Refines top G0 := hst top (by rw [hs]; simp)
      have hrest : ∀ g ∈ rest, Refines g G0 := fun g hg => hst g (by rw [hs]; simp [hg])
      have hE : Refines top.Eliminate.2 G0 := (Eliminate_refines top).trans htop
      rw [solveLoop_unroll S n s rest top hs (htop.positioned hG0)] at h
      split at h
      · exact ih { s with grids := rest, curr := top.Eliminate.2 } hrest h
      · split at h
        · rename_i hsol
          cases h
          exact ⟨_, _, true, rfl, rfl, Or.inl ⟨rfl, hE, hsol, rfl, rfl⟩⟩
        · rename_i hsol
          simp only [Bool.not_eq_true] at hsol
          refine ih { s with grids := rest ++ top.Eliminate.2.children S,
                             curr := top.Eliminate.2 } ?_ h
          intro g hg
          simp only [List.mem_append] at hg
          rcases hg with hg | hg
          · exact hrest g hg
          · exact (children_refines S _ (hE.positioned hG0) hsol g hg).trans hE

/-- A stack holding a grid in which a conflict-free assignment is still possible
is never exhausted. -/
theorem solveLoop_compat (S : SortImpl) (T : Nat → Nat) (G0 : Grid) (hG0 : Positioned G0)
    (hT : ConflictFree T G0) (fuel : Nat) (s : Solver)
    (hst : ∀ g ∈ s.grids, Refines g G0) (hc : ∃ g ∈ s.grids, Compat T g)
    (s1 : Solver) (str : String) (ok : Bool)
    (h : solveLoop S fuel s = some (some (s1, str, ok))) : ok = true := by
  induction fuel generalizing s with
  | zero =>
    rcases stack_cases s.grids with hnil | ⟨rest, top, hs⟩
    · obtain ⟨g, hg, _⟩ := hc
      rw [hnil] at hg
      cases hg
    · simp [solveLoop, Stack.Empty, hs] at h
  | succ n ih =>
    rcases stack_cases s.grids with hnil | ⟨rest, top, hs⟩
    · obtain ⟨g, hg, _⟩ := hc
      rw [hnil] at hg
      cases hg
    · have htop : Refines top G0 := hst top (by rw [hs]; simp)
      have hrest : ∀ g ∈ rest, Refines g G0 := fun g hg => hst g (by rw [hs]; simp [hg])
      have hE : Refines top.Eliminate.2 G0 := (Eliminate_refines top).trans htop
      have hcases : Compat T top ∨ ∃ g ∈ rest, Compat T g := by
        obtain ⟨g, hg, hcg⟩ := hc
        rw [hs] at hg
        simp only [List.mem_append, List.mem_singleton] at hg
        rcases hg with hg | hg
        · exact Or.inr ⟨g, hg, hcg⟩
        · exact Or.inl (hg ▸ hcg)
      rw [solveLoop_unroll S n s rest top hs (htop.positioned hG0)] at h
      split at h
      · rename_i hflag
        rcases hcases with hct | hcr
        · have := (Eliminate_compat T top hct (ConflictFree.of_refines htop hT)).1
          rw [this] at hflag
          cases hflag
        · exact ih { s with grids := rest, curr := top.Eliminate.2 } hrest hcr h
      · split at h
        · cases h
          rfl
        · rename_i hsol
          simp only [Bool.not_eq_true] at hsol
          refine ih { s with grids := rest ++ top.Eliminate.2.children S,
                             curr := top.Eliminate.2 } ?_ ?_ h
          · intro g hg
            simp only [List.mem_append] at hg
            rcases hg with hg | hg
            · exact hrest g hg
            · exact (children_refines S _ (hE.positioned hG0) hsol g hg).trans hE
          · rcases hcases with hct | ⟨g, hg, hcg⟩
            · have hcE : Compat T top.Eliminate.2 :=
                (Eliminate_compat T top hct (ConflictFree.of_refines htop hT)).2
              obtain ⟨idx, p, hp, _, _, hch⟩ :=
                children_spec S top.Eliminate.2 (hE.positioned hG0) hsol
              refine ⟨top.Eliminate.2.set idx { p with Value := [T idx] }, ?_, ?_⟩
              · simp only [List.mem_append]
                right
                rw [hch, List.mem_map]
                exact ⟨T idx, hcE idx p hp, rfl⟩
              · intro i e he
                by_cases hi : idx = i
                · subst hi
                  have hlt : idx < top.Eliminate.2.length := by
                    by_contra hge
                    rw [List.getElem?_eq_none (by omega)] at hp
                    cases hp
                  rw [List.getElem?_set, if_pos rfl, if_pos hlt] at he
                  cases he
                  simp
                · rw [List.getElem?_set_ne hi] at he
                  exact hcE i e he
            · exact ⟨g, by simp [hg], hcg⟩

/-! ## The search terminates -/

theorem refines_cons {e1 e : Entry} {r1 r : Grid} (h : Refines (e1 :: r1) (e :: r)) :
    e1.Below e ∧ Refines r1 r := by
  refine ⟨h.2 0 e1 e (by simp) (by simp), ?_, ?_⟩
  · have := h.1
    simp only [List.length_cons] at this
    omega
  · intro i a b ha hb
    exact h.2 (i + 1) a b (by simpa using ha) (by simpa using hb)

theorem weight_refines {g1 g : Grid} (h : Refines g1 g) : weight g1 ≤ weight g := by
  induction g1 generalizing g with
  | nil => simp [weight]
  | cons e1 r1 ih =>
    cases g with
    | nil => have := h.1; simp at this
    | cons e r =>
      obtain ⟨hb, hr⟩ := refines_cons h
      have h1 := ih hr
      have h2 := hb.2.2.length_le
      simp only [weight, List.map_cons, List.sum_cons] at *
      omega

theorem weight_set (g : Grid) (idx : Nat) (p q : Entry) (hp : g[idx]? = some p) :
    weight (g.set idx q) + p.Value.length = weight g + q.Value.length := by
  induction g generalizing idx with
  | nil => cases hp
  | cons e r ih =>
    cases idx with
    | zero =>
      simp only [List.getElem?_cons_zero, Option.some.injEq] at hp
      subst hp
      simp only [weight, List.set_cons_zero, List.map_cons, List.sum_cons]
      omega
    | succ k =>
      simp only [List.getElem?_cons_succ] at hp
      have := ih k hp
      simp only [weight, List.set_cons_succ, List.map_cons, List.sum_cons] at *
      omega

theorem sum_map_const {α : Type} (l : List α) (f : α → Nat) (c : Nat)
    (h : ∀ x ∈ l, f x = c) : (l.map f).sum = l.length * c := by
  induction l with
  | nil => simp
  | cons x xs ih =>
    simp only [List.map_cons, List.sum_cons, List.length_cons]
    rw [h x (List.mem_cons_self _ _), ih (fun y hy => h y (List.mem_cons_of_mem _ hy))]
    ring

theorem lt_three_pow (n : Nat) : n + 2 < 3 ^ (n + 1) := by
  induction n with
  | zero => norm_num
  | succ n ih =>
    rw [pow_succ]
    omega

theorem branch_bound (k w : Nat) (hk : k ≠ 1) (hw : k ≤ w) : k * 3 ^ (w + 1 - k) < 3 ^ w := by
  rcases Nat.eq_zero_or_pos k with h0 | hpos
  · subst h0
    simp
  · obtain ⟨m, rfl⟩ : ∃ m, k = m + 2 := ⟨k - 2, by omega⟩
    obtain ⟨d, rfl⟩ : ∃ d, w = m + 2 + d := ⟨w - (m + 2), by omega⟩
    have e1 : m + 2 + d + 1 - (m + 2) = d + 1 := by omega
    have e2 : m + 2 + d = (m + 1) + (d + 1) := by omega
    rw [e1, e2]
    have := lt_three_pow m
    have hpos : 0 < 3 ^ (d + 1) := Nat.pow_pos (by norm_num)
    calc (m + 2) * 3 ^ (d + 1) < 3 ^ (m + 1) * 3 ^ (d + 1) :=
          Nat.mul_lt_mul_of_pos_right this hpos
      _ = 3 ^ (m + 1 + (d + 1)) := (pow_add 3 (m + 1) (d + 1)).symm

theorem children_measure (S : SortImpl) (g : Grid) (hpos : Positioned g)
    (hns : g.IsSolved = false) : stackMeasure (g.children S) < 3 ^ weight g := by
  obtain ⟨idx, p, hp, hps, _, hch⟩ := children_spec S g hpos hns
  have hk1 : p.Value.length ≠ 1 := by
    intro h1
    simp [Entry.IsSolved, h1] at hps
  have hw := weight_set g idx p p hp
  have hkw : p.Value.length ≤ weight g := by
    have h1 := weight_set g idx p { p with Value := [] } hp
    simp only [List.length_nil] at h1
    omega
  have hconst : ∀ c ∈ g.children S, 3 ^ weight c = 3 ^ (weight g + 1 - p.Value.length) := by
    intro c hc
    rw [hch, List.mem_map] at hc
    obtain ⟨v, _, rfl⟩ := hc
    have h1 := weight_set g idx p { p with Value := [v] } hp
    simp only [List.length_singleton] at h1
    congr 1
    omega
  unfold stackMeasure
  rw [sum_map_const _ _ _ hconst]
  have hlen : (g.children S).length = p.Value.length := by rw [hch]; simp
  rw [hlen]
  exact branch_bound _ _ hk1 hkw

theorem stackMeasure_append (a b : Stack) :
    stackMeasure (a ++ b) = stackMeasure a + stackMeasure b := by
  simp [stackMeasure]

theorem stackMeasure_singleton (g : Grid) : stackMeasure [g] = 3 ^ weight g := by
  simp [stackMeasure]

theorem solveLoop_terminates (S : SortImpl) (G0 : Grid) (hG0 : Positioned G0) (fuel : Nat)
    (s : Solver) (hst : ∀ g ∈ s.grids, Refines g G0) (hm : stackMeasure s.grids ≤ fuel) :
    ∃ out, solveLoop S fuel s = some out := by
  induction fuel generalizing s with
  | zero =>
    rcases stack_cases s.grids with hnil | ⟨rest, top, hs⟩
    · exact ⟨_, solveLoop_zero S s hnil 0⟩
    · rw [hs, stackMeasure_append, stackMeasure_singleton] at hm
      have : 0 < 3 ^ weight top := Nat.pow_pos (by norm_num)
      omega
  | succ n ih =>
    rcases stack_cases s.grids with hnil | ⟨rest, top, hs⟩
    · exact ⟨_, solveLoop_zero S s hnil _⟩
    · have htop : Refines top G0 := hst top (by rw [hs]; simp)
      have hrest : ∀ g ∈ rest, Refines g G0 := fun g hg => hst g (by rw [hs]; simp [hg])
      have hE : Refines top.Eliminate.2 G0 := (Eliminate_refines top).trans htop
      rw [hs, stackMeasure_append, stackMeasure_singleton] at hm
      have hpos : 0 < 3 ^ weight top := Nat.pow_pos (by norm_num)
      rw [solveLoop_unroll S n s rest top hs (htop.positioned hG0)]
      split
      · exact ih { s with grids := rest, curr := top.Eliminate.2 } hrest (by simp only; omega)
      · split
        · exact ⟨_, rfl⟩
        · rename_i hsol
          simp only [Bool.not_eq_true] at hsol
          refine ih { s with grids := rest ++ top.Eliminate.2.children S,
                             curr := top.Eliminate.2 } ?_ ?_
          · intro g hg
            simp only [List.mem_append] at hg
            rcases hg with hg | hg
            · exact hrest g hg
            · exact (children_refines S _ (hE.positioned hG0) hsol g hg).trans hE
          · simp only
            rw [stackMeasure_append]
            have h1 := children_measure S _ (hE.positioned hG0) hsol
            have h2 : 3 ^ weight top.Eliminate.2 ≤ 3 ^ weight top :=
              Nat.pow_le_pow_right (by norm_num) (weight_refines (Eliminate_refines top))
            omega

theorem solveLoop_mono (S : SortImpl) (G0 : Grid) (hG0 : Positioned G0) (fuel : Nat)
    (s : Solver) (hst : ∀ g ∈ s.grids, Refines g G0)
    (out : Option (Solver × String × Bool)) (h : solveLoop S fuel s = some out) :
    solveLoop S (fuel + 1) s = some out := by
  induction fuel generalizing s with
  | zero =>
    rcases stack_cases s.grids with hnil | ⟨rest, top, hs⟩
    · rw [solveLoop_zero S s hnil] at h ⊢
      exact h
    · simp [solveLoop, Stack.Empty, hs] at h
  | succ n ih =>
    rcases stack_cases s.grids with hnil | ⟨rest, top, hs⟩
    · rw [solveLoop_zero S s hnil] at h ⊢
      exact h
    · have htop : Refines top G0 := hst top (by rw [hs]; simp)
      have hrest : ∀ g ∈ rest, Refines g G0 := fun g hg => hst g (by rw [hs]; simp [hg])
      have hE : Refines top.Eliminate.2 G0 := (Eliminate_refines top).trans htop
      rw [solveLoop_unroll S n s rest top hs (htop.positioned hG0)] at h
      rw [solveLoop_unroll S (n + 1) s rest top hs (htop.positioned hG0)]
      split at h
      · rename_i hflag
        rw [if_pos hflag]
        exact ih { s with grids := rest, curr := top.Eliminate.2 } hrest h
      · rename_i hflag
        rw [if_neg hflag]
        split at h
        · rename_i hsol
          rw [if_pos hsol]
          exact h
        · rename_i hsol
          rw [if_neg hsol]
          simp only [Bool.not_eq_true] at hsol
          refine ih { s with grids := rest ++ top.Eliminate.2.children S,
                             curr := top.Eliminate.2 } ?_ h
          intro g hg
          simp only [List.mem_append] at hg
          rcases hg with hg | hg
          · exact hrest g hg
          · exact (children_refines S _ (hE.positioned hG0) hsol g hg).trans hE

theorem solveLoop_mono_le (S : SortImpl) (G0 : Grid) (hG0 : Positioned G0) (fuel fuel1 : Nat)
    (hle : fuel ≤ fuel1) (s : Solver) (hst : ∀ g ∈ s.grids, Refines g G0)
    (out : Option (Solver × String × Bool)) (h : solveLoop S fuel s = some out) :
    solveLoop S fuel1 s = some out := by
  induction fuel1 with
  | zero =>
    have : fuel = 0 := by omega
    subst this
    exact h
  | succ n ih =>
    rcases Nat.eq_or_lt_of_le hle with heq | hlt
    · rw [← heq]; exact h
    · exact solveLoop_mono S G0 hG0 n s hst out (ih (by omega))

/-! ## Digits and characters -/

theorem repr_digit (v : Nat) (h : v < 10) : (Nat.repr v).toList = [Nat.digitChar v] := by
  interval_cases v <;> rfl

theorem digitChar_mem (v : Nat) (h1 : 1 ≤ v) (h9 : v ≤ 9) : Nat.digitChar v ∈ digitChars := by
  interval_cases v <;> decide

theorem alphabet_cases (c : Char) (h : c ∈ alphabet) (hc : c ≠ '.') :
    1 ≤ atoi c ∧ atoi c ≤ 9 ∧ Nat.digitChar (atoi c) = c := by
  simp only [alphabet, List.mem_cons, List.mem_singleton, List.mem_nil_iff, or_false] at h
  rcases h with h | h | h | h | h | h | h | h | h | h
  · exact absurd h hc
  all_goals (subst h; decide)

theorem NewEntry_blank (r c : Nat) :
    NewEntry '.' r c = { Value := [1, 2, 3, 4, 5, 6, 7, 8, 9], Row := r, Column := c } := by
  simp [NewEntry]

theorem NewEntry_clue (s : Char) (r c : Nat) (hs : s ≠ '.') :
    NewEntry s r c = { Value := [atoi s], Row := r, Column := c } := by
  simp [NewEntry, hs]

theorem NewEntry_digit (s : Char) (r c : Nat) (hs : s ∈ alphabet) :
    (NewEntry s r c).Value.Nodup ∧ ∀ v ∈ (NewEntry s r c).Value, 1 ≤ v ∧ v ≤ 9 := by
  by_cases h : s = '.'
  · subst h
    rw [NewEntry_blank]
    refine ⟨?_, ?_⟩
    · show [1, 2, 3, 4, 5, 6, 7, 8, 9].Nodup
      decide
    · intro v hv
      simp only [List.mem_cons, List.mem_singleton, List.mem_nil_iff, or_false] at hv
      omega
  · rw [NewEntry_clue s r c h]
    obtain ⟨h1, h9, _⟩ := alphabet_cases s hs h
    refine ⟨by simp, ?_⟩
    intro v hv
    simp only [List.mem_singleton] at hv
    subst hv
    exact ⟨h1, h9⟩

theorem getElem?_lt {g : Grid} {i : Nat} {e : Entry} (h : g[i]? = some e) : i < g.length := by
  by_contra hge
  rw [List.getElem?_eq_none (by omega)] at h
  cases h

theorem NewGrid_get (puzzle : String) (G0 : Grid) (hw : WellFormed puzzle)
    (hG : NewGrid puzzle = some G0) (i : Nat) (e : Entry) (he : G0[i]? = some e) :
    ∃ s, puzzle.toList[i]? = some s ∧ s ∈ alphabet ∧ e = NewEntry s (i / 9) (i % 9) := by
  obtain ⟨g, h1, h2, h3⟩ := NewGrid_spec puzzle hw.1
  rw [hG] at h1
  cases h1
  have hi : i < 81 := h2 ▸ getElem?_lt he
  obtain ⟨s, hs1, hs2⟩ := h3 i hi
  rw [hs2] at he
  cases he
  exact ⟨s, hs1, hw.2 s (List.getElem?_mem hs1), rfl⟩

theorem NewGrid_digit (puzzle : String) (G0 : Grid) (hw : WellFormed puzzle)
    (hG : NewGrid puzzle = some G0) : DigitGrid G0 := by
  intro i e he
  obtain ⟨s, _, hs, rfl⟩ := NewGrid_get puzzle G0 hw hG i e he
  exact NewEntry_digit s _ _ hs

theorem Refines.digit {g1 g : Grid} (h : Refines g1 g) (hd : DigitGrid g) : DigitGrid g1 := by
  intro i e1 h1
  obtain ⟨e, h0, hb⟩ := h.get_inv h1
  obtain ⟨hn, hv⟩ := hd i e h0
  exact ⟨hn.sublist hb.2.2, fun v hm => hv v (hb.2.2.subset hm)⟩

theorem DigitGrid.toNodup {g : Grid} (h : DigitGrid g) : NodupGrid g :=
  fun i e he => (h i e he).1

/-! ## GridToString -/

theorem foldl_toString (g : Grid) (init : String) :
    (g.foldl (fun buf e => buf ++ String.mk (entryChars e)) init).data =
      init.data ++ g.flatMap entryChars := by
  induction g generalizing init with
  | nil => simp
  | cons e rest ih =>
    simp only [List.foldl_cons, List.flatMap_cons]
    rw [ih]
    simp [String.data_append]

theorem GridToString_data (g : Grid) : (GridToString g).data = g.flatMap entryChars := by
  unfold GridToString
  rw [foldl_toString]
  rfl

/-- The character written for a solved entry. -/
theorem entryChars_solved (e : Entry) (v : Nat) (hv : e.Value = [v]) (h : v < 10) :
    entryChars e = [Nat.digitChar v] := by
  unfold entryChars
  rw [hv]
  exact repr_digit v h

theorem flatMap_singleton {α β : Type} (l : List α) (f : α → List β) (c : α → β)
    (h : ∀ x ∈ l, f x = [c x]) : l.flatMap f = l.map c := by
  induction l with
  | nil => rfl
  | cons x xs ih =>
    simp only [List.flatMap_cons, List.map_cons]
    rw [h x (List.mem_cons_self _ _), ih (fun y hy => h y (List.mem_cons_of_mem _ hy))]
    rfl

theorem GridToString_solved (g : Grid) (hd : DigitGrid g) (hs : g.IsSolved = true) :
    (GridToString g).data = g.map fun e => Nat.digitChar (e.Value.headD 0) := by
  rw [GridToString_data]
  apply flatMap_singleton
  intro e he
  obtain ⟨i, hi⟩ := List.getElem?_of_mem he
  have hlen := (isSolved_iff g).1 hs i e hi
  obtain ⟨v, hv⟩ := List.length_eq_one.1 hlen
  have h9 := ((hd i e hi).2 v (by rw [hv]; simp)).2
  rw [entryChars_solved e v hv (by omega), hv]
  rfl

/-! ## Solve -/

theorem Solve_unroll (S : SortImpl) (fuel : Nat) (s : Solver) (puzzle : String) (G0 : Grid)
    (hG : NewGrid puzzle = some G0) (hpos : Positioned G0) :
    Solver.Solve S fuel s puzzle =
      if G0.Eliminate.1 = false then
        some (some ({ Puzzle := puzzle, Solution := "", curr := G0.Eliminate.2, grids := [] },
          "Invalid puzzle", false))
      else if G0.Eliminate.2.IsSolved = true then
        some (some (Solver.done
          { Puzzle := puzzle, Solution := "", curr := G0.Eliminate.2, grids := [] }))
      else
        solveLoop S fuel
          { Puzzle := puzzle, Solution := "", curr := G0.Eliminate.2,
            grids := G0.Eliminate.2.children S } := by
  simp only [Solver.Solve, hG, Solver.Eliminate]
  cases hflag : G0.Eliminate.1 with
  | false => simp
  | true =>
    simp only [Bool.not_true, Bool.false_eq_true, if_false]
    cases hsol : G0.Eliminate.2.IsSolved with
    | true => simp
    | false =>
      have hpos2 : Positioned G0.Eliminate.2 := (Eliminate_refines G0).positioned hpos
      simp only [Solver.Guess, Guess_eq S _ [] hpos2 hsol]
      simp

theorem NewGrid_exists (puzzle : String) (hw : WellFormed puzzle) :
    ∃ G0, NewGrid puzzle = some G0 ∧ Positioned G0 ∧ DigitGrid G0 := by
  obtain ⟨g, h1, _, _⟩ := NewGrid_spec puzzle hw.1
  exact ⟨g, h1, NewGrid_positioned puzzle g hw.1 h1, NewGrid_digit puzzle g hw h1⟩

/-- Every successful result is the rendering of a solved refinement of the
initial grid. -/
theorem Solve_success (S : SortImpl) (fuel : Nat) (s : Solver) (puzzle : String) (G0 : Grid)
    (hG : NewGrid puzzle = some G0) (hpos : Positioned G0)
    (s1 : Solver) (str : String)
    (h : Solver.Solve S fuel s puzzle = some (some (s1, str, true))) :
    Refines s1.curr G0 ∧ s1.curr.IsSolved = true ∧ str = GridToString s1.curr ∧
      s1.Solution = str := by
  have hE : Refines G0.Eliminate.2 G0 := Eliminate_refines G0
  rw [Solve_unroll S fuel s puzzle G0 hG hpos] at h
  split at h
  · cases h
  · split at h
    · rename_i hsol
      cases h
      exact ⟨hE, hsol, rfl, rfl⟩
    · rename_i hsol
      simp only [Bool.not_eq_true] at hsol
      have hst : ∀ g ∈ G0.Eliminate.2.children S, Refines g G0 := fun g hg =>
        (children_refines S _ (hE.positioned hpos) hsol g hg).trans hE
      obtain ⟨s2, str2, ok2, hout, _, hor⟩ := solveLoop_result S G0 hpos fuel
        { Puzzle := puzzle, Solution := "", curr := G0.Eliminate.2,
          grids := G0.Eliminate.2.children S } hst _ h
      cases hout
      rcases hor with ⟨_, h1, h2, h3, h4⟩ | ⟨hfalse, _⟩
      · exact ⟨h1, h2, h3, h4⟩
      · cases hfalse

theorem solved_string (g : Grid) (hd : DigitGrid g) (hs : g.IsSolved = true)
    (hlen : g.length = 81) :
    (GridToString g).length = 81 ∧ ∀ c ∈ (GridToString g).toList, c ∈ digitChars := by
  have hdata := GridToString_solved g hd hs
  constructor
  · show (GridToString g).data.length = 81
    rw [hdata]
    simpa using hlen
  · intro c hc
    have hc1 : c ∈ (GridToString g).data := hc
    rw [hdata, List.mem_map] at hc1
    obtain ⟨e, he, rfl⟩ := hc1
    obtain ⟨i, hi⟩ := List.getElem?_of_mem he
    have hlen1 := (isSolved_iff g).1 hs i e hi
    obtain ⟨v, hv⟩ := List.length_eq_one.1 hlen1
    obtain ⟨h1, h9⟩ := (hd i e hi).2 v (by rw [hv]; simp)
    rw [hv]
    exact digitChar_mem v h1 h9

theorem Solve_total (S : SortImpl) (s : Solver) (puzzle : String) (hw : WellFormed puzzle) :
    ∃ (fuel0 : Nat) (s1 : Solver) (str : String) (ok : Bool),
      ∀ fuel, fuel0 ≤ fuel → Solver.Solve S fuel s puzzle = some (some (s1, str, ok)) := by
  obtain ⟨G0, hG, hpos, hdig⟩ := NewGrid_exists puzzle hw
  have hE : Refines G0.Eliminate.2 G0 := Eliminate_refines G0
  by_cases hflag : G0.Eliminate.1 = false
  · refine ⟨0, { Puzzle := puzzle, Solution := "", curr := G0.Eliminate.2, grids := [] },
      "Invalid puzzle", false, fun fuel _ => ?_⟩
    rw [Solve_unroll S fuel s puzzle G0 hG hpos, if_pos hflag]
  · by_cases hsol : G0.Eliminate.2.IsSolved = true
    · refine ⟨0, { Puzzle := puzzle, Solution := GridToString G0.Eliminate.2,
                   curr := G0.Eliminate.2, grids := [] },
        GridToString G0.Eliminate.2, true, fun fuel _ => ?_⟩
      rw [Solve_unroll S fuel s puzzle G0 hG hpos, if_neg hflag, if_pos hsol]
      rfl
    · have hsol1 : G0.Eliminate.2.IsSolved = false := by simpa using hsol
      have hst : ∀ g ∈ G0.Eliminate.2.children S, Refines g G0 := fun g hg =>
        (children_refines S _ (hE.positioned hpos) hsol1 g hg).trans hE
      obtain ⟨out, hout⟩ := solveLoop_terminates S G0 hpos
        (stackMeasure (G0.Eliminate.2.children S))
        { Puzzle := puzzle, Solution := "", curr := G0.Eliminate.2,
          grids := G0.Eliminate.2.children S } hst (le_refl _)
      obtain ⟨s2, str2, ok2, hshape, _, _⟩ := solveLoop_result S G0 hpos _ _ hst out hout
      subst hshape
      refine ⟨stackMeasure (G0.Eliminate.2.children S), s2, str2, ok2, fun fuel hle => ?_⟩
      rw [Solve_unroll S fuel s puzzle G0 hG hpos, if_neg hflag, if_neg hsol]
      exact solveLoop_mono_le S G0 hpos _ fuel hle _ hst _ hout

/-- Shape of any result of `Solve` on a well-formed puzzle. -/
theorem Solve_shape (S : SortImpl) (fuel : Nat) (s : Solver) (puzzle : String)
    (hw : WellFormed puzzle) (s1 : Solver) (str : String) (ok : Bool)
    (h : Solver.Solve S fuel s puzzle = some (some (s1, str, ok))) :
    (ok = true ∧ str.length = 81 ∧ ∀ c ∈ str.toList, c ∈ digitChars) ∨
      (ok = false ∧ str = "Invalid puzzle") ∨ (ok = false ∧ str = "No solution found") := by
  obtain ⟨G0, hG, hpos, hdig⟩ := NewGrid_exists puzzle hw
  cases ok with
  | true =>
    obtain ⟨h1, h2, h3, _⟩ := Solve_success S fuel s puzzle G0 hG hpos s1 str h
    left
    rw [h3]
    have := solved_string s1.curr (h1.digit hdig) h2 (h1.1.trans hpos.1)
    exact ⟨rfl, this.1, this.2⟩
  | false =>
    right
    have hE : Refines G0.Eliminate.2 G0 := Eliminate_refines G0
    rw [Solve_unroll S fuel s puzzle G0 hG hpos] at h
    split at h
    · cases h
      exact Or.inl ⟨rfl, rfl⟩
    · split at h
      · cases h
      · rename_i hsol
        simp only [Bool.not_eq_true] at hsol
        have hst : ∀ g ∈ G0.Eliminate.2.children S, Refines g G0 := fun g hg =>
          (children_refines S _ (hE.positioned hpos) hsol g hg).trans hE
        obtain ⟨s2, str2, ok2, hout, _, hor⟩ := solveLoop_result S G0 hpos fuel
          { Puzzle := puzzle, Solution := "", curr := G0.Eliminate.2,
            grids := G0.Eliminate.2.children S } hst _ h
        cases hout
        rcases hor with ⟨htrue, _⟩ | ⟨_, h1, _⟩
        · cases htrue
        · exact Or.inr ⟨rfl, h1⟩

/-! ## Completions -/

theorem filter_length_one_unique {l : List Nat} {p : Nat → Bool} (h : (l.filter p).length = 1)
    {i j : Nat} (hi : i ∈ l) (hj : j ∈ l) (hpi : p i = true) (hpj : p j = true) : i = j := by
  obtain ⟨a, ha⟩ := List.length_eq_one.1 h
  have h1 : i ∈ l.filter p := List.mem_filter.2 ⟨hi, hpi⟩
  have h2 : j ∈ l.filter p := List.mem_filter.2 ⟨hj, hpj⟩
  rw [ha] at h1 h2
  simp only [List.mem_singleton] at h1 h2
  rw [h1, h2]

theorem eachOnce_peers (T : Nat → Nat) (h : EachOnce T) (hr : ∀ i < 81, 1 ≤ T i ∧ T i ≤ 9)
    (i j : Nat) (hi : i < 81) (hj : j < 81) (hne : i ≠ j)
    (hunit : i / 9 = j / 9 ∨ i % 9 = j % 9 ∨
      (i / 9 / 3) * 3 + i % 9 / 3 = (j / 9 / 3) * 3 + j % 9 / 3) : T i ≠ T j := by
  intro heq
  obtain ⟨h1, h9⟩ := hr j hj
  have hmi : i ∈ List.range 81 := List.mem_range.2 hi
  have hmj : j ∈ List.range 81 := List.mem_range.2 hj
  rcases hunit with hu | hu | hu
  · have := (h (j / 9) (by omega) (T j) (by omega) h1).1
    exact hne (filter_length_one_unique this hmi hmj (by simp [hu, heq]) (by simp))
  · have := (h (j % 9) (by omega) (T j) (by omega) h1).2.1
    exact hne (filter_length_one_unique this hmi hmj (by simp [hu, heq]) (by simp))
  · have := (h ((j / 9 / 3) * 3 + j % 9 / 3) (by omega) (T j) (by omega) h1).2.2
    exact hne (filter_length_one_unique this hmi hmj (by simp [hu, heq]) (by simp))

theorem getElem?_of_lt (g : Grid) (i : Nat) (h : i < g.length) : ∃ e, g[i]? = some e :=
  ⟨g[i], List.getElem?_eq_getElem h⟩

theorem peer_positions (g : Grid) (hpos : Positioned g) (i j : Nat) (h : Peer g i j) :
    i < 81 ∧ j < 81 ∧ i ≠ j ∧ (i / 9 = j / 9 ∨ i % 9 = j % 9 ∨
      (i / 9 / 3) * 3 + i % 9 / 3 = (j / 9 / 3) * 3 + j % 9 / 3) := by
  obtain ⟨hne, e, en, h1, h2, h3⟩ := h
  obtain ⟨hr1, hc1⟩ := hpos.2 i e h1
  obtain ⟨hr2, hc2⟩ := hpos.2 j en h2
  refine ⟨hpos.1 ▸ getElem?_lt h1, hpos.1 ▸ getElem?_lt h2, hne, ?_⟩
  unfold Entry.Block at h3
  rw [hr1, hc1, hr2, hc2] at h3
  exact h3

theorem positions_peer (g : Grid) (hpos : Positioned g) (i j : Nat) (hi : i < 81) (hj : j < 81)
    (hne : i ≠ j) (hunit : i / 9 = j / 9 ∨ i % 9 = j % 9 ∨
      (i / 9 / 3) * 3 + i % 9 / 3 = (j / 9 / 3) * 3 + j % 9 / 3) : Peer g i j := by
  obtain ⟨ei, h1⟩ := getElem?_of_lt g i (by rw [hpos.1]; exact hi)
  obtain ⟨ej, h2⟩ := getElem?_of_lt g j (by rw [hpos.1]; exact hj)
  obtain ⟨hr1, hc1⟩ := hpos.2 i _ h1
  obtain ⟨hr2, hc2⟩ := hpos.2 j _ h2
  refine ⟨hne, _, _, h1, h2, ?_⟩
  unfold Entry.Block
  rw [hr1, hc1, hr2, hc2]
  exact hunit

theorem completion_conflictFree (T : Nat → Nat) (g : Grid) (hpos : Positioned g)
    (h : EachOnce T) (hr : ∀ i < 81, 1 ≤ T i ∧ T i ≤ 9) : ConflictFree T g := by
  intro i j hp
  obtain ⟨hi, hj, hne, hu⟩ := peer_positions g hpos i j hp
  exact eachOnce_peers T h hr i j hi hj hne hu

theorem completion_compat (puzzle : String) (G0 : Grid) (hw : WellFormed puzzle)
    (hG : NewGrid puzzle = some G0) (T : Nat → Nat) (hT : IsCompletion puzzle T) :
    Compat T G0 := by
  intro i e he
  obtain ⟨s, hs1, hs2, rfl⟩ := NewGrid_get puzzle G0 hw hG i e he
  have hpos := NewGrid_positioned puzzle G0 hw.1 hG
  have hi : i < 81 := hpos.1 ▸ getElem?_lt he
  by_cases hdot : s = '.'
  · subst hdot
    rw [NewEntry_blank]
    obtain ⟨h1, h9⟩ := hT.1 i hi
    simp only [List.mem_cons, List.mem_singleton, List.mem_nil_iff, or_false]
    omega
  · rw [NewEntry_clue s _ _ hdot, hT.2.1 i s hs1 hdot]
    simp

theorem children_compat (S : SortImpl) (T : Nat → Nat) (g : Grid) (hpos : Positioned g)
    (hns : g.IsSolved = false) (hc : Compat T g) : ∃ c ∈ g.children S, Compat T c := by
  obtain ⟨idx, p, hp, _, _, hch⟩ := children_spec S g hpos hns
  refine ⟨g.set idx { p with Value := [T idx] }, ?_, ?_⟩
  · rw [hch, List.mem_map]
    exact ⟨T idx, hc idx p hp, rfl⟩
  · intro i e he
    by_cases hi : idx = i
    · subst hi
      rw [List.getElem?_set, if_pos rfl, if_pos (getElem?_lt hp)] at he
      cases he
      simp
    · rw [List.getElem?_set_ne hi] at he
      exact hc i e he

/-- A puzzle with a completion is never reported as failed. -/
theorem Solve_complete (S : SortImpl) (fuel : Nat) (s : Solver) (puzzle : String)
    (hw : WellFormed puzzle) (T : Nat → Nat) (hT : IsCompletion puzzle T)
    (s1 : Solver) (str : String) (ok : Bool)
    (h : Solver.Solve S fuel s puzzle = some (some (s1, str, ok))) : ok = true := by
  obtain ⟨G0, hG, hpos, _⟩ := NewGrid_exists puzzle hw
  have hE : Refines G0.Eliminate.2 G0 := Eliminate_refines G0
  have hcf : ConflictFree T G0 := completion_conflictFree T G0 hpos hT.2.2 hT.1
  have hc0 : Compat T G0 := completion_compat puzzle G0 hw hG T hT
  obtain ⟨hflag, hcE⟩ := Eliminate_compat T G0 hc0 hcf
  rw [Solve_unroll S fuel s puzzle G0 hG hpos] at h
  rw [if_neg (by simp [hflag])] at h
  split at h
  · cases h
    rfl
  · rename_i hsol
    simp only [Bool.not_eq_true] at hsol
    have hst : ∀ g ∈ G0.Eliminate.2.children S, Refines g G0 := fun g hg =>
      (children_refines S _ (hE.positioned hpos) hsol g hg).trans hE
    exact solveLoop_compat S T G0 hpos hcf fuel _ hst
      (children_compat S T _ (hE.positioned hpos) hsol hcE) s1 str ok h

/-! ## Contradictory clues -/

theorem Solve_conflict (S : SortImpl) (fuel : Nat) (s : Solver) (puzzle : String)
    (hw : WellFormed puzzle) (i j : Nat) (c : Char) (hi : i < 81) (hj : j < 81) (hne : i ≠ j)
    (hunit : i / 9 = j / 9 ∨ i % 9 = j % 9 ∨
      (i / 9 / 3) * 3 + i % 9 / 3 = (j / 9 / 3) * 3 + j % 9 / 3)
    (hci : puzzle.toList[i]? = some c) (hcj : puzzle.toList[j]? = some c) (hc : c ≠ '.') :
    ∃ s1, Solver.Solve S fuel s puzzle = some (some (s1, "Invalid puzzle", false)) := by
  obtain ⟨G0, hG, hpos, hdig⟩ := NewGrid_exists puzzle hw
  have hflag : G0.Eliminate.1 = false := by
    by_contra hcon
    have htrue : (eliminateLoop (List.range G0.length) G0).1 = true := by
      simpa [Grid.Eliminate] using hcon
    obtain ⟨ei, hgi⟩ := getElem?_of_lt G0 i (by rw [hpos.1]; exact hi)
    obtain ⟨ej, hgj⟩ := getElem?_of_lt G0 j (by rw [hpos.1]; exact hj)
    obtain ⟨si, hsi1, _, hsi2⟩ := NewGrid_get puzzle G0 hw hG i _ hgi
    obtain ⟨sj, hsj1, _, hsj2⟩ := NewGrid_get puzzle G0 hw hG j _ hgj
    rw [hci] at hsi1
    rw [hcj] at hsj1
    cases hsi1
    cases hsj1
    have hvi : ei.Value = [atoi c] := by rw [hsi2, NewEntry_clue c _ _ hc]
    have hvj : ej.Value = [atoi c] := by rw [hsj2, NewEntry_clue c _ _ hc]
    have hA := eliminateLoop_solved _ G0 hdig.toNodup htrue i
      (List.mem_range.2 (by rw [hpos.1]; exact hi)) _ _ hgi hvi
    have hB := eliminateLoop_solved _ G0 hdig.toNodup htrue j
      (List.mem_range.2 (by rw [hpos.1]; exact hj)) _ _ hgj hvj
    obtain ⟨e1, he1, hv1⟩ := hB.1
    have := hA.2 j e1 (positions_peer G0 hpos i j hi hj hne hunit) he1
    rw [hv1] at this
    simp at this
  refine ⟨{ Puzzle := puzzle, Solution := "", curr := G0.Eliminate.2, grids := [] }, ?_⟩
  rw [Solve_unroll S fuel s puzzle G0 hG hpos, if_pos hflag]

/-! ## A correctly filled grid -/

theorem full_get (puzzle : String) (G0 : Grid) (hw : WellFormed puzzle)
    (hfull : ∀ c ∈ puzzle.toList, c ≠ '.') (hG : NewGrid puzzle = some G0)
    (i : Nat) (e : Entry) (he : G0[i]? = some e) :
    e.Value = [cellDigit puzzle i] ∧ 1 ≤ cellDigit puzzle i ∧ cellDigit puzzle i ≤ 9 ∧
      puzzle.toList[i]? = some (Nat.digitChar (cellDigit puzzle i)) := by
  obtain ⟨s, hs1, hs2, rfl⟩ := NewGrid_get puzzle G0 hw hG i e he
  have hdot : s ≠ '.' := hfull s (List.getElem?_mem hs1)
  obtain ⟨h1, h9, hch⟩ := alphabet_cases s hs2 hdot
  have hcd : cellDigit puzzle i = atoi s := by
    unfold cellDigit
    rw [hs1]
  rw [hcd, NewEntry_clue s _ _ hdot, hch]
  exact ⟨rfl, h1, h9, hs1⟩

theorem Solve_full (S : SortImpl) (fuel : Nat) (s : Solver) (puzzle : String)
    (hw : WellFormed puzzle) (hfull : ∀ c ∈ puzzle.toList, c ≠ '.')
    (hvalid : EachOnce (cellDigit puzzle)) :
    ∃ G0, NewGrid puzzle = some G0 ∧ Solver.Solve S fuel s puzzle =
      some (some ({ Puzzle := puzzle, Solution := puzzle, curr := G0, grids := [] },
        puzzle, true)) := by
  obtain ⟨G0, hG, hpos, hdig⟩ := NewGrid_exists puzzle hw
  refine ⟨G0, hG, ?_⟩
  have hrange : ∀ i < 81, 1 ≤ cellDigit puzzle i ∧ cellDigit puzzle i ≤ 9 := by
    intro i hi
    obtain ⟨e, he⟩ := getElem?_of_lt G0 i (by rw [hpos.1]; exact hi)
    obtain ⟨_, h1, h9, _⟩ := full_get puzzle G0 hw hfull hG i e he
    exact ⟨h1, h9⟩
  have hsolved : G0.IsSolved = true := by
    rw [isSolved_iff]
    intro i e he
    rw [(full_get puzzle G0 hw hfull hG i e he).1]
    rfl
  have hval : G0.IsValid = true := by
    rw [isValid_iff]
    intro i e he
    rw [(full_get puzzle G0 hw hfull hG i e he).1]
    simp
  have hfix : G0.Eliminate = (true, G0) := by
    unfold Grid.Eliminate
    apply eliminateLoop_fixed
    · intro i e he _ j ej hp hej
      rw [(full_get puzzle G0 hw hfull hG i e he).1, (full_get puzzle G0 hw hfull hG j ej hej).1]
      obtain ⟨hi, hj, hne, hu⟩ := peer_positions G0 hpos i j hp
      have := eachOnce_peers _ hvalid hrange i j hi hj hne hu
      simpa using this
    · intro _
      exact hval
  have hstr : GridToString G0 = puzzle := by
    apply String.ext
    rw [GridToString_solved G0 hdig hsolved]
    apply List.ext_getElem?
    intro i
    rw [List.getElem?_map]
    by_cases hi : i < 81
    · obtain ⟨e, he⟩ := getElem?_of_lt G0 i (by rw [hpos.1]; exact hi)
      obtain ⟨hv, _, _, hp⟩ := full_get puzzle G0 hw hfull hG i e he
      have hp1 : puzzle.data[i]? = some (Nat.digitChar (cellDigit puzzle i)) := hp
      rw [he, hp1, Option.map_some', hv]
      rfl
    · have hl : puzzle.data.length = 81 := hw.1
      rw [List.getElem?_eq_none (by rw [hpos.1]; omega), List.getElem?_eq_none (by omega)]
      rfl
  rw [Solve_unroll S fuel s puzzle G0 hG hpos, hfix]
  simp only [Bool.true_eq_false, if_false, hsolved, if_true, Solver.done, hstr]

/-! ## Fuel -/

theorem Solve_mono_le (S : SortImpl) (fuel fuel1 : Nat) (hle : fuel ≤ fuel1) (s : Solver)
    (puzzle : String) (hw : WellFormed puzzle) (out : Option (Solver × String × Bool))
    (h : Solver.Solve S fuel s puzzle = some out) :
    Solver.Solve S fuel1 s puzzle = some out := by
  obtain ⟨G0, hG, hpos, _⟩ := NewGrid_exists puzzle hw
  have hE : Refines G0.Eliminate.2 G0 := Eliminate_refines G0
  rw [Solve_unroll S fuel s puzzle G0 hG hpos] at h
  rw [Solve_unroll S fuel1 s puzzle G0 hG hpos]
  split at h
  · rename_i hflag
    rw [if_pos hflag]
    exact h
  · rename_i hflag
    rw [if_neg hflag]
    split at h
    · rename_i hsol
      rw [if_pos hsol]
      exact h
    · rename_i hsol
      rw [if_neg hsol]
      simp only [Bool.not_eq_true] at hsol
      have hst : ∀ g ∈ G0.Eliminate.2.children S, Refines g G0 := fun g hg =>
        (children_refines S _ (hE.positioned hpos) hsol g hg).trans hE
      exact solveLoop_mono_le S G0 hpos fuel fuel1 hle _ hst out h

/-! ## A second pass -/

theorem eliminateLoop_valid_of_solved (l : List Nat) (g : Grid)
    (hflag : (eliminateLoop l g).1 = true) (i : Nat) (hi : i ∈ l) (e : Entry)
    (hge : g[i]? = some e) (hs : e.IsSolved = true) :
    (eliminateLoop l g).2.IsValid = true := by
  induction l generalizing g e with
  | nil => cases hi
  | cons h rest ih =>
    simp only [eliminateLoop] at hflag ⊢
    split at hflag
    · rename_i hnone
      have hih : i ∈ rest := by
        rcases List.mem_cons.1 hi with h1 | h1
        · subst h1; rw [hge] at hnone; cases hnone
        · exact h1
      exact ih g hflag hih e hge hs
    · rename_i eh heh
      split at hflag
      · rename_i hsh
        rw [if_pos hsh]
        split at hflag
        · cases hflag
        · rename_i hgood
          simp only [Bool.not_eq_true', Bool.not_eq_false] at hgood
          rw [hgood]
          simp only [Bool.not_true, Bool.false_eq_true, if_false]
          exact (eliminateLoop_flag_iff rest _ hgood).1 hflag
      · rename_i hsh
        rw [if_neg hsh]
        have hih : i ∈ rest := by
          rcases List.mem_cons.1 hi with h1 | h1
          · subst h1
            rw [hge] at heh
            cases heh
            exact absurd hs hsh
          · exact h1
        exact ih g hflag hih e hge hs

theorem Eliminate_idem (g : Grid) (hd : NodupGrid g) (hflag : g.Eliminate.1 = true)
    (hnew : ∀ (i : Nat) (e1 : Entry), g.Eliminate.2[i]? = some e1 → e1.IsSolved = true →
      ∃ e, g[i]? = some e ∧ e.IsSolved = true) :
    g.Eliminate.2.Eliminate = (true, g.Eliminate.2) := by
  have href : Refines g.Eliminate.2 g := Eliminate_refines g
  have hflag1 : (eliminateLoop (List.range g.length) g).1 = true := hflag
  show eliminateLoop (List.range g.Eliminate.2.length) g.Eliminate.2 = (true, g.Eliminate.2)
  apply eliminateLoop_fixed
  · intro i e1 he1 hs1 j ej hp hej
    obtain ⟨e, he, hs⟩ := hnew i e1 he1 hs1
    obtain ⟨v, hv, _⟩ := solved_value e hs
    have hmem : i ∈ List.range g.length := List.mem_range.2 (getElem?_lt he)
    obtain ⟨⟨e2, he2, hv2⟩, hpeers⟩ := eliminateLoop_solved _ g hd hflag1 i hmem e v he hv
    have he12 : e1 = e2 := by
      have : some e1 = some e2 := he1.symm.trans he2
      exact Option.some.inj this
    rw [he12, hv2]
    exact hpeers j ej ((href.peer i j).1 hp) hej
  · rintro ⟨i, e1, he1, hs1⟩
    obtain ⟨e, he, hs⟩ := hnew i e1 he1 hs1
    exact eliminateLoop_valid_of_solved _ g hflag1 i
      (List.mem_range.2 (getElem?_lt he)) e he hs

/-! ## Strict evaluation agrees with the loop -/

theorem forceNat_eq {α : Type} (n : Nat) (k : Nat → α) : forceNat n k = k n := by
  cases n <;> rfl

theorem forceList_eq {α : Type} (l : List Nat) (k : List Nat → α) : forceList l k = k l := by
  induction l generalizing k with
  | nil => rfl
  | cons x xs ih => simp only [forceList, forceNat_eq, ih]

theorem forceEntry_eq {α : Type} (e : Entry) (k : Entry → α) : forceEntry e k = k e := by
  simp only [forceEntry, forceNat_eq, forceList_eq]

theorem forceGrid_eq {α : Type} (g : Grid) (k : Grid → α) : forceGrid g k = k g := by
  induction g generalizing k with
  | nil => rfl
  | cons e es ih => simp only [forceGrid, forceEntry_eq, ih]

theorem sameNeighbourhoodFrom_nodup (attr : Entry → Nat) (a i : Nat) (l : List Entry) (j : Nat) :
    (sameNeighbourhoodFrom attr a i j l).Nodup := by
  induction l generalizing j with
  | nil => simp [sameNeighbourhoodFrom]
  | cons x rest ih =>
    simp only [sameNeighbourhoodFrom]
    split
    · rw [List.nodup_cons]
      refine ⟨?_, ih (j + 1)⟩
      intro hmem
      rw [mem_sameNeighbourhoodFrom] at hmem
      obtain ⟨k, _, _, hk, _, _⟩ := hmem
      omega
    · exact ih (j + 1)

theorem sameNeighbourhood_nodup (g : Grid) (i : Nat) (attr : Entry → Nat) :
    (g.sameNeighbourhood i attr).Nodup := by
  unfold Grid.sameNeighbourhood
  split
  · simp
  · exact sameNeighbourhoodFrom_nodup _ _ _ _ _

theorem count_sameNeighbourhood (g : Grid) (i : Nat) (attr : Entry → Nat) (ei e : Entry)
    (j : Nat) (hi : g[i]? = some ei) (hj : g[j]? = some e) :
    (g.sameNeighbourhood i attr).count j = if attr ei = attr e ∧ i ≠ j then 1 else 0 := by
  rw [List.count_eq_of_nodup (sameNeighbourhood_nodup g i attr)]
  have : j ∈ g.sameNeighbourhood i attr ↔ (attr ei = attr e ∧ i ≠ j) := by
    rw [mem_sameNeighbourhood]
    constructor
    · rintro ⟨a, b, h1, h2, h3, h4⟩
      rw [hi] at h1
      rw [hj] at h2
      cases h1
      cases h2
      exact ⟨h3, h4⟩
    · rintro ⟨h3, h4⟩
      exact ⟨ei, e, hi, hj, h3, h4⟩
  by_cases h : attr ei = attr e ∧ i ≠ j
  · rw [if_pos (this.2 h), if_pos h]
  · rw [if_neg (fun hm => h (this.1 hm)), if_neg h]

theorem elimStep_get_hits (t i : Nat) (g : Grid) (ei : Entry) (hi : g[i]? = some ei) (j : Nat) :
    (elimStep t i g)[j]? =
      (g[j]?).map fun e => if i = j then e else dropN t (hits ei e) e := by
  cases hj : g[j]? with
  | none =>
    obtain ⟨n, hn, _⟩ := elimStep_get t i g j
    rw [hn, hj]
    rfl
  | some e =>
    unfold elimStep Grid.SameRow Grid.SameColumn Grid.SameBlock
    simp only
    generalize hR : (g.sameNeighbourhood i fun e => e.Row) = R
    generalize hg1 : removeEach t R g = g1
    generalize hC : (g1.sameNeighbourhood i fun e => e.Column) = C
    generalize hg2 : removeEach t C g1 = g2
    generalize hB : (g2.sameNeighbourhood i fun e => e.Block) = B
    have hi1 : g1[i]? = some (dropN t (R.count i) ei) := by
      rw [← hg1, removeEach_get, hi]; rfl
    have hj1 : g1[j]? = some (dropN t (R.count j) e) := by
      rw [← hg1, removeEach_get, hj]; rfl
    have hi2 : g2[i]? = some (dropN t (C.count i) (dropN t (R.count i) ei)) := by
      rw [← hg2, removeEach_get, hi1]; rfl
    have hj2 : g2[j]? = some (dropN t (C.count j) (dropN t (R.count j) e)) := by
      rw [← hg2, removeEach_get, hj1]; rfl
    have c1 := count_sameNeighbourhood g i (fun e => e.Row) ei e j hi hj
    have c2 := count_sameNeighbourhood g1 i (fun e => e.Column) _ _ j hi1 hj1
    have c3 := count_sameNeighbourhood g2 i (fun e => e.Block) _ _ j hi2 hj2
    rw [hR] at c1
    rw [hC] at c2
    rw [hB] at c3
    simp only [dropN_column, dropN_block] at c1 c2 c3
    rw [removeEach_get, hj2]
    simp only [Option.map_some', dropN_dropN, Option.some.injEq]
    rw [c1, c2, c3]
    by_cases hij : i = j
    · simp [hij, dropN_zero]
    · simp only [hij, if_false, ne_eq, not_false_eq_true, and_true]
      congr 1
      unfold hits
      omega

theorem fastStepFrom_get (t i : Nat) (ei : Entry) (l : Grid) (j0 k : Nat) :
    (fastStepFrom t i ei j0 l)[k]? =
      (l[k]?).map fun e => if i = j0 + k then e else dropN t (hits ei e) e := by
  induction l generalizing j0 k with
  | nil => simp [fastStepFrom]
  | cons e es ih =>
    simp only [fastStepFrom, forceNat_eq]
    cases k with
    | zero => simp
    | succ k =>
      simp only [List.getElem?_cons_succ]
      rw [ih]
      have : j0 + 1 + k = j0 + (k + 1) := by omega
      rw [this]

theorem fastStep_eq (t i : Nat) (g : Grid) (ei : Entry) (hi : g[i]? = some ei) :
    fastStepFrom t i ei 0 g = elimStep t i g := by
  apply List.ext_getElem?
  intro j
  rw [fastStepFrom_get, elimStep_get_hits t i g ei hi j]
  simp

theorem fastLoop_eq (l : List Nat) (g : Grid) : fastLoop l g = eliminateLoop l g := by
  induction l generalizing g with
  | nil => rfl
  | cons i rest ih =>
    simp only [fastLoop, eliminateLoop, forceGrid_eq]
    split
    · exact ih g
    · rename_i e he
      rw [fastStep_eq _ i g e he]
      split
      · split
        · rfl
        · exact ih _
      · exact ih g

theorem Eliminate_fast (g : Grid) (h : g.length = 81) :
    g.Eliminate = forceGrid g fun g1 => fastLoop (List.range 81) g1 := by
  rw [forceGrid_eq, fastLoop_eq]
  unfold Grid.Eliminate
  rw [h]

/-! ## Helpers for concrete grids -/

theorem gridOf_spec (puzzle : String) (hw : WellFormed puzzle) :
    NewGrid puzzle = some (gridOf puzzle) := by
  obtain ⟨g, h1, _, _⟩ := NewGrid_spec puzzle hw.1
  unfold gridOf
  rw [h1]
  rfl

theorem gridOf_length (puzzle : String) (hw : WellFormed puzzle) :
    (gridOf puzzle).length = 81 :=
  (NewGrid_positioned puzzle _ hw.1 (gridOf_spec puzzle hw)).1

theorem gridOf_Eliminate (puzzle : String) (hw : WellFormed puzzle) :
    (gridOf puzzle).Eliminate =
      forceGrid (gridOf puzzle) fun g1 => fastLoop (List.range 81) g1 :=
  Eliminate_fast _ (gridOf_length puzzle hw)

theorem digitChars_alphabet (c : Char) (h : c ∈ digitChars) : c ∈ alphabet ∧ c ≠ '.' := by
  simp only [digitChars, List.mem_cons, List.mem_singleton, List.mem_nil_iff, or_false] at h
  rcases h with h | h | h | h | h | h | h | h | h <;> (subst h; decide)

theorem nodupGrid_of_all (g : Grid) (h : (g.all fun e => decide e.Value.Nodup) = true) :
    NodupGrid g := by
  intro i e he
  have := (List.all_eq_true.1 h) e (List.getElem?_mem he)
  simpa using this

/-- Index-wise check that no entry is solved in `g1` without being solved in `g`. -/
theorem noNewSolved_of_check (g1 g : Grid) (hlen : g1.length = g.length)
    (h : ((List.range g.length).all fun i =>
      match g1[i]?, g[i]? with
      | some e1, some e => !e1.IsSolved || e.IsSolved
      | _, _ => true) = true) :
    ∀ (i : Nat) (e1 : Entry), g1[i]? = some e1 → e1.IsSolved = true →
      ∃ e, g[i]? = some e ∧ e.IsSolved = true := by
  intro i e1 he1 hs1
  have hi : i < g.length := hlen ▸ getElem?_lt he1
  obtain ⟨e, he⟩ := getElem?_of_lt g i hi
  have := (List.all_eq_true.1 h) i (List.mem_range.2 hi)
  rw [he1, he] at this
  simp only [hs1, Bool.not_true, Bool.false_or] at this
  exact ⟨e, he, this⟩

set_option maxRecDepth 1000000 in
theorem lateConflict_pass :
    (gridOf lateConflictPuzzle).Eliminate = (true, gridOf lateConflictResult) := by
  rw [gridOf_Eliminate lateConflictPuzzle (by decide)]
  decide!

/-! ## A solver holding a given grid -/

theorem onGrid_Eliminate_fst (g : Grid) : (Solver.onGrid g).Eliminate.1 = g.Eliminate.1 := rfl

theorem onGrid_Eliminate_curr (g : Grid) :
    (Solver.onGrid g).Eliminate.2.curr = g.Eliminate.2 := rfl

theorem onGrid_Eliminate2_fst (g : Grid) :
    (Solver.onGrid g).Eliminate.2.Eliminate.1 = g.Eliminate.2.Eliminate.1 := rfl

theorem onGrid_Eliminate2_curr (g : Grid) :
    (Solver.onGrid g).Eliminate.2.Eliminate.2.curr = g.Eliminate.2.Eliminate.2 := rfl

theorem onGrid_curr (g : Grid) : (Solver.onGrid g).curr = g := rfl

/-! ## The run on `guessPuzzle` -/

set_option maxRecDepth 1000000 in
theorem guess_pass1 : (gridOf guessPuzzle).Eliminate = (true, guessAfterPass) := by
  rw [gridOf_Eliminate guessPuzzle (by decide)]
  decide!

set_option maxRecDepth 1000000 in
theorem guess_unique_min : ∀ p ∈ guessAfterPass, p.IsSolved = false →
    (∀ e ∈ guessAfterPass, e.IsSolved = false → p.Value.length ≤ e.Value.length) →
    p = guessEntry := by
  decide!

set_option maxRecDepth 1000000 in
theorem guess_branch7_pass : (guessBranch 7).Eliminate = (true, gridOf guessResult) := by
  rw [Eliminate_fast _ (by decide!)]
  decide!

set_option maxRecDepth 1000000 in
theorem guess_branch2_pass : (guessBranch 2).Eliminate = (true, gridOf guessSolution) := by
  rw [Eliminate_fast _ (by decide!)]
  decide!

set_option maxRecDepth 1000000 in
theorem guess_entry_at : guessAfterPass[11]? = some guessEntry := by decide!

set_option maxRecDepth 1000000 in
theorem guess_unsolved : guessAfterPass.IsSolved = false := by decide!

theorem guess_wf : WellFormed guessPuzzle := by decide

theorem guess_refines : Refines guessAfterPass (gridOf guessPuzzle) := by
  have h := Eliminate_refines (gridOf guessPuzzle)
  rw [guess_pass1] at h
  exact h

theorem guess_positioned : Positioned guessAfterPass :=
  guess_refines.positioned (NewGrid_positioned _ _ guess_wf.1 (gridOf_spec _ guess_wf))

theorem guessBranch_positioned (v : Nat) (hv : v ∈ guessEntry.Value) :
    Positioned (guessBranch v) :=
  (set_refines guessAfterPass 11 guessEntry v guess_entry_at hv).positioned guess_positioned

theorem guess_children (S : SortImpl) :
    guessAfterPass.children S = [guessBranch 2, guessBranch 7] := by
  obtain ⟨p, hch, hpg, hps, hmin⟩ := chosen_spec S guessAfterPass guess_unsolved
  have hp : p = guessEntry := guess_unique_min p hpg hps hmin
  subst hp
  unfold Grid.children
  rw [hch]
  rfl

theorem Solve_guess_step (S : SortImpl) (fuel : Nat) (s : Solver) (puzzle : String)
    (G0 G1 : Grid) (hG : NewGrid puzzle = some G0) (hpos : Positioned G0)
    (hE : G0.Eliminate = (true, G1)) (hns : G1.IsSolved = false) :
    Solver.Solve S fuel s puzzle =
      solveLoop S fuel
        { Puzzle := puzzle, Solution := "", curr := G1, grids := G1.children S } := by
  rw [Solve_unroll S fuel s puzzle G0 hG hpos, hE]
  simp only [Bool.true_eq_false, Bool.false_eq_true, if_false, hns]

theorem solveLoop_done_step (S : SortImpl) (fuel : Nat) (s : Solver) (rest : Stack)
    (top F : Grid) (hs : s.grids = rest ++ [top]) (hpos : Positioned top)
    (hE : top.Eliminate = (true, F)) (hsol : F.IsSolved = true) :
    solveLoop S (fuel + 1) s =
      some (some ({ s with grids := rest, curr := F, Solution := GridToString F },
        GridToString F, true)) := by
  rw [solveLoop_unroll S fuel s rest top hs hpos, hE]
  simp only [Bool.true_eq_false, Bool.false_eq_true, if_false, hsol, if_true, Solver.done]

theorem guess_solve (S : SortImpl) (fuel : Nat) (s : Solver) :
    Solver.Solve S (fuel + 1) s guessPuzzle =
      some (some ({ Puzzle := guessPuzzle, Solution := guessResult,
                    curr := gridOf guessResult, grids := [guessBranch 2] },
        guessResult, true)) := by
  have hpos0 := NewGrid_positioned _ _ guess_wf.1 (gridOf_spec _ guess_wf)
  have hs : (gridOf guessResult).IsSolved = true := by decide
  have hstr : GridToString (gridOf guessResult) = guessResult := by decide
  rw [Solve_guess_step S (fuel + 1) s _ _ _ (gridOf_spec _ guess_wf) hpos0 guess_pass1
    guess_unsolved, guess_children]
  rw [solveLoop_done_step S fuel _ [guessBranch 2] (guessBranch 7) (gridOf guessResult) rfl
    (guessBranch_positioned 7 (by decide)) guess_branch7_pass hs, hstr]

theorem compat_set (T : Nat → Nat) (g : Grid) (idx : Nat) (p : Entry) (hp : g[idx]? = some p)
    (hc : Compat T g) : Compat T (g.set idx { p with Value := [T idx] }) := by
  intro i e he
  by_cases hi : idx = i
  · subst hi
    rw [List.getElem?_set, if_pos rfl, if_pos (getElem?_lt hp)] at he
    cases he
    simp
  · rw [List.getElem?_set_ne hi] at he
    exact hc i e he

theorem agrees_of_check (puzzle : String) (T : Nat → Nat)
    (h : ((List.range puzzle.toList.length).all fun i =>
      match puzzle.toList[i]? with
      | some c => decide (c = '.') || decide (T i = atoi c)
      | none => true) = true) :
    ∀ (i : Nat) (c : Char), puzzle.toList[i]? = some c → c ≠ '.' → T i = atoi c := by
  intro i c hc hdot
  have hi : i < puzzle.toList.length := by
    by_contra hge
    rw [List.getElem?_eq_none (by omega)] at hc
    cases hc
  have := (List.all_eq_true.1 h) i (List.mem_range.2 hi)
  rw [hc] at this
  simpa [hdot] using this

set_option maxRecDepth 1000000 in
theorem guess_completion : IsCompletion guessPuzzle (cellDigit guessSolution) :=
  ⟨by decide!, agrees_of_check _ _ (by decide!), by decide!⟩

set_option maxRecDepth 1000000 in
theorem guess_unique (T : Nat → Nat) (hT : IsCompletion guessPuzzle T) :
    ∀ i < 81, T i = cellDigit guessSolution i := by
  have hpos0 := NewGrid_positioned _ _ guess_wf.1 (gridOf_spec _ guess_wf)
  have hc0 := completion_compat guessPuzzle _ guess_wf (gridOf_spec _ guess_wf) T hT
  have hcf0 := completion_conflictFree T _ hpos0 hT.2.2 hT.1
  have hc1 := (Eliminate_compat T _ hc0 hcf0).2
  rw [guess_pass1] at hc1
  have h11 := hc1 11 guessEntry guess_entry_at
  have hcases : T 11 = 2 ∨ T 11 = 7 := by
    simpa [guessEntry] using h11
  have hbranch : Compat T (guessBranch (T 11)) :=
    compat_set T guessAfterPass 11 guessEntry guess_entry_at hc1
  rcases hcases with h2 | h7
  · rw [h2] at hbranch
    have hposb := guessBranch_positioned 2 (by decide)
    have hc2 := (Eliminate_compat T _ hbranch
      (completion_conflictFree T _ hposb hT.2.2 hT.1)).2
    rw [guess_branch2_pass] at hc2
    have hwS : WellFormed guessSolution := by decide
    intro i hi
    obtain ⟨e, he⟩ := getElem?_of_lt (gridOf guessSolution) i
      (by rw [gridOf_length _ hwS]; exact hi)
    have hv := (full_get guessSolution _ hwS (by decide) (gridOf_spec _ hwS) i e he).1
    have := hc2 i e he
    rw [hv] at this
    simpa using this
  · rw [h7] at hbranch
    have hposb := guessBranch_positioned 7 (by decide)
    have hc7 := (Eliminate_compat T _ hbranch
      (completion_conflictFree T _ hposb hT.2.2 hT.1)).2
    rw [guess_branch7_pass] at hc7
    have ha : (gridOf guessResult)[10]? = some { Value := [2], Row := 1, Column := 1 } := by
      decide!
    have hb : (gridOf guessResult)[28]? = some { Value := [2], Row := 3, Column := 1 } := by
      decide!
    have h10 : T 10 = 2 := by simpa using hc7 10 _ ha
    have h28 : T 28 = 2 := by simpa using hc7 28 _ hb
    exfalso
    exact eachOnce_peers T hT.2.2 hT.1 10 28 (by decide) (by decide) (by decide)
      (Or.inr (Or.inl (by decide))) (h10.trans h28.symm)

/-! ## Facts about the sample grids -/

set_option maxRecDepth 1000000 in
theorem filled_valid : EachOnce (cellDigit filledPuzzle) := by decide!

theorem not_eachOnce_of_colCount (T : Nat → Nat) (u d : Nat) (hu : u < 9) (hd : d < 10)
    (h1 : 1 ≤ d) (h : colCount T u d = 2) : ¬ EachOnce T := by
  intro hall
  have := (hall u hu d hd h1).2.1
  rw [h] at this
  cases this

set_option maxRecDepth 1000000 in
theorem lateConflict_col : colCount (cellDigit lateConflictResult) 6 5 = 2 := by decide!

set_option maxRecDepth 1000000 in
theorem guess_col : colCount (cellDigit guessResult) 1 2 = 2 := by decide!

/-! ## Guess in terms of the chosen entry -/

theorem Guess_chosen (S : SortImpl) (g : Grid) (grids : Stack) :
    g.Guess S grids =
      match g.chosen S with
      | none => none
      | some p => guessPush g p.Row p.Column p.Value grids := by
  unfold Grid.Guess Grid.chosen
  cases hsort : S.sort (g.filter fun e => !e.IsSolved) with
  | nil => simp only [hsort, List.head?_nil]
  | cons q tl => simp only [hsort, List.head?_cons]

theorem Solver_Guess_eq (S : SortImpl) (s : Solver) :
    s.Guess S = (s.curr.Guess S s.grids).map fun grids => { s with grids := grids } := by
  unfold Solver.Guess
  cases s.curr.Guess S s.grids <;> rfl

theorem unsolved_valid_two (e : Entry) (hs : e.IsSolved = false) (hv : e.IsValid = true) :
    2 ≤ e.Value.length := by
  unfold Entry.IsSolved at hs
  unfold Entry.IsValid at hv
  simp only [decide_eq_false_iff_not] at hs
  simp only [gt_iff_lt, decide_eq_true_eq] at hv
  omega

theorem valid_mem (g : Grid) (hv : g.IsValid = true) (e : Entry) (he : e ∈ g) :
    e.IsValid = true := by
  unfold Grid.IsValid at hv
  exact (List.all_eq_true.1 hv) e he

theorem gridOf_positioned (puzzle : String) (hw : WellFormed puzzle) :
    Positioned (gridOf puzzle) :=
  NewGrid_positioned puzzle _ hw.1 (gridOf_spec puzzle hw)

/-- The character written for an entry built from a character of the alphabet. -/
theorem entryChars_NewEntry (c : Char) (r col : Nat) (hc : c ∈ alphabet) :
    entryChars (NewEntry c r col) = [c] := by
  by_cases h : c = '.'
  · subst h
    rw [NewEntry_blank]
    rfl
  · obtain ⟨_, h9, hd⟩ := alphabet_cases c hc h
    rw [NewEntry_clue c r col h]
    show (Nat.repr (atoi c)).toList = [c]
    rw [repr_digit _ (by omega), hd]

theorem flatMap_singleton_eq {α β : Type} (f : α → List β) (g : α → β) (l : List α)
    (h : ∀ a ∈ l, f a = [g a]) : l.flatMap f = l.map g := by
  induction l with
  | nil => rfl
  | cons a r ih =>
    rw [List.flatMap_cons, h a (List.mem_cons_self a r),
      ih fun b hb => h b (List.mem_cons_of_mem a hb)]
    rfl

/-! ## Neighbourhoods of a grid built by NewGrid -/

/-- In a grid whose entries record their positions, a neighbourhood is the set
of other indices with the same attribute, read off the index. -/
theorem mem_neighbourhood_index (g : Grid) (hpos : Positioned g) (attr : Entry → Nat)
    (f : Nat → Nat) (hf : ∀ (j : Nat) (e : Entry), g[j]? = some e → attr e = f j)
    (i : Nat) (hi : i < 81) (j : Nat) :
    j ∈ g.sameNeighbourhood i attr ↔
      j ∈ (List.range 81).filter fun j => decide (j ≠ i ∧ f j = f i) := by
  rw [mem_sameNeighbourhood, List.mem_filter, List.mem_range, decide_eq_true_eq]
  constructor
  · rintro ⟨e, entry, he, hentry, hattr, hne⟩
    have hj : j < 81 := hpos.1 ▸ getElem?_lt hentry
    rw [hf i e he, hf j entry hentry] at hattr
    exact ⟨hj, Ne.symm hne, hattr.symm⟩
  · rintro ⟨hj, hne, hfj⟩
    obtain ⟨e, he⟩ := getElem?_of_lt g i (hpos.1 ▸ hi)
    obtain ⟨entry, hentry⟩ := getElem?_of_lt g j (hpos.1 ▸ hj)
    exact ⟨e, entry, he, hentry, by rw [hf i e he, hf j entry hentry, hfj], Ne.symm hne⟩

theorem neighbourhood_length (g : Grid) (hpos : Positioned g) (attr : Entry → Nat)
    (f : Nat → Nat) (hf : ∀ (j : Nat) (e : Entry), g[j]? = some e → attr e = f j)
    (i : Nat) (hi : i < 81) :
    (g.sameNeighbourhood i attr).length =
      ((List.range 81).filter fun j => decide (j ≠ i ∧ f j = f i)).length :=
  List.Perm.length_eq
    ((List.perm_ext_iff_of_nodup (sameNeighbourhood_nodup g i attr)
      ((List.nodup_range 81).filter _)).2
      fun j => mem_neighbourhood_index g hpos attr f hf i hi j)

set_option maxRecDepth 1000000 in
theorem row_count (i : Nat) (hi : i < 81) :
    ((List.range 81).filter fun j => decide (j ≠ i ∧ j / 9 = i / 9)).length = 8 := by
  revert i
  decide

set_option maxRecDepth 1000000 in
theorem column_count (i : Nat) (hi : i < 81) :
    ((List.range 81).filter fun j => decide (j ≠ i ∧ j % 9 = i % 9)).length = 8 := by
  revert i
  decide

set_option maxRecDepth 1000000 in
theorem block_count (i : Nat) (hi : i < 81) :
    ((List.range 81).filter fun j =>
      decide (j ≠ i ∧ j / 9 / 3 * 3 + j % 9 / 3 = i / 9 / 3 * 3 + i % 9 / 3)).length = 8 := by
  revert i
  decide

/-- Shape of one neighbourhood query on a grid whose entries record their
positions. -/
theorem neighbourhood_spec (g : Grid) (hpos : Positioned g) (attr : Entry → Nat)
    (f : Nat → Nat) (hf : ∀ (j : Nat) (e : Entry), g[j]? = some e → attr e = f j)
    (hcount : ∀ i, i < 81 →
      ((List.range 81).filter fun j => decide (j ≠ i ∧ f j = f i)).length = 8)
    (i : Nat) (e : Entry) (he : g[i]? = some e) :
    (g.sameNeighbourhood i attr).length = 8 ∧ (g.sameNeighbourhood i attr).Nodup ∧
      ∀ (j : Nat), j ∈ g.sameNeighbourhood i attr ↔
        j ≠ i ∧ ∃ entry, g[j]? = some entry ∧ attr entry = attr e := by
  have hi : i < 81 := hpos.1 ▸ getElem?_lt he
  refine ⟨(neighbourhood_length g hpos attr f hf i hi).trans (hcount i hi),
    sameNeighbourhood_nodup g i attr, ?_⟩
  intro j
  rw [mem_sameNeighbourhood]
  constructor
  · rintro ⟨e1, entry, he1, hentry, hattr, hne⟩
    rw [he] at he1
    cases he1
    exact ⟨Ne.symm hne, entry, hentry, hattr.symm⟩
  · rintro ⟨hne, entry, hentry, hattr⟩
    exact ⟨e, entry, he, hentry, hattr.symm, Ne.symm hne⟩

/-! ## Stability of the insertion sort -/

theorem filter_orderedInsert (a : Entry) (l : List Entry) (k : Nat) :
    (l.orderedInsert lenLe a).filter (fun e => decide (e.Value.length = k)) =
      (a :: l).filter (fun e => decide (e.Value.length = k)) := by
  induction l with
  | nil => rfl
  | cons b r ih =>
    rw [List.orderedInsert]
    split
    · rfl
    · rename_i hab
      have hlt : b.Value.length < a.Value.length := Nat.lt_of_not_le hab
      rw [List.filter_cons, ih]
      by_cases ha : a.Value.length = k
      · have hb : ¬ b.Value.length = k := by omega
        simp [List.filter_cons, ha, hb]
      · simp [List.filter_cons, ha]

theorem insertion_stable : StableSort insertionSortImpl := by
  intro l k
  show (l.insertionSort lenLe).filter _ = _
  induction l with
  | nil => rfl
  | cons a r ih =>
    rw [List.insertionSort, filter_orderedInsert, List.filter_cons, ih, List.filter_cons]

/-- The head of a filtered list is the first element passing the filter. -/
theorem filter_head_index (r : Entry → Bool) (l : List Entry) (p : Entry)
    (h : (l.filter r).head? = some p) :
    ∃ i : Nat, l[i]? = some p ∧ r p = true ∧
      ∀ (j : Nat) (e : Entry), l[j]? = some e → r e = true → i ≤ j := by
  induction l with
  | nil => cases h
  | cons a rest ih =>
    by_cases ha : r a = true
    · rw [List.filter_cons_of_pos ha, List.head?_cons, Option.some.injEq] at h
      subst h
      exact ⟨0, by simp, ha, fun j _ _ _ => Nat.zero_le j⟩
    · rw [List.filter_cons_of_neg ha] at h
      obtain ⟨i, hi, hr, hmin⟩ := ih h
      refine ⟨i + 1, by simpa using hi, hr, ?_⟩
      intro j e hj hre
      cases j with
      | zero =>
        simp only [List.getElem?_cons_zero, Option.some.injEq] at hj
        subst hj
        exact absurd hre ha
      | succ j =>
        simp only [List.getElem?_cons_succ] at hj
        exact Nat.succ_le_succ (hmin j e hj hre)

/-- If the sort keeps the order of equal keys on the unsolved entries, the chosen
entry is the first unsolved entry of its size in the scan of the grid. -/
theorem chosen_stable (S : SortImpl) (g : Grid)
    (hst : StableOn S (g.filter fun e => !e.IsSolved)) (p : Entry)
    (hch : g.chosen S = some p) :
    ∃ i : Nat, g[i]? = some p ∧
      ∀ (j : Nat) (e : Entry), g[j]? = some e → e.IsSolved = false →
        e.Value.length = p.Value.length → i ≤ j := by
  unfold Grid.chosen at hch
  have hhead : ((S.sort (g.filter fun e => !e.IsSolved)).filter
      (fun e => decide (e.Value.length = p.Value.length))).head? = some p := by
    cases hsort : S.sort (g.filter fun e => !e.IsSolved) with
    | nil => rw [hsort] at hch; cases hch
    | cons q tl =>
      rw [hsort, List.head?_cons, Option.some.injEq] at hch
      subst hch
      simp
  rw [hst p.Value.length, List.filter_filter] at hhead
  obtain ⟨i, hi, _, hmin⟩ := filter_head_index _ g p hhead
  refine ⟨i, hi, ?_⟩
  intro j e hj hs hlen
  exact hmin j e hj (by simp [hs, hlen])

/-- On a slice of at most 12 elements the routine of Go 1.19 and later is the
insertion sort, which keeps the order of equal keys. -/
theorem pdq_stable_short (l : List Entry) (h : l.length ≤ 12) : StableOn pdqSortImpl l := by
  intro k
  have hpass : pdqPass l = l := by
    unfold pdqPass
    rw [if_pos h]
  show ((pdqPass l).insertionSort lenLe).filter _ = _
  rw [hpass]
  exact insertion_stable l k

theorem onGrid_Guess (S : SortImpl) (g : Grid) :
    (Solver.onGrid g).Guess S =
      (g.Guess S []).map fun grids => { Solver.onGrid g with grids := grids } :=
  Solver_Guess_eq S (Solver.onGrid g)

/-! ## The first pass on `tiePuzzle` -/

set_option maxRecDepth 1000000 in
theorem tie_pass : (gridOf tiePuzzle).Eliminate = (true, tieAfterPass) := by
  rw [gridOf_Eliminate tiePuzzle (by decide)]
  decide!

set_option maxRecDepth 1000000 in
theorem tie_chosen_shell :
    tieAfterPass.chosen shellSortImpl = some { Value := [3, 8], Row := 2, Column := 6 } := by
  decide!

set_option maxRecDepth 1000000 in
theorem tie_guess_shell :
    tieAfterPass.Guess shellSortImpl [] =
      some [tieAfterPass.set 24 { Value := [3], Row := 2, Column := 6 },
            tieAfterPass.set 24 { Value := [8], Row := 2, Column := 6 }] := by
  rw [Guess_chosen, tie_chosen_shell]
  decide!

set_option maxRecDepth 1000000 in
theorem tie_facts :
    tieAfterPass.IsValid = true ∧ tieAfterPass.IsSolved = false ∧
    tieAfterPass[3]? = some { Value := [3, 7], Row := 0, Column := 3 } ∧
    tieAfterPass[24]? = some { Value := [3, 8], Row := 2, Column := 6 } := by
  decide!

/-! ## The recorded search -/

theorem solveLoopT_fst (S : SortImpl) (fuel : Nat) (s : Solver) :
    (solveLoopT S fuel s).1 = solveLoop S fuel s := by
  induction fuel generalizing s with
  | zero => rfl
  | succ n ih =>
    simp only [solveLoopT, solveLoop]
    cases s.grids.Empty with
    | true => rfl
    | false =>
      simp only [Bool.false_eq_true, if_false]
      rcases s.grids.Pop with ⟨_ | grid, b, rest⟩
      · rfl
      · simp only []
        cases (Solver.Eliminate { s with grids := rest, curr := grid }).1 with
        | false => exact ih _
        | true =>
          simp only [Bool.not_true, Bool.false_eq_true, if_false]
          cases (Solver.Eliminate { s with grids := rest, curr := grid }).2.curr.IsSolved with
          | true => rfl
          | false =>
            simp only [Bool.false_eq_true, if_false]
            cases Solver.Guess S (Solver.Eliminate { s with grids := rest, curr := grid }).2 with
            | none => rfl
            | some s2 => exact ih s2

theorem SolveT_fst (S : SortImpl) (fuel : Nat) (s : Solver) (puzzle : String) :
    (Solver.SolveT S fuel s puzzle).1 = Solver.Solve S fuel s puzzle := by
  simp only [Solver.SolveT, Solver.Solve]
  cases NewGrid puzzle with
  | none => rfl
  | some grid =>
    simp only []
    cases (Solver.Eliminate
      { Puzzle := puzzle, Solution := "", curr := grid, grids := [] }).1 with
    | false => rfl
    | true =>
      simp only [Bool.not_true, Bool.false_eq_true, if_false]
      cases (Solver.Eliminate
        { Puzzle := puzzle, Solution := "", curr := grid, grids := [] }).2.curr.IsSolved with
      | true => rfl
      | false =>
        simp only [Bool.false_eq_true, if_false]
        cases Solver.Guess S (Solver.Eliminate
          { Puzzle := puzzle, Solution := "", curr := grid, grids := [] }).2 with
        | none => rfl
        | some s2 => exact solveLoopT_fst S fuel s2

theorem solveLoopT_nil (S : SortImpl) (s : Solver) (h : s.grids = []) (fuel : Nat) :
    (solveLoopT S fuel s).2 = [] := by
  cases fuel <;> simp [solveLoopT, Stack.Empty, h]

theorem solveLoopT_unroll (S : SortImpl) (fuel : Nat) (s : Solver) (rest : Stack) (top : Grid)
    (hs : s.grids = rest ++ [top]) (hpos : Positioned top) :
    (solveLoopT S (fuel + 1) s).2 =
      if top.Eliminate.1 = false then
        (solveLoopT S fuel { s with grids := rest, curr := top.Eliminate.2 }).2
      else if top.Eliminate.2.IsSolved = true then []
      else
        top.Eliminate.2 :: (solveLoopT S fuel
          { s with grids := rest ++ top.Eliminate.2.children S, curr := top.Eliminate.2 }).2 := by
  have hne : Stack.Empty (rest ++ [top]) = false := by
    simp [Stack.Empty]
  simp only [solveLoopT, hne, hs, Pop_concat, Solver.Eliminate]
  cases hflag : top.Eliminate.1 with
  | false => simp
  | true =>
    simp only [Bool.not_true, Bool.false_eq_true, if_false]
    cases hsol : top.Eliminate.2.IsSolved with
    | true => simp
    | false =>
      have hpos2 : Positioned top.Eliminate.2 :=
        (eliminateLoop_refines _ top).positioned hpos
      simp only [Solver.Guess, Guess_eq S _ rest hpos2 hsol]
      simp

theorem SolveT_unroll (S : SortImpl) (fuel : Nat) (s : Solver) (puzzle : String) (G0 : Grid)
    (hG : NewGrid puzzle = some G0) (hpos : Positioned G0) :
    (Solver.SolveT S fuel s puzzle).2 =
      if G0.Eliminate.1 = false then []
      else if G0.Eliminate.2.IsSolved = true then []
      else
        G0.Eliminate.2 :: (solveLoopT S fuel
          { Puzzle := puzzle, Solution := "", curr := G0.Eliminate.2,
            grids := G0.Eliminate.2.children S }).2 := by
  simp only [Solver.SolveT, hG, Solver.Eliminate]
  cases hflag : G0.Eliminate.1 with
  | false => simp
  | true =>
    simp only [Bool.not_true, Bool.false_eq_true, if_false]
    cases hsol : G0.Eliminate.2.IsSolved with
    | true => simp
    | false =>
      have hpos2 : Positioned G0.Eliminate.2 := (Eliminate_refines G0).positioned hpos
      simp only [Solver.Guess, Guess_eq S _ [] hpos2 hsol]
      simp

theorem children_valid (S : SortImpl) (g : Grid) (hpos : Positioned g)
    (hns : g.IsSolved = false) (hv : g.IsValid = true) :
    ∀ c ∈ g.children S, c.IsValid = true := by
  obtain ⟨idx, p, hp, _, _, hch⟩ := children_spec S g hpos hns
  intro c hc
  rw [hch, List.mem_map] at hc
  obtain ⟨v, _, rfl⟩ := hc
  rw [isValid_iff] at hv ⊢
  intro j e he
  by_cases hj : idx = j
  · subst hj
    rw [List.getElem?_set_self (getElem?_lt hp)] at he
    cases he
    simp
  · rw [List.getElem?_set_ne hj] at he
    exact hv j e he

theorem NewGrid_valid (puzzle : String) (G0 : Grid) (hw : WellFormed puzzle)
    (hG : NewGrid puzzle = some G0) : G0.IsValid = true := by
  rw [isValid_iff]
  intro i e he
  obtain ⟨s, _, _, hs⟩ := NewGrid_get puzzle G0 hw hG i e he
  rw [hs]
  unfold NewEntry
  split <;> simp

/-- Every grid on which `Guess` runs in the loop refines the initial grid, is
valid and is not solved. -/
theorem solveLoopT_trace (S : SortImpl) (G0 : Grid) (hG0 : Positioned G0) (fuel : Nat)
    (s : Solver) (hst : ∀ g ∈ s.grids, Refines g G0 ∧ g.IsValid = true) :
    ∀ g ∈ (solveLoopT S fuel s).2, Refines g G0 ∧ g.IsValid = true ∧ g.IsSolved = false := by
  induction fuel generalizing s with
  | zero => intro g hg; cases hg
  | succ n ih =>
    rcases stack_cases s.grids with hnil | ⟨rest, top, hs⟩
    · rw [solveLoopT_nil S s hnil]
      intro g hg
      cases hg
    · have htop := hst top (by rw [hs]; simp)
      have hrest : ∀ g ∈ rest, Refines g G0 ∧ g.IsValid = true :=
        fun g hg => hst g (by rw [hs]; simp [hg])
      have hE : Refines top.Eliminate.2 G0 := (Eliminate_refines top).trans htop.1
      rw [solveLoopT_unroll S n s rest top hs (htop.1.positioned hG0)]
      split
      · exact ih { s with grids := rest, curr := top.Eliminate.2 } hrest
      · rename_i hflag
        split
        · intro g hg
          cases hg
        · rename_i hsol
          simp only [Bool.not_eq_false] at hflag
          simp only [Bool.not_eq_true] at hsol
          have hvE : top.Eliminate.2.IsValid = true :=
            (eliminateLoop_flag_iff _ top htop.2).1 hflag
          intro g hg
          rcases List.mem_cons.1 hg with rfl | hg
          · exact ⟨hE, hvE, hsol⟩
          · refine ih { s with grids := rest ++ top.Eliminate.2.children S,
                                 curr := top.Eliminate.2 } ?_ g hg
            intro c hc
            rcases List.mem_append.1 hc with hc | hc
            · exact hrest c hc
            · exact ⟨(children_refines S _ (hE.positioned hG0) hsol c hc).trans hE,
                children_valid S _ (hE.positioned hG0) hsol hvE c hc⟩

theorem SolveT_trace (S : SortImpl) (fuel : Nat) (s : Solver) (puzzle : String) (G0 : Grid)
    (hw : WellFormed puzzle) (hG : NewGrid puzzle = some G0) (hpos : Positioned G0) :
    ∀ g ∈ (Solver.SolveT S fuel s puzzle).2,
      Refines g G0 ∧ g.IsValid = true ∧ g.IsSolved = false := by
  have hE : Refines G0.Eliminate.2 G0 := Eliminate_refines G0
  rw [SolveT_unroll S fuel s puzzle G0 hG hpos]
  split
  · intro g hg
    cases hg
  · rename_i hflag
    split
    · intro g hg
      cases hg
    · rename_i hsol
      simp only [Bool.not_eq_false] at hflag
      simp only [Bool.not_eq_true] at hsol
      have hvE : G0.Eliminate.2.IsValid = true :=
        (eliminateLoop_flag_iff _ G0 (NewGrid_valid puzzle G0 hw hG)).1 hflag
      intro g hg
      rcases List.mem_cons.1 hg with rfl | hg
      · exact ⟨hE, hvE, hsol⟩
      · refine solveLoopT_trace S G0 hpos fuel _ ?_ g hg
        intro c hc
        exact ⟨(children_refines S _ (hE.positioned hpos) hsol c hc).trans hE,
          children_valid S _ (hE.positioned hpos) hsol hvE c hc⟩

theorem Solve_no_fault (S : SortImpl) (fuel : Nat) (s : Solver) (puzzle : String)
    (hw : WellFormed puzzle) : Solver.Solve S fuel s puzzle ≠ some none := by
  intro h
  obtain ⟨fuel0, s1, str, ok, htot⟩ := Solve_total S s puzzle hw
  have h1 := Solve_mono_le S fuel (max fuel fuel0) (le_max_left _ _) s puzzle hw none h
  rw [htot (max fuel fuel0) (le_max_right _ _)] at h1
  cases h1

/-! ## Clone in memory -/

theorem getElem?_some_lt {α : Type} {l : List α} {i : Nat} {a : α} (h : l[i]? = some a) :
    i < l.length := by
  by_contra hge
  rw [List.getElem?_eq_none (by omega)] at h
  cases h

theorem getElem?_lt_some {α : Type} (l : List α) (i : Nat) (h : i < l.length) :
    ∃ a, l[i]? = some a :=
  ⟨l[i], List.getElem?_eq_getElem h⟩

theorem Heap.Agree.start (h : Heap) : Heap.Agree h h :=
  ⟨fun _ _ => rfl, fun _ _ => rfl⟩

theorem Heap.Agree.objs_le {h0 h1 : Heap} (ha : Heap.Agree h0 h1) :
    h0.objs.length ≤ h1.objs.length := by
  by_contra hlt
  have hlt : h1.objs.length < h0.objs.length := Nat.lt_of_not_le hlt
  have hx := ha.1 h1.objs.length hlt
  rw [List.getElem?_eq_none (Nat.le_refl _)] at hx
  obtain ⟨o, ho⟩ := getElem?_lt_some h0.objs h1.objs.length hlt
  rw [ho] at hx
  cases hx

theorem Heap.Agree.arrays_le {h0 h1 : Heap} (ha : Heap.Agree h0 h1) :
    h0.arrays.length ≤ h1.arrays.length := by
  by_contra hlt
  have hlt : h1.arrays.length < h0.arrays.length := Nat.lt_of_not_le hlt
  have hx := ha.2 h1.arrays.length hlt
  rw [List.getElem?_eq_none (Nat.le_refl _)] at hx
  obtain ⟨o, ho⟩ := getElem?_lt_some h0.arrays h1.arrays.length hlt
  rw [ho] at hx
  cases hx

theorem Heap.Agree.compose {h0 h1 h2 : Heap} (h01 : Heap.Agree h0 h1) (h12 : Heap.Agree h1 h2) :
    Heap.Agree h0 h2 :=
  ⟨fun i hi => (h12.1 i (Nat.lt_of_lt_of_le hi h01.objs_le)).trans (h01.1 i hi),
   fun i hi => (h12.2 i (Nat.lt_of_lt_of_le hi h01.arrays_le)).trans (h01.2 i hi)⟩

/-- What is read through a pointer of the older memory is read unchanged. -/
theorem Heap.Agree.entry {h0 h1 : Heap} (ha : Heap.Agree h0 h1) (p : Nat) (e : Entry)
    (he : h0.entry p = some e) : h1.entry p = some e := by
  unfold Heap.entry at he ⊢
  cases ho : h0.objs[p]? with
  | none => rw [ho] at he; cases he
  | some o =>
    rw [ho] at he
    simp only at he
    cases harr : h0.arrays[o.Value.arr]? with
    | none => rw [harr] at he; cases he
    | some a =>
      rw [harr] at he
      rw [ha.1 p (getElem?_some_lt ho), ho]
      simp only
      rw [ha.2 _ (getElem?_some_lt harr), harr]
      exact he

theorem Heap.Agree.view {h0 h1 : Heap} (ha : Heap.Agree h0 h1) (g : GridH)
    (hg : ∀ p ∈ g, (h0.entry p).isSome = true) : h1.view g = h0.view g := by
  unfold Heap.view
  apply List.map_congr_left
  intro p hp
  obtain ⟨e, he⟩ := Option.isSome_iff_exists.1 (hg p hp)
  rw [he, ha.entry p e he]

theorem CloneEntry_spec (h : Heap) (p : Nat) (e : Entry) (he : h.entry p = some e) :
    ∃ h1, h.CloneEntry p = some (h1, h.objs.length) ∧ Heap.Agree h h1 ∧
      h1.entry h.objs.length = some e ∧
      ∃ (o : EntryH) (a : List Nat), h1.objs[h.objs.length]? = some o ∧
        h.arrays.length ≤ o.Value.arr ∧ h1.arrays[o.Value.arr]? = some a := by
  unfold Heap.entry at he
  cases ho : h.objs[p]? with
  | none => rw [ho] at he; cases he
  | some o =>
    rw [ho] at he
    simp only at he
    cases harr : h.arrays[o.Value.arr]? with
    | none => rw [harr] at he; cases he
    | some a =>
      rw [harr] at he
      simp only [Option.some.injEq] at he
      refine ⟨{ arrays := h.arrays ++ [a.take o.Value.len],
                objs := h.objs ++ [{ Value := { arr := h.arrays.length, len := o.Value.len },
                                     Row := o.Row, Column := o.Column }] }, ?_, ⟨?_, ?_⟩, ?_, ?_⟩
      · simp only [Heap.CloneEntry, ho, harr]
      · intro i hi
        exact List.getElem?_append_left hi
      · intro i hi
        exact List.getElem?_append_left hi
      · unfold Heap.entry
        simp only [List.getElem?_append_right (Nat.le_refl _), Nat.sub_self,
          List.getElem?_cons_zero, List.take_take, Nat.min_self]
        exact congrArg some he
      · refine ⟨{ Value := { arr := h.arrays.length, len := o.Value.len },
                  Row := o.Row, Column := o.Column }, a.take o.Value.len, ?_, Nat.le_refl _, ?_⟩
        · simp only [List.getElem?_append_right (Nat.le_refl _), Nat.sub_self,
            List.getElem?_cons_zero]
        · simp only [List.getElem?_append_right (Nat.le_refl _), Nat.sub_self,
            List.getElem?_cons_zero]

theorem Heap.Fresh.isSome {h0 h1 : Heap} {g : GridH} (hf : Heap.Fresh h0 h1 g) :
    ∀ q ∈ g, (h1.entry q).isSome = true := by
  intro q hq
  obtain ⟨_, o, a, ho, _, ha⟩ := hf q hq
  unfold Heap.entry
  rw [ho]
  simp only
  rw [ha]
  rfl

theorem Heap.Fresh.extend {h0 h1 h2 : Heap} {g : GridH} (hf : Heap.Fresh h0 h1 g)
    (h12 : Heap.Agree h1 h2) : Heap.Fresh h0 h2 g := by
  intro q hq
  obtain ⟨hle, o, a, ho, harr, ha⟩ := hf q hq
  exact ⟨hle, o, a, (h12.1 q (getElem?_some_lt ho)).trans ho, harr,
    (h12.2 _ (getElem?_some_lt ha)).trans ha⟩

/-- The loop of `Grid.Clone`: from memory `h1` (an extension of `h0`) with the
copies `acc` made so far, it ends with copies of all of `l`. -/
theorem cloneLoop_spec (h0 : Heap) (l : List Nat) (h1 : Heap) (acc : GridH)
    (ha : Heap.Agree h0 h1) (hf : Heap.Fresh h0 h1 acc)
    (hl : ∀ p ∈ l, (h0.entry p).isSome = true) :
    ∃ h2 g2, Heap.cloneLoop l h1 acc = some (h2, g2) ∧ Heap.Agree h0 h2 ∧
      Heap.Fresh h0 h2 g2 ∧ h2.view g2 = h1.view acc ++ h0.view l := by
  induction l generalizing h1 acc with
  | nil =>
    exact ⟨h1, acc, rfl, ha, hf, by simp [Heap.view]⟩
  | cons p rest ih =>
    obtain ⟨e, he⟩ := Option.isSome_iff_exists.1 (hl p (List.mem_cons_self p rest))
    have he1 : h1.entry p = some e := ha.entry p e he
    obtain ⟨hc, hclone, hagree, hentry, o, a, ho, harr, harr2⟩ := CloneEntry_spec h1 p e he1
    have ha2 : Heap.Agree h0 hc := ha.compose hagree
    have hf2 : Heap.Fresh h0 hc (acc ++ [h1.objs.length]) := by
      intro q hq
      rcases List.mem_append.1 hq with hq | hq
      · exact hf.extend hagree q hq
      · rw [List.mem_singleton] at hq
        subst hq
        exact ⟨ha.objs_le, o, a, ho, Nat.le_trans ha.arrays_le harr, harr2⟩
    obtain ⟨h2, g2, hloop, hag, hfr, hview⟩ := ih hc (acc ++ [h1.objs.length]) ha2 hf2
      (fun q hq => hl q (List.mem_cons_of_mem p hq))
    refine ⟨h2, g2, ?_, hag, hfr, ?_⟩
    · simp only [Heap.cloneLoop, hclone]
      exact hloop
    · rw [hview]
      have hacc : hc.view acc = h1.view acc := hagree.view acc hf.isSome
      simp only [Heap.view, List.map_append, List.map_cons, List.map_nil, hentry, he,
        List.append_assoc, List.singleton_append] at hacc ⊢
      rw [hacc]

theorem Heap.Remove_eq (h : Heap) (p target : Nat) (o : EntryH) (a : List Nat)
    (ho : h.objs[p]? = some o) (ha : h.arrays[o.Value.arr]? = some a) :
    h.Remove p target =
      if indexFrom target (a.take o.Value.len) 0 = -1 then some (h, false)
      else some ({ arrays := h.arrays.set o.Value.arr
                    (a.take (indexFrom target (a.take o.Value.len) 0).toNat ++
                      (a.take o.Value.len).drop
                        ((indexFrom target (a.take o.Value.len) 0).toNat + 1) ++
                      a.drop (o.Value.len - 1)),
                   objs := h.objs.set p
                    { o with Value := { arr := o.Value.arr, len := o.Value.len - 1 } } },
                 true) := by
  simp only [Heap.Remove, ho, ha]

theorem CloneGrid_spec (h : Heap) (g : GridH) (hg : ∀ p ∈ g, (h.entry p).isSome = true) :
    ∃ h1 g1, h.CloneGrid g = some (h1, g1) ∧ Heap.Agree h h1 ∧ Heap.Fresh h h1 g1 ∧
      h1.view g1 = h.view g := by
  obtain ⟨h2, g2, hloop, hag, hfr, hview⟩ := cloneLoop_spec h g h [] (Heap.Agree.start h)
    (fun q hq => by cases hq) hg
  exact ⟨h2, g2, hloop, hag, hfr, by rw [hview]; simp [Heap.view]⟩

/-! ## The memory operations against the operations on values -/

theorem indexFrom_lt (t : Nat) (vs : List Nat) (i : Int) (h : t ∈ vs) :
    ∃ k : Nat, indexFrom t vs i = i + k ∧ k < vs.length := by
  induction vs generalizing i with
  | nil => cases h
  | cons v vs ih =>
    by_cases hv : t = v
    · exact ⟨0, by simp [indexFrom, hv], by simp⟩
    · have hvs : t ∈ vs := by
        rcases List.mem_cons.1 h with h1 | h1
        · exact absurd h1 hv
        · exact h1
      obtain ⟨k, hk, hlt⟩ := ih (i + 1) hvs
      refine ⟨k + 1, ?_, by simp only [List.length_cons]; omega⟩
      simp only [indexFrom, if_neg hv, hk]
      push_cast
      omega

/-- The method `Remove` in memory does to the entry read through `p` what
`Entry.Remove` does to the value, and returns the same flag. -/
theorem Heap.Remove_refines (h : Heap) (p target : Nat) (o : EntryH) (a : List Nat)
    (ho : h.objs[p]? = some o) (ha : h.arrays[o.Value.arr]? = some a)
    (hlen : o.Value.len ≤ a.length) :
    ∃ h2, h.Remove p target =
        some (h2, (Entry.Remove { Value := a.take o.Value.len, Row := o.Row,
                                  Column := o.Column } target).2) ∧
      h2.entry p = some (Entry.Remove { Value := a.take o.Value.len, Row := o.Row,
                                        Column := o.Column } target).1 := by
  rw [Heap.Remove_eq h p target o a ho ha]
  by_cases hm : target ∈ a.take o.Value.len
  · obtain ⟨k, hk, hklt⟩ := indexFrom_lt target (a.take o.Value.len) 0 hm
    have hne : ¬ ((0 : Int) + (k : Int) = -1) := by omega
    have htk : ((0 : Int) + (k : Int)).toNat = k := by omega
    have hklen : k < o.Value.len := by
      rw [List.length_take] at hklt
      omega
    simp only [Entry.Remove, Entry.index, hk, hne, if_false, htk]
    refine ⟨_, rfl, ?_⟩
    unfold Heap.entry
    simp only [List.getElem?_set_self (getElem?_some_lt ho),
      List.getElem?_set_self (getElem?_some_lt ha)]
    have hcut : (a.take k ++ (a.take o.Value.len).drop (k + 1)).length = o.Value.len - 1 := by
      simp only [List.length_append, List.length_take, List.length_drop]
      omega
    rw [List.append_assoc, ← List.append_assoc, List.take_left' hcut, List.take_take,
      Nat.min_eq_left (Nat.le_of_lt hklen)]
  · have hidx := indexFrom_of_not_mem target (a.take o.Value.len) 0 (le_refl _) hm
    simp only [Entry.Remove, Entry.index, hidx, if_true]
    refine ⟨h, rfl, ?_⟩
    unfold Heap.entry
    simp only [ho, ha]

/-- The call `SetValue([]int{...}, r, c)` in memory gives the entry at that place
the listed candidates and leaves its row and column. -/
theorem Heap.SetValue_refines (h : Heap) (g : GridH) (vals : List Nat) (r c p : Nat)
    (e : Entry) (hp : g[9 * r + c]? = some p) (he : h.entry p = some e) :
    ∃ h2, h.step g (CloneOp.setValue vals r c) = some h2 ∧
      h2.entry p = some { e with Value := vals } := by
  unfold Heap.entry at he
  cases ho : h.objs[p]? with
  | none => rw [ho] at he; cases he
  | some o =>
    rw [ho] at he
    simp only at he
    cases harr : h.arrays[o.Value.arr]? with
    | none => rw [harr] at he; cases he
    | some a =>
      rw [harr] at he
      simp only [Option.some.injEq] at he
      subst he
      refine ⟨{ arrays := h.arrays ++ [vals],
                objs := h.objs.set p
                  { o with Value := { arr := h.arrays.length, len := vals.length } } }, ?_, ?_⟩
      · simp only [Heap.step, Heap.SetValue, Heap.literal, hp, ho]
      · unfold Heap.entry
        simp only [List.getElem?_set_self (getElem?_some_lt ho),
          List.getElem?_append_right (Nat.le_refl _), Nat.sub_self, List.getElem?_cons_zero,
          List.take_length]

/-- On the small memory, operations on the clone change what the clone reads
as and not what the source reads as. -/
theorem small_clone_run :
    (smallHeap.CloneGrid smallGrid).map (fun r =>
        ((Heap.run r.2 [CloneOp.remove 1 2, CloneOp.setValue [7] 0 0] r.1).view r.2,
         (Heap.run r.2 [CloneOp.remove 1 2, CloneOp.setValue [7] 0 0] r.1).view smallGrid)) =
      some ([some { Value := [7], Row := 0, Column := 0 },
             some { Value := [1, 3], Row := 0, Column := 1 }],
            [some { Value := [4], Row := 0, Column := 0 },
             some { Value := [1, 2, 3], Row := 0, Column := 1 }]) := by
  decide

/-! ## A second pass after a failed pass -/

/-- A pass that returns false leaves an invalid grid. -/
theorem eliminateLoop_false_invalid (l : List Nat) (g : Grid)
    (hflag : (eliminateLoop l g).1 = false) : (eliminateLoop l g).2.IsValid = false := by
  induction l generalizing g with
  | nil => cases hflag
  | cons i rest ih =>
    cases hgi : g[i]? with
    | none =>
      have hun : eliminateLoop (i :: rest) g = eliminateLoop rest g := by
        simp only [eliminateLoop, hgi]
      rw [hun] at hflag ⊢
      exact ih g hflag
    | some e =>
      by_cases hs : e.IsSolved = true
      · by_cases hbad : (elimStep (e.Value.headD 0) i g).IsValid = true
        · have hun : eliminateLoop (i :: rest) g =
              eliminateLoop rest (elimStep (e.Value.headD 0) i g) := by
            simp only [eliminateLoop, hgi, hs, hbad, if_true, Bool.not_true,
              Bool.false_eq_true, if_false]
          rw [hun] at hflag ⊢
          exact ih _ hflag
        · have hbad2 : (elimStep (e.Value.headD 0) i g).IsValid = false := by simpa using hbad
          have hun : eliminateLoop (i :: rest) g = (false, elimStep (e.Value.headD 0) i g) := by
            simp only [eliminateLoop, hgi, hs, hbad2, if_true, Bool.not_false]
          rw [hun]
          exact hbad2
      · have hun : eliminateLoop (i :: rest) g = eliminateLoop rest g := by
          simp only [eliminateLoop, hgi, hs, Bool.false_eq_true, if_false]
        rw [hun] at hflag ⊢
        exact ih g hflag

/-- After the step for the solved entry at `i`, no peer of `i` holds the target. -/
theorem elimStep_peer_free (t i : Nat) (g : Grid) (hd : NodupGrid g) (j : Nat) (ej : Entry)
    (hp : Peer g i j) (hj : (elimStep t i g)[j]? = some ej) : t ∉ ej.Value := by
  obtain ⟨n, hn, hpeer⟩ := elimStep_get t i g j
  rw [hn] at hj
  cases h0 : g[j]? with
  | none => rw [h0] at hj; cases hj
  | some e0 =>
    rw [h0] at hj
    simp only [Option.map_some', Option.some.injEq] at hj
    subst hj
    exact dropN_not_mem t n e0 (hpeer.2 hp) (hd j e0 h0)

/-- A refinement of a grid in which no peer of `i` holds `t` is left alone by
the step for `i`. -/
theorem elimStep_refined_self (t i : Nat) (g3 g1 : Grid) (href : Refines g1 g3)
    (hfree : ∀ (j : Nat) (ej : Entry), Peer g3 i j → g3[j]? = some ej → t ∉ ej.Value) :
    elimStep t i g1 = g1 := by
  apply elimStep_eq_self
  intro j ej hp hej hmem
  obtain ⟨e3, he3, hb⟩ := href.get_inv hej
  exact hfree j e3 ((href.peer i j).1 hp) he3 (hb.2.2.subset hmem)

theorem eliminateLoop_idem_false (l : List Nat) (g : Grid) (hd : NodupGrid g)
    (hflag : (eliminateLoop l g).1 = false)
    (hnew : ∀ (i : Nat) (e1 : Entry), (eliminateLoop l g).2[i]? = some e1 →
      e1.IsSolved = true → ∃ e, g[i]? = some e ∧ e.IsSolved = true) :
    eliminateLoop l (eliminateLoop l g).2 = (false, (eliminateLoop l g).2) := by
  induction l generalizing g with
  | nil => cases hflag
  | cons i rest ih =>
    cases hgi : g[i]? with
    | none =>
      have hun : eliminateLoop (i :: rest) g = eliminateLoop rest g := by
        simp only [eliminateLoop, hgi]
      rw [hun] at hflag hnew ⊢
      have href := eliminateLoop_refines rest g
      have hnone : (eliminateLoop rest g).2[i]? = none := by
        cases h1 : (eliminateLoop rest g).2[i]? with
        | none => rfl
        | some e1 =>
          obtain ⟨e, he, _⟩ := href.get_inv h1
          rw [hgi] at he
          cases he
      have hun2 : eliminateLoop (i :: rest) (eliminateLoop rest g).2 =
          eliminateLoop rest (eliminateLoop rest g).2 := by
        simp only [eliminateLoop, hnone]
      rw [hun2]
      exact ih g hd hflag hnew
    | some e =>
      by_cases hs : e.IsSolved = true
      · obtain ⟨t, ht, hh⟩ := solved_value e hs
        have hd3 : NodupGrid (elimStep t i g) := (elimStep_refines t i g).nodup hd
        have hfree : ∀ (j : Nat) (ej : Entry), Peer (elimStep t i g) i j →
            (elimStep t i g)[j]? = some ej → t ∉ ej.Value := fun j ej hp hj =>
          elimStep_peer_free t i g hd j ej (((elimStep_refines t i g).peer i j).1 hp) hj
        have hself : (elimStep t i g)[i]? = some e := by rw [elimStep_get_self, hgi]
        by_cases hbad : (elimStep t i g).IsValid = true
        · have hun : eliminateLoop (i :: rest) g = eliminateLoop rest (elimStep t i g) := by
            simp only [eliminateLoop, hgi, hs, hh, hbad, if_true, Bool.not_true,
              Bool.false_eq_true, if_false]
          rw [hun] at hflag hnew ⊢
          have href := eliminateLoop_refines rest (elimStep t i g)
          obtain ⟨e1, he1, hb1⟩ := href.get hself
          have hstep : elimStep t i (eliminateLoop rest (elimStep t i g)).2 =
              (eliminateLoop rest (elimStep t i g)).2 :=
            elimStep_refined_self t i _ _ href hfree
          by_cases hs1 : e1.IsSolved = true
          · obtain ⟨t1, ht1, hh1⟩ := solved_value e1 hs1
            have ht1t : t1 = t := by
              have hsub := hb1.2.2
              rw [ht, ht1] at hsub
              have := sublist_singleton_ne_nil hsub (by simp)
              simpa using this
            subst ht1t
            have hinv := eliminateLoop_false_invalid rest _ hflag
            simp only [eliminateLoop, he1, hs1, hh1, hstep, hinv, if_true, Bool.not_false]
          · have hun2 : eliminateLoop (i :: rest) (eliminateLoop rest (elimStep t i g)).2 =
                eliminateLoop rest (eliminateLoop rest (elimStep t i g)).2 := by
              simp only [eliminateLoop, he1, hs1, Bool.false_eq_true, if_false]
            rw [hun2]
            refine ih (elimStep t i g) hd3 hflag ?_
            intro k ek hk hsk
            obtain ⟨e0, he0, hs0⟩ := hnew k ek hk hsk
            obtain ⟨e3, he3, hb3⟩ := (elimStep_refines t i g).get he0
            obtain ⟨v0, hv0, _⟩ := solved_value e0 hs0
            obtain ⟨vk, hvk, _⟩ := solved_value ek hsk
            have hbk := href.2 k ek e3 hk he3
            refine ⟨e3, he3, ?_⟩
            have h3 : e3.Value = [v0] := by
              apply sublist_singleton_ne_nil (hv0 ▸ hb3.2.2)
              intro hnil
              have := hbk.2.2
              rw [hnil, hvk] at this
              cases this
            simp [Entry.IsSolved, h3]
        · have hbad2 : (elimStep t i g).IsValid = false := by simpa using hbad
          have hun : eliminateLoop (i :: rest) g = (false, elimStep t i g) := by
            simp only [eliminateLoop, hgi, hs, hh, hbad2, if_true, Bool.not_false]
          rw [hun]
          have hstep : elimStep t i (elimStep t i g) = elimStep t i g :=
            elimStep_refined_self t i _ _ (Refines.refl _) hfree
          simp only [eliminateLoop, hself, hs, hh, hstep, hbad2, if_true, Bool.not_false]
      · have hun : eliminateLoop (i :: rest) g = eliminateLoop rest g := by
          simp only [eliminateLoop, hgi, hs, Bool.false_eq_true, if_false]
        rw [hun] at hflag hnew ⊢
        have href := eliminateLoop_refines rest g
        obtain ⟨e1, he1, _⟩ := href.get hgi
        have hs1 : ¬ e1.IsSolved = true := by
          intro hs1
          obtain ⟨e0, he0, hs0⟩ := hnew i e1 he1 hs1
          rw [hgi] at he0
          cases he0
          exact hs hs0
        have hun2 : eliminateLoop (i :: rest) (eliminateLoop rest g).2 =
            eliminateLoop rest (eliminateLoop rest g).2 := by
          simp only [eliminateLoop, he1, hs1, Bool.false_eq_true, if_false]
        rw [hun2]
        exact ih g hd hflag hnew

/-- With no entry newly solved by the pass, a second pass repeats the flag and
leaves the grid of the first. -/
theorem Eliminate_idem_flag (g : Grid) (hd : NodupGrid g)
    (hnew : ∀ (i : Nat) (e1 : Entry), g.Eliminate.2[i]? = some e1 → e1.IsSolved = true →
      ∃ e, g[i]? = some e ∧ e.IsSolved = true) :
    g.Eliminate.2.Eliminate = (g.Eliminate.1, g.Eliminate.2) := by
  cases hflag : g.Eliminate.1 with
  | true => exact Eliminate_idem g hd hflag hnew
  | false =>
    have hlen : g.Eliminate.2.length = g.length := (Eliminate_refines g).1
    show eliminateLoop (List.range g.Eliminate.2.length) g.Eliminate.2 = (false, g.Eliminate.2)
    rw [hlen]
    exact eliminateLoop_idem_false (List.range g.length) g hd hflag hnew

/-! ## Operations on the clone leave the source alone -/

theorem Heap.Backs.lt {h : Heap} {g : GridH} (hg : ∀ p ∈ g, (h.entry p).isSome = true)
    {k : Nat} (hk : h.Backs g k) : k < h.arrays.length := by
  obtain ⟨p, hp, o, ho, rfl⟩ := hk
  have hsome := hg p hp
  unfold Heap.entry at hsome
  rw [ho] at hsome
  simp only at hsome
  cases harr : h.arrays[o.Value.arr]? with
  | none => rw [harr] at hsome; cases hsome
  | some a => exact getElem?_some_lt harr

theorem Heap.Keeps.sameView {h0 h1 : Heap} {g : GridH} (hk : Heap.Keeps h0 h1 g) :
    h1.view g = h0.view g := by
  unfold Heap.view
  apply List.map_congr_left
  intro p hp
  unfold Heap.entry
  rw [hk.1 p hp]
  cases ho : h0.objs[p]? with
  | none => rfl
  | some o =>
    simp only
    rw [hk.2.1 o.Value.arr ⟨p, hp, o, ho, rfl⟩]

theorem Heap.Agree.keeps {h0 h1 : Heap} (ha : Heap.Agree h0 h1) (g : GridH)
    (hg : ∀ p ∈ g, (h0.entry p).isSome = true) : Heap.Keeps h0 h1 g := by
  refine ⟨?_, ?_, ha.arrays_le⟩
  · intro p hp
    have hsome := hg p hp
    unfold Heap.entry at hsome
    cases ho : h0.objs[p]? with
    | none => rw [ho] at hsome; cases hsome
    | some o => rw [← ho]; exact ha.1 p (getElem?_some_lt ho)
  · intro k hk
    exact ha.2 k (hk.lt hg)

theorem Heap.Fresh.separate {h0 h1 : Heap} {g1 : GridH} (hf : Heap.Fresh h0 h1 g1)
    (g : GridH) (hg : ∀ p ∈ g, (h0.entry p).isSome = true) : Heap.Separate h0 h1 g g1 := by
  intro q hq
  obtain ⟨hqle, o, a, ho, harr, _⟩ := hf q hq
  refine ⟨?_, ?_⟩
  · intro hqg
    have hsome := hg q hqg
    unfold Heap.entry at hsome
    cases hoq : h0.objs[q]? with
    | none => rw [hoq] at hsome; cases hsome
    | some oq =>
      have := getElem?_some_lt hoq
      omega
  · intro o1 ho1 hb
    rw [ho] at ho1
    cases ho1
    have := hb.lt hg
    omega

/-- The assignment in `SetValue` writes one object of the clone only. -/
theorem SetValue_keeps (h0 h1 h2 : Heap) (g g1 : GridH) (v : SliceH) (r c : Nat)
    (hk : Heap.Keeps h0 h1 g) (hs : Heap.Separate h0 h1 g g1)
    (hstep : h1.SetValue g1 v r c = some h2) :
    Heap.Keeps h0 h2 g ∧ (¬ h0.Backs g v.arr → Heap.Separate h0 h2 g g1) := by
  simp only [Heap.SetValue] at hstep
  cases hp : g1[9 * r + c]? with
  | none => rw [hp] at hstep; cases hstep
  | some p =>
    rw [hp] at hstep
    simp only at hstep
    cases ho : h1.objs[p]? with
    | none => rw [ho] at hstep; cases hstep
    | some o =>
      rw [ho] at hstep
      simp only [Option.some.injEq] at hstep
      subst hstep
      have hpm : p ∈ g1 := List.getElem?_mem hp
      obtain ⟨hpg, _⟩ := hs p hpm
      refine ⟨⟨?_, hk.2.1, hk.2.2⟩, ?_⟩
      · intro q hq
        have hne : p ≠ q := fun hpq => hpg (hpq ▸ hq)
        show (h1.objs.set p _)[q]? = _
        rw [List.getElem?_set_ne hne]
        exact hk.1 q hq
      · intro hv q hq
        obtain ⟨hqg, hsep⟩ := hs q hq
        refine ⟨hqg, ?_⟩
        intro o1 ho1
        by_cases hpq : p = q
        · subst hpq
          have hset : (h1.objs.set p { o with Value := v })[p]? =
              some { o with Value := v } :=
            List.getElem?_set_self (getElem?_some_lt ho)
          have ho1' : (h1.objs.set p { o with Value := v })[p]? = some o1 := ho1
          rw [hset] at ho1'
          cases ho1'
          exact hv
        · have ho1' : (h1.objs.set p { o with Value := v })[q]? = some o1 := ho1
          rw [List.getElem?_set_ne hpq] at ho1'
          exact hsep o1 ho1'

/-- One operation on the clone leaves the objects and arrays of the source as
they are; unless it hands over a slice of the source, the clone stays apart. -/
theorem step_keeps (h0 h1 h2 : Heap) (g g1 : GridH) (op : CloneOp)
    (hg : ∀ p ∈ g, (h0.entry p).isSome = true)
    (hk : Heap.Keeps h0 h1 g) (hs : Heap.Separate h0 h1 g g1)
    (hstep : h1.step g1 op = some h2) :
    Heap.Keeps h0 h2 g ∧ (op.Apart h0 g → Heap.Separate h0 h2 g g1) := by
  cases op with
  | setSlice v r c => exact SetValue_keeps h0 h1 h2 g g1 v r c hk hs hstep
  | setValue vals r c =>
    have hkL : Heap.Keeps h0 (h1.literal vals).1 g := by
      refine ⟨hk.1, ?_, ?_⟩
      · intro k hb
        show (h1.arrays ++ [vals])[k]? = _
        rw [List.getElem?_append_left (Nat.lt_of_lt_of_le (hb.lt hg) hk.2.2)]
        exact hk.2.1 k hb
      · show h0.arrays.length ≤ (h1.arrays ++ [vals]).length
        rw [List.length_append]
        exact Nat.le_trans hk.2.2 (Nat.le_add_right _ _)
    have hsL : Heap.Separate h0 (h1.literal vals).1 g g1 := hs
    have hfreshArr : ¬ h0.Backs g (h1.literal vals).2.arr := by
      intro hb
      have h1lt := hb.lt hg
      have : (h1.literal vals).2.arr = h1.arrays.length := rfl
      rw [this] at h1lt
      exact absurd hk.2.2 (by omega)
    obtain ⟨hk2, hs2⟩ := SetValue_keeps h0 (h1.literal vals).1 h2 g g1 (h1.literal vals).2 r c
      hkL hsL hstep
    exact ⟨hk2, fun _ => hs2 hfreshArr⟩
  | remove k target =>
    simp only [Heap.step] at hstep
    cases hp : g1[k]? with
    | none => rw [hp] at hstep; cases hstep
    | some p =>
      rw [hp] at hstep
      simp only at hstep
      have hpm : p ∈ g1 := List.getElem?_mem hp
      obtain ⟨hpg, hsep⟩ := hs p hpm
      cases ho : h1.objs[p]? with
      | none =>
        simp only [Heap.Remove, ho] at hstep
        cases hstep
      | some o =>
        cases haa : h1.arrays[o.Value.arr]? with
        | none =>
          simp only [Heap.Remove, ho, haa] at hstep
          cases hstep
        | some a =>
          rw [Heap.Remove_eq h1 p target o a ho haa] at hstep
          by_cases hidx : indexFrom target (a.take o.Value.len) 0 = -1
          · simp only [hidx, if_true, Option.some.injEq] at hstep
            subst hstep
            exact ⟨hk, fun _ => hs⟩
          · simp only [hidx, if_false, Option.some.injEq] at hstep
            subst hstep
            have hnb : ¬ h0.Backs g o.Value.arr := hsep o ho
            refine ⟨⟨?_, ?_, ?_⟩, fun _ => ?_⟩
            · intro q hq
              have hne : p ≠ q := fun hpq => hpg (hpq ▸ hq)
              show (h1.objs.set p _)[q]? = _
              rw [List.getElem?_set_ne hne]
              exact hk.1 q hq
            · intro k1 hb
              have hne : o.Value.arr ≠ k1 := fun hkk => hnb (hkk ▸ hb)
              show (h1.arrays.set o.Value.arr _)[k1]? = _
              rw [List.getElem?_set_ne hne]
              exact hk.2.1 k1 hb
            · show h0.arrays.length ≤ (h1.arrays.set o.Value.arr _).length
              rw [List.length_set]
              exact hk.2.2
            · intro q hq
              obtain ⟨hqg, hsepq⟩ := hs q hq
              refine ⟨hqg, ?_⟩
              intro o1 ho1
              by_cases hpq : p = q
              · subst hpq
                have ho1' : (h1.objs.set p
                    { o with Value := { arr := o.Value.arr, len := o.Value.len - 1 } })[p]? =
                    some o1 := ho1
                rw [List.getElem?_set_self (getElem?_some_lt ho)] at ho1'
                cases ho1'
                exact hnb
              · have ho1' : (h1.objs.set p
                    { o with Value := { arr := o.Value.arr, len := o.Value.len - 1 } })[q]? =
                    some o1 := ho1
                rw [List.getElem?_set_ne hpq] at ho1'
                exact hsepq o1 ho1'

theorem run_keeps (h0 : Heap) (g g1 : GridH) (hg : ∀ p ∈ g, (h0.entry p).isSome = true)
    (ops : List CloneOp) (hops : ∀ op ∈ ops, op.Apart h0 g) (h1 : Heap)
    (hk : Heap.Keeps h0 h1 g) (hs : Heap.Separate h0 h1 g g1) :
    Heap.Keeps h0 (Heap.run g1 ops h1) g ∧ Heap.Separate h0 (Heap.run g1 ops h1) g g1 := by
  induction ops generalizing h1 with
  | nil => exact ⟨hk, hs⟩
  | cons op rest ih =>
    simp only [Heap.run]
    cases hstep : h1.step g1 op with
    | none => exact ⟨hk, hs⟩
    | some h2 =>
      obtain ⟨hk2, hs2⟩ := step_keeps h0 h1 h2 g g1 op hg hk hs hstep
      exact ih (fun o ho => hops o (List.mem_cons_of_mem op ho)) h2 hk2
        (hs2 (hops op (List.mem_cons_self op rest)))

/-- After operations that hand over no slice of the source, one more operation
of any kind still leaves the source as it was. -/
theorem run_then_step (h0 : Heap) (g g1 : GridH) (hg : ∀ p ∈ g, (h0.entry p).isSome = true)
    (ops : List CloneOp) (hops : ∀ op ∈ ops, op.Apart h0 g) (h1 : Heap)
    (hk : Heap.Keeps h0 h1 g) (hs : Heap.Separate h0 h1 g g1) (op : CloneOp) :
    Heap.Keeps h0 (Heap.run g1 [op] (Heap.run g1 ops h1)) g := by
  obtain ⟨hk2, hs2⟩ := run_keeps h0 g g1 hg ops hops h1 hk hs
  simp only [Heap.run]
  cases hstep : (Heap.run g1 ops h1).step g1 op with
  | none => exact hk2
  | some h2 => exact (step_keeps h0 _ h2 g g1 op hg hk2 hs2 hstep).1

/-! ## The first pass on `pdqPuzzle` -/

set_option maxRecDepth 1000000 in
theorem pdq_pass : (gridOf pdqPuzzle).Eliminate = (true, pdqAfterPass) := by
  rw [gridOf_Eliminate pdqPuzzle (by decide)]
  decide!

set_option maxRecDepth 1000000 in
theorem pdq_chosen :
    pdqAfterPass.chosen pdqSortImpl = some { Value := [3, 9], Row := 7, Column := 2 } := by
  decide!

set_option maxRecDepth 1000000 in
theorem pdq_guess :
    pdqAfterPass.Guess pdqSortImpl [] =
      some [pdqAfterPass.set 65 { Value := [3], Row := 7, Column := 2 },
            pdqAfterPass.set 65 { Value := [9], Row := 7, Column := 2 }] := by
  rw [Guess_chosen, pdq_chosen]
  decide!

set_option maxRecDepth 1000000 in
theorem pdq_facts :
    pdqAfterPass.IsValid = true ∧ pdqAfterPass.IsSolved = false ∧
    pdqAfterPass[54]? = some { Value := [1, 2], Row := 6, Column := 0 } ∧
    pdqAfterPass[65]? = some { Value := [3, 9], Row := 7, Column := 2 } ∧
    (pdqAfterPass.filter fun e => !e.IsSolved).length = 13 := by
  decide!

/-! ## The claims -/

/-- C1 (the code falls short of the claim). On `lateConflictPuzzle`, a well-formed
puzzle, `Solve` returns success for every sort and every bound, without ever
guessing, and the grid it returns holds some digit twice in a row, column or
block: the single elimination pass never propagates an entry that became
solved after its own visit, and `Solve` accepts any grid of singletons. -/
theorem C1_solve_returns_invalid_grid (S : SortImpl) (fuel : Nat) (s : Solver) :
    WellFormed lateConflictPuzzle ∧
    Solver.Solve S fuel s lateConflictPuzzle =
      some (some ({ Puzzle := lateConflictPuzzle, Solution := lateConflictResult,
                    curr := gridOf lateConflictResult, grids := [] },
        lateConflictResult, true)) ∧
    ¬ EachOnce (cellDigit lateConflictResult) ∧
    colCount (cellDigit lateConflictResult) 6 5 = 2 := by
  have hw : WellFormed lateConflictPuzzle := by decide
  refine ⟨hw, ?_, not_eachOnce_of_colCount _ 6 5 (by decide) (by decide) (by decide)
    lateConflict_col, lateConflict_col⟩
  have hpos := NewGrid_positioned _ _ hw.1 (gridOf_spec _ hw)
  rw [Solve_unroll S fuel s _ _ (gridOf_spec _ hw) hpos, lateConflict_pass]
  have hs : (gridOf lateConflictResult).IsSolved = true := by decide
  have hstr : GridToString (gridOf lateConflictResult) = lateConflictResult := by decide
  simp only [Bool.true_eq_false, if_false, hs, if_true, Solver.done, hstr]

/-- C2. If `Solve` reports a failure on a well-formed puzzle (flag false, with
either diagnostic), then no assignment of digits 1..9 to the 81 cells agrees
with the clues and has each digit once in every row, column and block. -/
theorem C2_failure_means_no_completion (S : SortImpl) (fuel : Nat) (s : Solver)
    (puzzle : String) (hw : WellFormed puzzle) (s1 : Solver) (str : String)
    (h : Solver.Solve S fuel s puzzle = some (some (s1, str, false))) :
    ¬ ∃ T : Nat → Nat, IsCompletion puzzle T := by
  rintro ⟨T, hT⟩
  have := Solve_complete S fuel s puzzle hw T hT s1 str false h
  cases this

/-- Witness for C2: the clash puzzle is reported as failed, hence has no completion. -/
theorem C2_witness :
    WellFormed clashPuzzle ∧
    (∃ s1, Solver.Solve insertionSortImpl 0 Solver.zero clashPuzzle =
      some (some (s1, "Invalid puzzle", false))) ∧
    ¬ ∃ T : Nat → Nat, IsCompletion clashPuzzle T := by
  have hw : WellFormed clashPuzzle := by decide
  have hex := Solve_conflict insertionSortImpl 0 Solver.zero clashPuzzle hw 0 1 '5'
    (by decide) (by decide) (by decide) (by decide) (by decide) (by decide) (by decide)
  refine ⟨hw, hex, ?_⟩
  obtain ⟨s1, h1⟩ := hex
  exact C2_failure_means_no_completion insertionSortImpl 0 Solver.zero clashPuzzle hw s1
    "Invalid puzzle" h1

/-- C3 (the code falls short of the claim). `guessPuzzle` is well formed and has
exactly one completion, `guessSolution`; yet for every sort and every bound of
at least one pop, `Solve` returns success with `guessResult`, which differs
from the completion and holds a digit twice in a column. After the first pass
only the entry at index 11 has two candidates, so every sort makes `Guess`
branch on it; the branch popped first (candidate 7) is wrong, and its single
pass ends in a grid of singletons whose clashes are never checked. -/
theorem C3_unique_puzzle_wrong_grid (S : SortImpl) (fuel : Nat) (s : Solver) :
    WellFormed guessPuzzle ∧
    IsCompletion guessPuzzle (cellDigit guessSolution) ∧
    (∀ T : Nat → Nat, IsCompletion guessPuzzle T →
      ∀ i < 81, T i = cellDigit guessSolution i) ∧
    Solver.Solve S (fuel + 1) s guessPuzzle =
      some (some ({ Puzzle := guessPuzzle, Solution := guessResult,
                    curr := gridOf guessResult, grids := [guessBranch 2] },
        guessResult, true)) ∧
    guessResult ≠ guessSolution ∧
    ¬ EachOnce (cellDigit guessResult) ∧
    colCount (cellDigit guessResult) 1 2 = 2 :=
  ⟨guess_wf, guess_completion, guess_unique, guess_solve S fuel s, by decide,
    not_eachOnce_of_colCount _ 1 2 (by decide) (by decide) (by decide) guess_col, guess_col⟩

/-- C4. Whenever `Solve` returns success on a well-formed puzzle, every position
holding a clue holds the same character in the returned string. -/
theorem C4_clues_preserved (S : SortImpl) (fuel : Nat) (s : Solver) (puzzle : String)
    (hw : WellFormed puzzle) (s1 : Solver) (str : String)
    (h : Solver.Solve S fuel s puzzle = some (some (s1, str, true)))
    (i : Nat) (c : Char) (hc : puzzle.toList[i]? = some c) (hdot : c ≠ '.') :
    str.toList[i]? = some c := by
  obtain ⟨G0, hG, hpos, hdig⟩ := NewGrid_exists puzzle hw
  obtain ⟨href, hsol, hstr, _⟩ := Solve_success S fuel s puzzle G0 hG hpos s1 str h
  have hi : i < 81 := by
    have hl : puzzle.toList.length = 81 := hw.1
    by_contra hge
    rw [List.getElem?_eq_none (by omega)] at hc
    cases hc
  obtain ⟨e0, he0⟩ := getElem?_of_lt G0 i (by rw [hpos.1]; exact hi)
  obtain ⟨c1, hc1, hmem, hnew⟩ := NewGrid_get puzzle G0 hw hG i e0 he0
  rw [hc] at hc1
  cases hc1
  obtain ⟨e1, he1, hb⟩ := href.get he0
  have hv0 : e0.Value = [atoi c] := by rw [hnew, NewEntry_clue c _ _ hdot]
  have hlen := (isSolved_iff _).1 hsol i e1 he1
  have hv1 : e1.Value = [atoi c] := by
    apply sublist_singleton_ne_nil (hv0 ▸ hb.2.2)
    intro hnil
    rw [hnil] at hlen
    cases hlen
  show str.data[i]? = some c
  rw [hstr, GridToString_solved _ (href.digit hdig) hsol, List.getElem?_map, he1,
    Option.map_some', hv1]
  exact congrArg some (alphabet_cases c hmem hdot).2.2

/-- Witness for C4: the filled grid is returned as it is, and keeps its first clue. -/
theorem C4_witness :
    WellFormed filledPuzzle ∧
    ∃ s1 str, Solver.Solve insertionSortImpl 0 Solver.zero filledPuzzle =
        some (some (s1, str, true)) ∧
      filledPuzzle.toList[0]? = some '4' ∧ str.toList[0]? = some '4' := by
  have hw : WellFormed filledPuzzle := by decide
  obtain ⟨G0, _, h⟩ := Solve_full insertionSortImpl 0 Solver.zero filledPuzzle hw
    (by decide) filled_valid
  exact ⟨hw, _, _, h, by decide,
    C4_clues_preserved insertionSortImpl 0 Solver.zero filledPuzzle hw _ _ h 0 '4'
      (by decide) (by decide)⟩

/-- C5. On a well-formed puzzle in which two distinct cells of one row, column or
block hold the same clue, `Solve` returns `("Invalid puzzle", false)`. -/
theorem C5_clashing_clues_invalid (S : SortImpl) (fuel : Nat) (s : Solver) (puzzle : String)
    (hw : WellFormed puzzle) (i j : Nat) (c : Char) (hi : i < 81) (hj : j < 81) (hne : i ≠ j)
    (hunit : i / 9 = j / 9 ∨ i % 9 = j % 9 ∨
      (i / 9 / 3) * 3 + i % 9 / 3 = (j / 9 / 3) * 3 + j % 9 / 3)
    (hci : puzzle.toList[i]? = some c) (hcj : puzzle.toList[j]? = some c) (hc : c ≠ '.') :
    ∃ s1, Solver.Solve S fuel s puzzle = some (some (s1, "Invalid puzzle", false)) :=
  Solve_conflict S fuel s puzzle hw i j c hi hj hne hunit hci hcj hc

/-- Witness for C5: two 5s at the start of the first row. -/
theorem C5_witness :
    WellFormed clashPuzzle ∧ clashPuzzle.toList[0]? = some '5' ∧
    clashPuzzle.toList[1]? = some '5' ∧
    ∃ s1, Solver.Solve insertionSortImpl 3 Solver.zero clashPuzzle =
      some (some (s1, "Invalid puzzle", false)) :=
  ⟨by decide, by decide, by decide,
    C5_clashing_clues_invalid insertionSortImpl 3 Solver.zero clashPuzzle (by decide) 0 1 '5'
      (by decide) (by decide) (by decide) (by decide) (by decide) (by decide) (by decide)⟩

/-- C6. On an 81-character string of digits `'1'..'9'` with each digit once in
every row, column and block, `Solve` returns the string itself with success,
for every sort and every bound (the bound `0` included: the search loop is
never entered), and the search stack is empty on return. -/
theorem C6_filled_grid_returned (S : SortImpl) (fuel : Nat) (s : Solver) (puzzle : String)
    (hlen : puzzle.length = 81) (hfull : ∀ c ∈ puzzle.toList, c ∈ digitChars)
    (hvalid : EachOnce (cellDigit puzzle)) :
    ∃ s1, Solver.Solve S fuel s puzzle = some (some (s1, puzzle, true)) ∧
      s1.grids = [] ∧ s1.Solution = puzzle := by
  have hw : WellFormed puzzle := ⟨hlen, fun c hc => (digitChars_alphabet c (hfull c hc)).1⟩
  obtain ⟨G0, _, h⟩ := Solve_full S fuel s puzzle hw
    (fun c hc => (digitChars_alphabet c (hfull c hc)).2) hvalid
  exact ⟨_, h, rfl, rfl⟩

/-- Witness for C6: the solution of the first puzzle of `main`. -/
theorem C6_witness :
    filledPuzzle.length = 81 ∧ EachOnce (cellDigit filledPuzzle) ∧
    ∃ s1, Solver.Solve insertionSortImpl 0 Solver.zero filledPuzzle =
        some (some (s1, filledPuzzle, true)) ∧
      s1.grids = [] ∧ s1.Solution = filledPuzzle :=
  ⟨by decide, filled_valid,
    C6_filled_grid_returned insertionSortImpl 0 Solver.zero filledPuzzle (by decide)
      (by decide) filled_valid⟩

/-- C7. On a well-formed puzzle `Solve` returns: there is one outcome that every
large enough bound yields and no bound contradicts, and it is exactly one of
success with an 81-character string of digits `'1'..'9'`, or
`("Invalid puzzle", false)`, or `("No solution found", false)`. -/
theorem C7_solve_outcome (S : SortImpl) (s : Solver) (puzzle : String)
    (hw : WellFormed puzzle) :
    ∃ (s1 : Solver) (str : String) (ok : Bool),
      (∃ fuel0, ∀ fuel, fuel0 ≤ fuel →
        Solver.Solve S fuel s puzzle = some (some (s1, str, ok))) ∧
      (∀ fuel out, Solver.Solve S fuel s puzzle = some out → out = some (s1, str, ok)) ∧
      ((ok = true ∧ str.length = 81 ∧ ∀ c ∈ str.toList, c ∈ digitChars) ∨
        (ok = false ∧ str = "Invalid puzzle") ∨ (ok = false ∧ str = "No solution found")) ∧
      ¬ (str = "Invalid puzzle" ∧ str = "No solution found") ∧
      ¬ (ok = true ∧ ok = false) := by
  obtain ⟨fuel0, s1, str, ok, h⟩ := Solve_total S s puzzle hw
  refine ⟨s1, str, ok, ⟨fuel0, h⟩, ?_, ?_, ?_, ?_⟩
  · intro fuel out hout
    have h1 := Solve_mono_le S fuel (max fuel fuel0) (le_max_left _ _) s puzzle hw out hout
    rw [h (max fuel fuel0) (le_max_right _ _)] at h1
    exact (Option.some.inj h1).symm
  · exact Solve_shape S fuel0 s puzzle hw s1 str ok (h fuel0 (le_refl _))
  · rintro ⟨h1, h2⟩
    rw [h1] at h2
    revert h2
    decide
  · rintro ⟨h1, h2⟩
    rw [h1] at h2
    cases h2

/-- Witness for C7: the first puzzle of `main`. -/
theorem C7_witness :
    WellFormed firstPuzzle ∧
    ∃ (s1 : Solver) (str : String) (ok : Bool),
      (∃ fuel0, ∀ fuel, fuel0 ≤ fuel →
        Solver.Solve insertionSortImpl fuel Solver.zero firstPuzzle =
          some (some (s1, str, ok))) ∧
      (∀ fuel out, Solver.Solve insertionSortImpl fuel Solver.zero firstPuzzle = some out →
        out = some (s1, str, ok)) ∧
      ((ok = true ∧ str.length = 81 ∧ ∀ c ∈ str.toList, c ∈ digitChars) ∨
        (ok = false ∧ str = "Invalid puzzle") ∨ (ok = false ∧ str = "No solution found")) ∧
      ¬ (str = "Invalid puzzle" ∧ str = "No solution found") ∧
      ¬ (ok = true ∧ ok = false) :=
  ⟨by decide, C7_solve_outcome insertionSortImpl Solver.zero firstPuzzle (by decide)⟩

/-- C8 (counterexample). On the grid of `lateSinglePuzzle` both passes return
true, yet the second pass strikes the candidate 1 from the entry at index 9,
which the first pass had kept: the first entry became solved only after its
own visit, so its digit reaches its column and block in the second pass only. -/
theorem C8_second_pass_differs :
    (Solver.onGrid (gridOf lateSinglePuzzle)).Eliminate.1 = true ∧
    (Solver.onGrid (gridOf lateSinglePuzzle)).Eliminate.2.Eliminate.1 = true ∧
    ((Solver.onGrid (gridOf lateSinglePuzzle)).Eliminate.2.curr[9]?).map Entry.Value =
      some [1, 4, 5, 6, 7, 8, 9] ∧
    ((Solver.onGrid (gridOf lateSinglePuzzle)).Eliminate.2.Eliminate.2.curr[9]?).map
      Entry.Value = some [4, 5, 6, 7, 8, 9] ∧
    (Solver.onGrid (gridOf lateSinglePuzzle)).Eliminate.2.Eliminate.2.curr ≠
      (Solver.onGrid (gridOf lateSinglePuzzle)).Eliminate.2.curr := by
  have h : (gridOf lateSinglePuzzle).Eliminate.1 = true ∧
      (gridOf lateSinglePuzzle).Eliminate.2.Eliminate.1 = true ∧
      ((gridOf lateSinglePuzzle).Eliminate.2[9]?).map Entry.Value =
        some [1, 4, 5, 6, 7, 8, 9] ∧
      ((gridOf lateSinglePuzzle).Eliminate.2.Eliminate.2[9]?).map Entry.Value =
        some [4, 5, 6, 7, 8, 9] := by decide!
  rw [onGrid_Eliminate_fst, onGrid_Eliminate2_fst, onGrid_Eliminate_curr,
    onGrid_Eliminate2_curr]
  refine ⟨h.1, h.2.1, h.2.2.1, h.2.2.2, ?_⟩
  intro heq
  have h3 := h.2.2.1
  have h4 := h.2.2.2
  rw [heq, h3] at h4
  revert h4
  decide

/-- C8 (amended). For a grid whose candidate lists hold no value twice: if every
entry solved after the pass was already solved before it, then a second
`Eliminate` returns the flag the first returned and leaves every entry as the
first pass left it. -/
theorem C8_second_pass_fixed (s : Solver) (hd : NodupGrid s.curr)
    (hnew : ∀ (i : Nat) (e1 : Entry), s.Eliminate.2.curr[i]? = some e1 → e1.IsSolved = true →
      ∃ e, s.curr[i]? = some e ∧ e.IsSolved = true) :
    s.Eliminate.2.Eliminate = (s.Eliminate.1, s.Eliminate.2) := by
  have h := Eliminate_idem_flag s.curr hd hnew
  show ((s.curr.Eliminate.2.Eliminate).1,
      ({ s with curr := s.curr.Eliminate.2.Eliminate.2 } : Solver)) =
    (s.curr.Eliminate.1, ({ s with curr := s.curr.Eliminate.2 } : Solver))
  rw [h]

set_option maxRecDepth 1000000 in
/-- Witness for C8 (amended): one clue, where the pass returns true and solves no
new entry, and two clashing clues, where it returns false at the first entry. -/
theorem C8_witness :
    (NodupGrid (Solver.onGrid (gridOf oneCluePuzzle)).curr ∧
      (Solver.onGrid (gridOf oneCluePuzzle)).Eliminate.1 = true ∧
      (Solver.onGrid (gridOf oneCluePuzzle)).Eliminate.2.Eliminate =
        ((Solver.onGrid (gridOf oneCluePuzzle)).Eliminate.1,
          (Solver.onGrid (gridOf oneCluePuzzle)).Eliminate.2)) ∧
    (NodupGrid (Solver.onGrid (gridOf clashPuzzle)).curr ∧
      (Solver.onGrid (gridOf clashPuzzle)).Eliminate.1 = false ∧
      (Solver.onGrid (gridOf clashPuzzle)).Eliminate.2.Eliminate =
        ((Solver.onGrid (gridOf clashPuzzle)).Eliminate.1,
          (Solver.onGrid (gridOf clashPuzzle)).Eliminate.2)) := by
  have hd : NodupGrid (gridOf oneCluePuzzle) := nodupGrid_of_all _ (by decide!)
  have hflag : (gridOf oneCluePuzzle).Eliminate.1 = true := by decide!
  have hnew := noNewSolved_of_check (gridOf oneCluePuzzle).Eliminate.2 (gridOf oneCluePuzzle)
    (Eliminate_refines _).1 (by decide!)
  have hd2 : NodupGrid (gridOf clashPuzzle) := nodupGrid_of_all _ (by decide!)
  have hflag2 : (gridOf clashPuzzle).Eliminate.1 = false := by decide!
  have hnew2 := noNewSolved_of_check (gridOf clashPuzzle).Eliminate.2 (gridOf clashPuzzle)
    (Eliminate_refines _).1 (by decide!)
  exact ⟨⟨hd, hflag, C8_second_pass_fixed (Solver.onGrid (gridOf oneCluePuzzle)) hd hnew⟩,
    ⟨hd2, hflag2, C8_second_pass_fixed (Solver.onGrid (gridOf clashPuzzle)) hd2 hnew2⟩⟩

/-- C9. For a grid that is valid when the pass starts, `Eliminate` returns true
exactly when the grid it leaves is valid, and when it returns false some entry
of that grid has no candidate left. -/
theorem C9_flag_iff_valid (s : Solver) (hlen : s.curr.length = 81)
    (hv : s.curr.IsValid = true) :
    (s.Eliminate.1 = true ↔ s.Eliminate.2.curr.IsValid = true) ∧
    (s.Eliminate.1 = false → ∃ e ∈ s.Eliminate.2.curr, e.Value = []) ∧
    s.Eliminate.2.curr.length = 81 :=
  ⟨eliminateLoop_flag_iff _ s.curr hv, eliminateLoop_false_empty _ s.curr hv,
    (Eliminate_refines s.curr).1.trans hlen⟩

/-- Witness for C9: the grid of the clash puzzle is valid and has 81 entries. -/
theorem C9_witness :
    (Solver.onGrid (gridOf clashPuzzle)).curr.length = 81 ∧
    (Solver.onGrid (gridOf clashPuzzle)).curr.IsValid = true ∧
    ((Solver.onGrid (gridOf clashPuzzle)).Eliminate.1 = true ↔
      (Solver.onGrid (gridOf clashPuzzle)).Eliminate.2.curr.IsValid = true) ∧
    ((Solver.onGrid (gridOf clashPuzzle)).Eliminate.1 = false →
      ∃ e ∈ (Solver.onGrid (gridOf clashPuzzle)).Eliminate.2.curr, e.Value = []) ∧
    (Solver.onGrid (gridOf clashPuzzle)).Eliminate.2.curr.length = 81 :=
  ⟨by decide, by decide,
    C9_flag_iff_valid (Solver.onGrid (gridOf clashPuzzle)) (by decide) (by decide)⟩

/-- C10. The outcome of `Solve` (result string, flag, and the whole solver left
behind, its `Solution` field included) is the same from any two prior solver
states: every field is reset before it is read. -/
theorem C10_outcome_independent_of_prior_state (S : SortImpl) (fuel : Nat)
    (s1 s2 : Solver) (puzzle : String) :
    Solver.Solve S fuel s1 puzzle = Solver.Solve S fuel s2 puzzle := by
  unfold Solver.Solve
  rfl

/-- C11. On a current grid that is valid and not solved, `Guess` branches on an
entry of the grid that is unsolved, has at least two candidates, and has no
more candidates than any other unsolved entry; this holds for every sort. -/
theorem C11_guess_minimal (S : SortImpl) (s : Solver) (hv : s.curr.IsValid = true)
    (hns : s.curr.IsSolved = false) :
    ∃ p, p ∈ s.curr ∧ s.curr.chosen S = some p ∧
      s.Guess S = (guessPush s.curr p.Row p.Column p.Value s.grids).map
        (fun grids => { s with grids := grids }) ∧
      p.IsSolved = false ∧ 2 ≤ p.Value.length ∧
      ∀ e ∈ s.curr, e.IsSolved = false → p.Value.length ≤ e.Value.length := by
  obtain ⟨p, hch, hpg, hps, hmin⟩ := chosen_spec S s.curr hns
  refine ⟨p, hpg, hch, ?_, hps, unsolved_valid_two p hps (valid_mem _ hv p hpg), hmin⟩
  rw [Solver_Guess_eq, Guess_chosen, hch]

/-- Witness for C11: the grid of the one-clue puzzle, with the stable sort. -/
theorem C11_witness :
    (Solver.onGrid (gridOf oneCluePuzzle)).curr.IsValid = true ∧
    (Solver.onGrid (gridOf oneCluePuzzle)).curr.IsSolved = false ∧
    ∃ p, p ∈ (Solver.onGrid (gridOf oneCluePuzzle)).curr ∧
      (Solver.onGrid (gridOf oneCluePuzzle)).curr.chosen insertionSortImpl = some p ∧
      (Solver.onGrid (gridOf oneCluePuzzle)).Guess insertionSortImpl =
        (guessPush (Solver.onGrid (gridOf oneCluePuzzle)).curr p.Row p.Column p.Value
          (Solver.onGrid (gridOf oneCluePuzzle)).grids).map
          (fun grids => { Solver.onGrid (gridOf oneCluePuzzle) with grids := grids }) ∧
      p.IsSolved = false ∧ 2 ≤ p.Value.length ∧
      ∀ e ∈ (Solver.onGrid (gridOf oneCluePuzzle)).curr, e.IsSolved = false →
        p.Value.length ≤ e.Value.length :=
  ⟨by decide, by decide,
    C11_guess_minimal insertionSortImpl (Solver.onGrid (gridOf oneCluePuzzle)) (by decide)
      (by decide)⟩

/-- C12, counterexample. Two runs of `Guess` on the grid left by the first pass
of `Solve`, each with a sort routine of the Go library that `sort.Sort` has
been, and each ending on an entry other than the first of minimal size.
On `pdqPuzzle` thirteen entries are unsolved; the first of them, at index 54
(row 6, column 0), has two candidates, the least number; the routine of Go 1.19
and later partitions around the entry at index 65 (row 7, column 2), which
also has two, and leaves it in front: `Guess` branches on index 65.
On `tiePuzzle` seven entries are unsolved; the entries at index 3 (row 0,
column 3) and index 24 (row 2, column 6) have two candidates, the least
number; the routine of Go 1.6 to 1.18 swaps the seventh element with the
first: `Guess` branches on index 24. -/
theorem C12_later_tie_chosen :
    (WellFormed pdqPuzzle ∧
      (Solver.onGrid (gridOf pdqPuzzle)).Eliminate.1 = true ∧
      (Solver.onGrid (gridOf pdqPuzzle)).Eliminate.2.curr = pdqAfterPass ∧
      pdqAfterPass.IsValid = true ∧ pdqAfterPass.IsSolved = false ∧
      (pdqAfterPass.filter fun e => !e.IsSolved).length = 13 ∧
      pdqAfterPass[54]? = some { Value := [1, 2], Row := 6, Column := 0 } ∧
      pdqAfterPass[65]? = some { Value := [3, 9], Row := 7, Column := 2 } ∧
      (∀ e ∈ pdqAfterPass, e.IsSolved = false → 2 ≤ e.Value.length) ∧
      pdqAfterPass.chosen pdqSortImpl = some { Value := [3, 9], Row := 7, Column := 2 } ∧
      (Solver.onGrid pdqAfterPass).Guess pdqSortImpl =
        some { Solver.onGrid pdqAfterPass with
          grids := [pdqAfterPass.set 65 { Value := [3], Row := 7, Column := 2 },
                    pdqAfterPass.set 65 { Value := [9], Row := 7, Column := 2 }] }) ∧
    (WellFormed tiePuzzle ∧
      (Solver.onGrid (gridOf tiePuzzle)).Eliminate.1 = true ∧
      (Solver.onGrid (gridOf tiePuzzle)).Eliminate.2.curr = tieAfterPass ∧
      tieAfterPass.IsValid = true ∧ tieAfterPass.IsSolved = false ∧
      tieAfterPass[3]? = some { Value := [3, 7], Row := 0, Column := 3 } ∧
      tieAfterPass[24]? = some { Value := [3, 8], Row := 2, Column := 6 } ∧
      (∀ e ∈ tieAfterPass, e.IsSolved = false → 2 ≤ e.Value.length) ∧
      tieAfterPass.chosen shellSortImpl = some { Value := [3, 8], Row := 2, Column := 6 } ∧
      (Solver.onGrid tieAfterPass).Guess shellSortImpl =
        some { Solver.onGrid tieAfterPass with
          grids := [tieAfterPass.set 24 { Value := [3], Row := 2, Column := 6 },
                    tieAfterPass.set 24 { Value := [8], Row := 2, Column := 6 }] }) := by
  refine ⟨⟨by decide, ?_, ?_, pdq_facts.1, pdq_facts.2.1, pdq_facts.2.2.2.2, pdq_facts.2.2.1,
    pdq_facts.2.2.2.1, ?_, pdq_chosen, ?_⟩,
    ⟨by decide, ?_, ?_, tie_facts.1, tie_facts.2.1, tie_facts.2.2.1, tie_facts.2.2.2,
    ?_, tie_chosen_shell, ?_⟩⟩
  · rw [onGrid_Eliminate_fst, pdq_pass]
  · rw [onGrid_Eliminate_curr, pdq_pass]
  · intro e he hs
    exact unsolved_valid_two e hs (valid_mem _ pdq_facts.1 e he)
  · rw [onGrid_Guess, pdq_guess]
    rfl
  · rw [onGrid_Eliminate_fst, tie_pass]
  · rw [onGrid_Eliminate_curr, tie_pass]
  · intro e he hs
    exact unsolved_valid_two e hs (valid_mem _ tie_facts.1 e he)
  · rw [onGrid_Guess, tie_guess_shell]
    rfl

/-- C12, amended. On a current grid that is valid and not solved, whatever the
sort routine, `Guess` branches on an unsolved entry of the grid with at least
two candidates and no more candidates than any other unsolved entry. If the
routine keeps the unsolved entries with equally many candidates in their
original order, that entry is the one the scan of the grid meets first among
the unsolved entries of its size: none of them has a smaller index, and in a
grid whose entries record their positions that index is `9 * row + column`. -/
theorem C12_minimal_stable_first (S : SortImpl) (s : Solver)
    (hv : s.curr.IsValid = true) (hns : s.curr.IsSolved = false) :
    ∃ (p : Entry), p ∈ s.curr ∧ s.curr.chosen S = some p ∧
      s.Guess S = (guessPush s.curr p.Row p.Column p.Value s.grids).map
        (fun grids => { s with grids := grids }) ∧
      p.IsSolved = false ∧ 2 ≤ p.Value.length ∧
      (∀ e ∈ s.curr, e.IsSolved = false → p.Value.length ≤ e.Value.length) ∧
      (StableOn S (s.curr.filter fun e => !e.IsSolved) →
        ∃ (i : Nat), s.curr[i]? = some p ∧
          (∀ (j : Nat) (e : Entry), s.curr[j]? = some e → e.IsSolved = false →
            e.Value.length = p.Value.length → i ≤ j) ∧
          (Positioned s.curr → i = 9 * p.Row + p.Column)) := by
  obtain ⟨p, hch, hpg, hps, hmin⟩ := chosen_spec S s.curr hns
  refine ⟨p, hpg, hch, ?_, hps, unsolved_valid_two p hps (valid_mem _ hv p hpg), hmin, ?_⟩
  · rw [Solver_Guess_eq, Guess_chosen, hch]
  · intro hst
    obtain ⟨i, hi, hfirst⟩ := chosen_stable S s.curr hst p hch
    refine ⟨i, hi, hfirst, ?_⟩
    intro hpos
    obtain ⟨hr, hc⟩ := hpos.2 i p hi
    rw [hr, hc]
    omega

set_option maxRecDepth 1000000 in
/-- Witness for C12 (amended): the grid left by the first pass on `tiePuzzle`,
with the routine of Go 1.19 and later, which on its seven unsolved entries is
the insertion sort. -/
theorem C12_witness :
    (Solver.onGrid tieAfterPass).curr.IsValid = true ∧
    (Solver.onGrid tieAfterPass).curr.IsSolved = false ∧
    StableOn pdqSortImpl ((Solver.onGrid tieAfterPass).curr.filter fun e => !e.IsSolved) ∧
    ∃ (p : Entry), p ∈ (Solver.onGrid tieAfterPass).curr ∧
      (Solver.onGrid tieAfterPass).curr.chosen pdqSortImpl = some p ∧
      (Solver.onGrid tieAfterPass).Guess pdqSortImpl =
        (guessPush (Solver.onGrid tieAfterPass).curr p.Row p.Column p.Value
          (Solver.onGrid tieAfterPass).grids).map
          (fun grids => { Solver.onGrid tieAfterPass with grids := grids }) ∧
      p.IsSolved = false ∧ 2 ≤ p.Value.length ∧
      (∀ e ∈ (Solver.onGrid tieAfterPass).curr, e.IsSolved = false →
        p.Value.length ≤ e.Value.length) ∧
      (StableOn pdqSortImpl ((Solver.onGrid tieAfterPass).curr.filter fun e => !e.IsSolved) →
        ∃ (i : Nat), (Solver.onGrid tieAfterPass).curr[i]? = some p ∧
          (∀ (j : Nat) (e : Entry), (Solver.onGrid tieAfterPass).curr[j]? = some e →
            e.IsSolved = false → e.Value.length = p.Value.length → i ≤ j) ∧
          (Positioned (Solver.onGrid tieAfterPass).curr → i = 9 * p.Row + p.Column)) :=
  ⟨tie_facts.1, tie_facts.2.1, pdq_stable_short _ (by decide!),
    C12_minimal_stable_first pdqSortImpl (Solver.onGrid tieAfterPass) tie_facts.1
      tie_facts.2.1⟩

/-- C13. On a current grid that is valid and not solved, with every entry
recording its own position, `Guess` succeeds and changes only the stack: it
appends one grid per candidate of the chosen entry, in the stored order of the
candidates; the grid pushed for the candidate at position `k` has the
singleton of that candidate at the chosen cell and agrees with the current
grid at every other cell; the grids already on the stack keep their places. -/
theorem C13_guess_pushes (S : SortImpl) (s : Solver) (hpos : Positioned s.curr)
    (hv : s.curr.IsValid = true) (hns : s.curr.IsSolved = false) :
    ∃ (idx : Nat) (p : Entry) (s1 : Solver),
      s.curr.chosen S = some p ∧ idx = 9 * p.Row + p.Column ∧ s.curr[idx]? = some p ∧
      s.Guess S = some s1 ∧
      s1.curr = s.curr ∧ s1.Puzzle = s.Puzzle ∧ s1.Solution = s.Solution ∧
      s1.grids = s.grids ++ p.Value.map (fun v => s.curr.set idx { p with Value := [v] }) ∧
      s1.grids.length = s.grids.length + p.Value.length ∧ 2 ≤ p.Value.length ∧
      (∀ (k : Nat), k < s.grids.length → s1.grids[k]? = s.grids[k]?) ∧
      ∀ (k v : Nat), p.Value[k]? = some v →
        ∃ G : Grid, s1.grids[s.grids.length + k]? = some G ∧
          G[idx]? = some { p with Value := [v] } ∧
          ∀ (j : Nat), j ≠ idx → G[j]? = s.curr[j]? := by
  obtain ⟨p, hch, hpg, hps, _⟩ := chosen_spec S s.curr hns
  have hidx := chosen_index s.curr hpos p hpg
  have hlt : 9 * p.Row + p.Column < s.curr.length := by
    rcases Nat.lt_or_ge (9 * p.Row + p.Column) s.curr.length with h | h
    · exact h
    · rw [List.getElem?_eq_none h] at hidx
      cases hidx
  have hG : s.Guess S = some { s with
      grids := s.grids ++
        (p.Value.map fun v => s.curr.set (9 * p.Row + p.Column) { p with Value := [v] }) } := by
    rw [Solver_Guess_eq, Guess_chosen, hch]
    simp only [guessPush_spec s.curr p.Row p.Column p p.Value s.grids hidx, Option.map_some']
  refine ⟨9 * p.Row + p.Column, p, _, hch, rfl, hidx, hG, rfl, rfl, rfl, rfl, ?_,
    unsolved_valid_two p hps (valid_mem _ hv p hpg), ?_, ?_⟩
  · simp only [List.length_append, List.length_map]
  · intro k hk
    simp only [List.getElem?_append_left hk]
  · intro k v hkv
    refine ⟨s.curr.set (9 * p.Row + p.Column) { p with Value := [v] }, ?_, ?_, ?_⟩
    · simp only [List.getElem?_append_right (Nat.le_add_right _ _), Nat.add_sub_cancel_left,
        List.getElem?_map, hkv, Option.map_some']
    · simp only [List.getElem?_set_self hlt]
    · intro j hj
      simp only [List.getElem?_set_ne (Ne.symm hj)]

/-- Witness for C13: the grid of the one-clue puzzle, with the stable sort. -/
theorem C13_witness :
    Positioned (Solver.onGrid (gridOf oneCluePuzzle)).curr ∧
    (Solver.onGrid (gridOf oneCluePuzzle)).curr.IsValid = true ∧
    (Solver.onGrid (gridOf oneCluePuzzle)).curr.IsSolved = false ∧
    ∃ (idx : Nat) (p : Entry) (s1 : Solver),
      (Solver.onGrid (gridOf oneCluePuzzle)).curr.chosen insertionSortImpl = some p ∧
      idx = 9 * p.Row + p.Column ∧
      (Solver.onGrid (gridOf oneCluePuzzle)).curr[idx]? = some p ∧
      (Solver.onGrid (gridOf oneCluePuzzle)).Guess insertionSortImpl = some s1 ∧
      s1.curr = (Solver.onGrid (gridOf oneCluePuzzle)).curr ∧
      s1.Puzzle = (Solver.onGrid (gridOf oneCluePuzzle)).Puzzle ∧
      s1.Solution = (Solver.onGrid (gridOf oneCluePuzzle)).Solution ∧
      s1.grids = (Solver.onGrid (gridOf oneCluePuzzle)).grids ++ p.Value.map
        (fun v => (Solver.onGrid (gridOf oneCluePuzzle)).curr.set idx { p with Value := [v] }) ∧
      s1.grids.length =
        (Solver.onGrid (gridOf oneCluePuzzle)).grids.length + p.Value.length ∧
      2 ≤ p.Value.length ∧
      (∀ (k : Nat), k < (Solver.onGrid (gridOf oneCluePuzzle)).grids.length →
        s1.grids[k]? = (Solver.onGrid (gridOf oneCluePuzzle)).grids[k]?) ∧
      ∀ (k v : Nat), p.Value[k]? = some v →
        ∃ G : Grid,
          s1.grids[(Solver.onGrid (gridOf oneCluePuzzle)).grids.length + k]? = some G ∧
          G[idx]? = some { p with Value := [v] } ∧
          ∀ (j : Nat), j ≠ idx → G[j]? = (Solver.onGrid (gridOf oneCluePuzzle)).curr[j]? :=
  ⟨gridOf_positioned oneCluePuzzle (by decide), by decide, by decide,
    C13_guess_pushes insertionSortImpl (Solver.onGrid (gridOf oneCluePuzzle))
      (gridOf_positioned oneCluePuzzle (by decide)) (by decide) (by decide)⟩

/-- C14. In a grid built by `NewGrid` from an 81-character string, for every
entry `e` (at index `i`) each of `SameRow`, `SameColumn` and `SameBlock` yields
exactly 8 entries, no entry twice, and these are exactly the entries other
than `e` whose row, column or block equals that of `e`. The query yields the
entries of the grid itself and returns no grid: no candidate list changes. -/
theorem C14_neighbourhoods (puzzle : String) (g : Grid) (hlen : puzzle.length = 81)
    (hg : NewGrid puzzle = some g) (i : Nat) (e : Entry) (he : g[i]? = some e) :
    ((g.SameRow i).length = 8 ∧ (g.SameRow i).Nodup ∧
      ∀ (j : Nat), j ∈ g.SameRow i ↔
        j ≠ i ∧ ∃ entry, g[j]? = some entry ∧ entry.Row = e.Row) ∧
    ((g.SameColumn i).length = 8 ∧ (g.SameColumn i).Nodup ∧
      ∀ (j : Nat), j ∈ g.SameColumn i ↔
        j ≠ i ∧ ∃ entry, g[j]? = some entry ∧ entry.Column = e.Column) ∧
    ((g.SameBlock i).length = 8 ∧ (g.SameBlock i).Nodup ∧
      ∀ (j : Nat), j ∈ g.SameBlock i ↔
        j ≠ i ∧ ∃ entry, g[j]? = some entry ∧ entry.Block = e.Block) := by
  have hpos := NewGrid_positioned puzzle g hlen hg
  refine ⟨?_, ?_, ?_⟩
  · exact neighbourhood_spec g hpos (fun e => e.Row) (fun j => j / 9)
      (fun j e1 h => (hpos.2 j e1 h).1) row_count i e he
  · exact neighbourhood_spec g hpos (fun e => e.Column) (fun j => j % 9)
      (fun j e1 h => (hpos.2 j e1 h).2) column_count i e he
  · refine neighbourhood_spec g hpos (fun e => e.Block)
      (fun j => j / 9 / 3 * 3 + j % 9 / 3) (fun j e1 h => ?_) block_count i e he
    show e1.Row / 3 * 3 + e1.Column / 3 = _
    rw [(hpos.2 j e1 h).1, (hpos.2 j e1 h).2]

/-- Witness for C14: the centre cell of the first puzzle of `main`. -/
theorem C14_witness :
    firstPuzzle.length = 81 ∧ NewGrid firstPuzzle = some (gridOf firstPuzzle) ∧
    (gridOf firstPuzzle)[40]? = some { Value := [8], Row := 4, Column := 4 } ∧
    (((gridOf firstPuzzle).SameRow 40).length = 8 ∧ ((gridOf firstPuzzle).SameRow 40).Nodup ∧
      ∀ (j : Nat), j ∈ (gridOf firstPuzzle).SameRow 40 ↔
        j ≠ 40 ∧ ∃ entry, (gridOf firstPuzzle)[j]? = some entry ∧
          entry.Row = ({ Value := [8], Row := 4, Column := 4 } : Entry).Row) ∧
    (((gridOf firstPuzzle).SameColumn 40).length = 8 ∧
      ((gridOf firstPuzzle).SameColumn 40).Nodup ∧
      ∀ (j : Nat), j ∈ (gridOf firstPuzzle).SameColumn 40 ↔
        j ≠ 40 ∧ ∃ entry, (gridOf firstPuzzle)[j]? = some entry ∧
          entry.Column = ({ Value := [8], Row := 4, Column := 4 } : Entry).Column) ∧
    (((gridOf firstPuzzle).SameBlock 40).length = 8 ∧
      ((gridOf firstPuzzle).SameBlock 40).Nodup ∧
      ∀ (j : Nat), j ∈ (gridOf firstPuzzle).SameBlock 40 ↔
        j ≠ 40 ∧ ∃ entry, (gridOf firstPuzzle)[j]? = some entry ∧
          entry.Block = ({ Value := [8], Row := 4, Column := 4 } : Entry).Block) :=
  ⟨by decide, gridOf_spec firstPuzzle (by decide), by decide,
    C14_neighbourhoods firstPuzzle (gridOf firstPuzzle) (by decide)
      (gridOf_spec firstPuzzle (by decide)) 40 { Value := [8], Row := 4, Column := 4 }
      (by decide)⟩

/-- C15, counterexample. In the small memory, after `clone := g.Clone()`, the
calls `clone.SetValue(g[1].Value, 0, 0)` and `clone[0].Remove(2)` leave the
second entry of the source reading `[1, 3, 3]` where it read `[1, 2, 3]`:
`SetValue` stores the slice it is given, and `Remove` then shifts the elements
of the array that slice shares with the source. -/
theorem C15_shared_slice_changes_source :
    smallHeap.view smallGrid =
      [some { Value := [4], Row := 0, Column := 0 },
       some { Value := [1, 2, 3], Row := 0, Column := 1 }] ∧
    (smallHeap.objs[1]?).map EntryH.Value = some { arr := 1, len := 3 } ∧
    (smallHeap.CloneGrid smallGrid).map (fun r =>
        ((Heap.run r.2 [CloneOp.setSlice { arr := 1, len := 3 } 0 0, CloneOp.remove 0 2]
            r.1).view r.2,
         (Heap.run r.2 [CloneOp.setSlice { arr := 1, len := 3 } 0 0, CloneOp.remove 0 2]
            r.1).view smallGrid)) =
      some ([some { Value := [1, 3], Row := 0, Column := 0 },
             some { Value := [1, 2, 3], Row := 0, Column := 1 }],
            [some { Value := [4], Row := 0, Column := 0 },
             some { Value := [1, 3, 3], Row := 0, Column := 1 }]) := by
  decide

/-- C15, amended. In memory, for a grid whose entries can all be read, `Clone`
succeeds and returns a grid that reads as the same entries in the same order
(equal candidates, rows and columns), as `Grid.Clone` does on values, and the
source reads as before. After any sequence of `SetValue` calls on the clone
and `Remove` calls on entries of the clone in which no slice handed to
`SetValue` has the backing array of an entry of the source, every entry of
the source reads as before the clone was made, and so it does after one
further `SetValue` or `Remove` of any kind. -/
theorem C15_clone_independent (h : Heap) (g : GridH)
    (hg : ∀ p ∈ g, (h.entry p).isSome = true) :
    ∃ (h1 : Heap) (g1 : GridH), h.CloneGrid g = some (h1, g1) ∧
      g1.length = g.length ∧ h1.view g1 = h.view g ∧ h1.view g = h.view g ∧
      (∀ G : Grid, h.view g = G.map some → h1.view g1 = (Grid.Clone G).map some) ∧
      ∀ ops : List CloneOp, (∀ op ∈ ops, op.Apart h g) →
        (Heap.run g1 ops h1).view g = h.view g ∧
        ∀ op : CloneOp, (Heap.run g1 [op] (Heap.run g1 ops h1)).view g = h.view g := by
  obtain ⟨h1, g1, hclone, hag, hfr, hview⟩ := CloneGrid_spec h g hg
  have hk : Heap.Keeps h h1 g := hag.keeps g hg
  have hs : Heap.Separate h h1 g g1 := hfr.separate g hg
  refine ⟨h1, g1, hclone, ?_, hview, hk.sameView, ?_, ?_⟩
  · have := congrArg List.length hview
    simpa [Heap.view] using this
  · intro G hG
    rw [Grid.Clone_eq, hview, hG]
  · intro ops hops
    exact ⟨(run_keeps h g g1 hg ops hops h1 hk hs).1.sameView,
      fun op => (run_then_step h g g1 hg ops hops h1 hk hs op).sameView⟩

/-- Witness for C15 (amended): a memory holding a grid of two entries. -/
theorem C15_witness :
    (∀ p ∈ smallGrid, (smallHeap.entry p).isSome = true) ∧
    ∃ (h1 : Heap) (g1 : GridH), smallHeap.CloneGrid smallGrid = some (h1, g1) ∧
      g1.length = smallGrid.length ∧ h1.view g1 = smallHeap.view smallGrid ∧
      h1.view smallGrid = smallHeap.view smallGrid ∧
      (∀ G : Grid, smallHeap.view smallGrid = G.map some →
        h1.view g1 = (Grid.Clone G).map some) ∧
      ∀ ops : List CloneOp, (∀ op ∈ ops, op.Apart smallHeap smallGrid) →
        (Heap.run g1 ops h1).view smallGrid = smallHeap.view smallGrid ∧
        ∀ op : CloneOp,
          (Heap.run g1 [op] (Heap.run g1 ops h1)).view smallGrid = smallHeap.view smallGrid :=
  ⟨by decide, C15_clone_independent smallHeap smallGrid (by decide)⟩

/-- C16. After `Push(A)` then `Push(B)`, the first `Pop` returns `(B, true)`, the
second returns `(A, true)`, and the stack is then what it was before the pushes. -/
theorem C16_lifo (s : Stack) (A B : Grid) :
    Stack.Pop ((s.Push A).Push B) = (some B, true, s.Push A) ∧
    Stack.Pop (s.Push A) = (some A, true, s) :=
  ⟨Pop_concat (s.Push A) B, Pop_concat s A⟩

/-- C17. On a well-formed puzzle `Solve` returns within a bounded number of
pops; and on a grid that is not solved and records its positions, every grid
`Guess` pushes has strictly fewer candidates in total than that grid. -/
theorem C17_solve_terminates (S : SortImpl) (s : Solver) (puzzle : String)
    (hw : WellFormed puzzle) :
    (∃ (fuel0 : Nat) (s1 : Solver) (str : String) (ok : Bool),
      ∀ fuel, fuel0 ≤ fuel → Solver.Solve S fuel s puzzle = some (some (s1, str, ok))) ∧
    ∀ (g : Grid) (grids : Stack), Positioned g → g.IsSolved = false →
      ∃ pushed : List Grid, g.Guess S grids = some (grids ++ pushed) ∧
        ∀ c ∈ pushed, weight c < weight g := by
  refine ⟨Solve_total S s puzzle hw, ?_⟩
  intro g grids hpos hns
  refine ⟨g.children S, Guess_eq S g grids hpos hns, ?_⟩
  obtain ⟨idx, p, hp, hps, _, hch⟩ := children_spec S g hpos hns
  have hk1 : p.Value.length ≠ 1 := by
    intro h1
    simp [Entry.IsSolved, h1] at hps
  intro c hc
  rw [hch, List.mem_map] at hc
  obtain ⟨v, hv, rfl⟩ := hc
  have hw1 := weight_set g idx p { p with Value := [v] } hp
  have hpos1 : 0 < p.Value.length := List.length_pos_of_mem hv
  simp only [List.length_singleton] at hw1
  omega

/-- Witness for C17: the first example puzzle. -/
theorem C17_witness :
    WellFormed firstPuzzle ∧
    ((∃ (fuel0 : Nat) (s1 : Solver) (str : String) (ok : Bool),
      ∀ fuel, fuel0 ≤ fuel →
        Solver.Solve insertionSortImpl fuel Solver.zero firstPuzzle = some (some (s1, str, ok))) ∧
    ∀ (g : Grid) (grids : Stack), Positioned g → g.IsSolved = false →
      ∃ pushed : List Grid, g.Guess insertionSortImpl grids = some (grids ++ pushed) ∧
        ∀ c ∈ pushed, weight c < weight g) :=
  ⟨by decide, C17_solve_terminates insertionSortImpl Solver.zero firstPuzzle (by decide)⟩

/-- C18. On a grid whose candidate lists hold no value twice and on which
`Eliminate` returns true: an entry whose candidates were exactly `[v]` before
the pass has exactly `[v]` after it, no other entry of its row, column or
block has `v` among its candidates after the pass, and every entry keeps its
position with candidates that are a sub-list of those it had before. -/
theorem C18_eliminate_sound (s : Solver) (hd : NodupGrid s.curr)
    (hflag : s.Eliminate.1 = true) :
    s.Eliminate.2.curr.length = s.curr.length ∧
    (∀ (i : Nat) (e : Entry) (v : Nat), s.curr[i]? = some e → e.Value = [v] →
      (∃ e1, s.Eliminate.2.curr[i]? = some e1 ∧ e1.Value = [v]) ∧
      ∀ (j : Nat) (e1 : Entry), Peer s.curr i j → s.Eliminate.2.curr[j]? = some e1 →
        v ∉ e1.Value) ∧
    ∀ (i : Nat) (e e1 : Entry), s.curr[i]? = some e → s.Eliminate.2.curr[i]? = some e1 →
      e1.Row = e.Row ∧ e1.Column = e.Column ∧ e1.Value.Sublist e.Value ∧
        ∀ v ∈ e1.Value, v ∈ e.Value := by
  have href : Refines s.curr.Eliminate.2 s.curr := Eliminate_refines s.curr
  refine ⟨href.1, ?_, ?_⟩
  · intro i e v he hv
    have hi : i ∈ List.range s.curr.length := List.mem_range.2 (getElem?_lt he)
    exact eliminateLoop_solved (List.range s.curr.length) s.curr hd hflag i hi e v he hv
  · intro i e e1 he he1
    obtain ⟨hr, hc, hsub⟩ := href.2 i e1 e he1 he
    exact ⟨hr, hc, hsub, fun v hv => hsub.subset hv⟩

set_option maxRecDepth 1000000 in
/-- Witness for C18: the grid of the one-clue puzzle. -/
theorem C18_witness :
    NodupGrid (Solver.onGrid (gridOf oneCluePuzzle)).curr ∧
    (Solver.onGrid (gridOf oneCluePuzzle)).Eliminate.1 = true ∧
    ((Solver.onGrid (gridOf oneCluePuzzle)).Eliminate.2.curr.length =
      (Solver.onGrid (gridOf oneCluePuzzle)).curr.length ∧
    (∀ (i : Nat) (e : Entry) (v : Nat),
      (Solver.onGrid (gridOf oneCluePuzzle)).curr[i]? = some e → e.Value = [v] →
      (∃ e1, (Solver.onGrid (gridOf oneCluePuzzle)).Eliminate.2.curr[i]? = some e1 ∧
        e1.Value = [v]) ∧
      ∀ (j : Nat) (e1 : Entry), Peer (Solver.onGrid (gridOf oneCluePuzzle)).curr i j →
        (Solver.onGrid (gridOf oneCluePuzzle)).Eliminate.2.curr[j]? = some e1 →
        v ∉ e1.Value) ∧
    ∀ (i : Nat) (e e1 : Entry), (Solver.onGrid (gridOf oneCluePuzzle)).curr[i]? = some e →
      (Solver.onGrid (gridOf oneCluePuzzle)).Eliminate.2.curr[i]? = some e1 →
      e1.Row = e.Row ∧ e1.Column = e.Column ∧ e1.Value.Sublist e.Value ∧
        ∀ v ∈ e1.Value, v ∈ e.Value) :=
  ⟨nodupGrid_of_all _ (by decide!), by decide!,
    C18_eliminate_sound (Solver.onGrid (gridOf oneCluePuzzle)) (nodupGrid_of_all _ (by decide!))
      (by decide!)⟩

/-- C19. On a well-formed puzzle `Solve` has no run-time fault at any bound on
the number of pops: `NewGrid` reads the string only at positions below its
length; every grid on which `Guess` runs (recorded by `SolveT`, whose result is
that of `Solve`) has 81 entries, at least one of them unsolved, so that the
sorted slice has a first element, and the chosen entry has at least two
candidates and a position `9 * row + column` below 81; and an entry that is
solved, the only kind of which `Eliminate` reads `Value[0]`, has exactly one
candidate. -/
theorem C19_no_out_of_range (S : SortImpl) (fuel : Nat) (s : Solver) (puzzle : String)
    (hw : WellFormed puzzle) :
    Solver.Solve S fuel s puzzle ≠ some none ∧
    NewGrid puzzle ≠ none ∧
    (∀ (r c : Nat), r < 9 → c < 9 → 9 * r + c < puzzle.length) ∧
    (Solver.SolveT S fuel s puzzle).1 = Solver.Solve S fuel s puzzle ∧
    (∀ g ∈ (Solver.SolveT S fuel s puzzle).2, g.length = 81 ∧
      ∃ p, g.chosen S = some p ∧
        0 < (S.sort (g.filter fun e => !e.IsSolved)).length ∧
        2 ≤ p.Value.length ∧ p.Row < 9 ∧ p.Column < 9 ∧ 9 * p.Row + p.Column < g.length ∧
        ∀ (v : Nat), (Grid.Clone g).SetValue [v] p.Row p.Column ≠ none) ∧
    ∀ (e : Entry), e.IsSolved = true →
      e.Value.length = 1 ∧ e.Value[0]? = some (e.Value.headD 0) := by
  obtain ⟨G0, hG, hpos, _⟩ := NewGrid_exists puzzle hw
  refine ⟨Solve_no_fault S fuel s puzzle hw, by rw [hG]; simp, ?_, SolveT_fst S fuel s puzzle,
    ?_, ?_⟩
  · intro r c hr hc
    rw [hw.1]
    omega
  · intro g hg
    obtain ⟨href, hv, hns⟩ := SolveT_trace S fuel s puzzle G0 hw hG hpos g hg
    have hgpos : Positioned g := href.positioned hpos
    obtain ⟨p, hch, hpg, hps, _⟩ := chosen_spec S g hns
    obtain ⟨i, hi⟩ := List.getElem?_of_mem hpg
    have hilt : i < 81 := hgpos.1 ▸ getElem?_lt hi
    obtain ⟨hr, hc⟩ := hgpos.2 i p hi
    have hidx : 9 * p.Row + p.Column = i := by rw [hr, hc]; omega
    refine ⟨hgpos.1, p, hch, ?_, unsolved_valid_two p hps (valid_mem g hv p hpg), ?_, ?_, ?_, ?_⟩
    · unfold Grid.chosen at hch
      cases hsort : S.sort (g.filter fun e => !e.IsSolved) with
      | nil => rw [hsort] at hch; cases hch
      | cons q tl => simp
    · rw [hr]; omega
    · rw [hc]; omega
    · rw [hidx, hgpos.1]; exact hilt
    · intro v
      rw [Grid.Clone_eq]
      unfold Grid.SetValue
      simp only [hidx, hi]
      simp
  · intro e he
    unfold Entry.IsSolved at he
    simp only [decide_eq_true_eq] at he
    refine ⟨he, ?_⟩
    cases hval : e.Value with
    | nil => rw [hval] at he; cases he
    | cons v tl => simp

/-- Witness for C19: the first puzzle of `main`, with at most five pops. -/
theorem C19_witness :
    WellFormed firstPuzzle ∧
    (Solver.Solve insertionSortImpl 5 Solver.zero firstPuzzle ≠ some none ∧
    NewGrid firstPuzzle ≠ none ∧
    (∀ (r c : Nat), r < 9 → c < 9 → 9 * r + c < firstPuzzle.length) ∧
    (Solver.SolveT insertionSortImpl 5 Solver.zero firstPuzzle).1 =
      Solver.Solve insertionSortImpl 5 Solver.zero firstPuzzle ∧
    (∀ g ∈ (Solver.SolveT insertionSortImpl 5 Solver.zero firstPuzzle).2, g.length = 81 ∧
      ∃ p, g.chosen insertionSortImpl = some p ∧
        0 < (insertionSortImpl.sort (g.filter fun e => !e.IsSolved)).length ∧
        2 ≤ p.Value.length ∧ p.Row < 9 ∧ p.Column < 9 ∧ 9 * p.Row + p.Column < g.length ∧
        ∀ (v : Nat), (Grid.Clone g).SetValue [v] p.Row p.Column ≠ none) ∧
    ∀ (e : Entry), e.IsSolved = true →
      e.Value.length = 1 ∧ e.Value[0]? = some (e.Value.headD 0)) :=
  ⟨by decide, C19_no_out_of_range insertionSortImpl 5 Solver.zero firstPuzzle (by decide)⟩

/-- C20. For a well-formed puzzle string, `NewGrid` succeeds and `GridToString`
of the grid it builds is the puzzle string itself. -/
theorem C20_roundtrip (puzzle : String) (hw : WellFormed puzzle) :
    ∃ g, NewGrid puzzle = some g ∧ GridToString g = puzzle := by
  obtain ⟨g, hg, hlen, hget⟩ := NewGrid_spec puzzle hw.1
  refine ⟨g, hg, ?_⟩
  have hplen : puzzle.toList.length = 81 := hw.1
  have hchars : ∀ e ∈ g, entryChars e = [(entryChars e).headD '.'] := by
    intro e he
    obtain ⟨i, hi⟩ := List.getElem?_of_mem he
    obtain ⟨c, hc1, hc2, hc3⟩ := NewGrid_get puzzle g hw hg i e hi
    rw [hc3, entryChars_NewEntry c _ _ hc2]
    rfl
  have hdata : (GridToString g).data = puzzle.data := by
    rw [GridToString_data, flatMap_singleton_eq entryChars _ g hchars]
    apply List.ext_getElem?
    intro i
    rw [List.getElem?_map]
    rcases Nat.lt_or_ge i 81 with hi | hi
    · obtain ⟨c, hc1, hc2⟩ := hget i hi
      have hcm : c ∈ alphabet := hw.2 c (List.getElem?_mem hc1)
      rw [hc2]
      simp only [Option.map_some', entryChars_NewEntry c _ _ hcm, List.headD_cons]
      exact hc1.symm
    · rw [List.getElem?_eq_none (by omega), List.getElem?_eq_none (by rw [← hplen] at hi; exact hi)]
      rfl
  exact String.ext hdata

/-- Witness for C20: the first puzzle of `main`. -/
theorem C20_witness :
    WellFormed firstPuzzle ∧ ∃ g, NewGrid firstPuzzle = some g ∧ GridToString g = firstPuzzle :=
  ⟨by decide, C20_roundtrip firstPuzzle (by decide)⟩

end Sudoku
